import Mathlib

/-!
# Avian JIT back-end: compiler front-end and x86 assembler

A shallow embedding of `src/compiler.cpp` and `src/x86.cpp`.

Conventions of the embedding

* `BytesPerWord` (4 on x86, 8 on x86-64) is a compile-time constant of the source; here it is an
  explicit argument of every function that depends on it.
* C++ `int`, `int32_t`, `int64_t`, `intptr_t` values are `Int`; conversions between widths are the
  explicit wraps `wrapSigned` / `wrapUnsigned`.
* The code vector is a list of bytes (`Nat` below 256).  Memory is a map from addresses to bytes;
  the destination buffer of `writeTo` is the region of memory that starts at `dst`.
* `abort`, a failed `expect` and a failed `assert` end the run; functions that can do so return
  `Option` or `Result`.  Assertions are modelled as checked (a debug build).
* Objects that the source reaches through pointers and mutates after sharing them (stack frames,
  compiler code promises, sites, values, reads) live in stores indexed by a number that stands
  for the pointer.
* compiler.cpp drives the assembler through the abstract class `Assembler`; the functions of the
  compiler take that interface as an argument.
-/

namespace Avian

/-! ## Machine integers -/

/-- Bitwise or of C++ `int` values. -/
instance : OrOp Int := ⟨Int.lor⟩

/-- Bitwise and of C++ `int` values. -/
instance : AndOp Int := ⟨Int.land⟩

/-- Conversion to a signed two's-complement integer of `bits` bits. -/
def wrapSigned (bits : Nat) (v : Int) : Int :=
  (v + 2 ^ (bits - 1)) % 2 ^ bits - 2 ^ (bits - 1)

/-- Conversion to an unsigned integer of `bits` bits. -/
def wrapUnsigned (bits : Nat) (v : Int) : Int :=
  v % 2 ^ bits

/-- The predicate `isInt8` of x86.cpp: `v == static_cast<int8_t>(v)`. -/
def isInt8 (v : Int) : Bool :=
  v == wrapSigned 8 v

/-- The predicate `isInt32` of x86.cpp: `v == static_cast<int32_t>(v)`. -/
def isInt32 (v : Int) : Bool :=
  v == wrapSigned 32 v

/-- The bytes of `v`, least significant first, `n` of them (what `memcpy` from an integer of `n`
bytes yields on the little-endian x86 host). -/
def leBytes : Nat → Int → List Nat
  | 0, _ => []
  | n + 1, v => (v % 256).toNat :: leBytes n (v / 256)

/-- Modelled from the spec: `ceiling` of common.h, which is not among the sources; the spec writes
`pad(length) = ⌈length / WORD⌉ * WORD`, and `ceiling(n, d)` is that rounded-up quotient. -/
def ceiling (n d : Nat) : Nat :=
  (n + d - 1) / d

/-- Modelled from the spec: `pad` of common.h, which is not among the sources;
`pad(length) = ⌈length / WORD⌉ * WORD`. -/
def pad (BytesPerWord n : Nat) : Nat :=
  ceiling n BytesPerWord * BytesPerWord

/-! ## Memory -/

/-- Byte-addressed memory. -/
abbrev RawMemory := Int → Nat

/-- The effect of `memcpy(a, bytes, bytes.length)`. -/
def writeBytes (m : RawMemory) (a : Int) : List Nat → RawMemory
  | [] => m
  | b :: bs => writeBytes (Function.update m a b) (a + 1) bs

/-- The unsigned little-endian value of the `n` bytes at address `a`. -/
def readLE (m : RawMemory) (a : Int) : Nat → Int
  | 0 => 0
  | n + 1 => (m a : Int) + 256 * readLE m (a + 1) n

/-- The `int32_t` stored at address `a`. -/
def readInt32 (m : RawMemory) (a : Int) : Int :=
  wrapSigned 32 (readLE m a 4)

/-- The `intptr_t` stored at address `a`. -/
def readWord (BytesPerWord : Nat) (m : RawMemory) (a : Int) : Int :=
  wrapSigned (8 * BytesPerWord) (readLE m a BytesPerWord)

/-- The unsigned value of a list of bytes, least significant first. -/
def leValue : List Nat → Int
  | [] => 0
  | b :: bs => (b : Int) + 256 * leValue bs

/-- Outcome of a run that may abort; an abort keeps the state reached when it happened. -/
inductive Result (σ : Type) where
  | done (s : σ)
  | abort (s : σ)

/-- The state a run ended in, aborted or not. -/
def Result.state {σ : Type} : Result σ → σ
  | .done s => s
  | .abort s => s

/-- Whether the run aborted. -/
def Result.aborted {σ : Type} : Result σ → Bool
  | .done _ => false
  | .abort _ => true

/-! ## Promises -/

/-- The promise classes of the two source files.  `resolved` is `ResolvedPromise`; `asmCode` is the
`CodePromise` of x86.cpp; `pool`, `code` and `ip` are `PoolPromise`, `CodePromise` and `IpPromise`
of compiler.cpp.  A compiler `CodePromise` has an `offset` field that `compile` assigns after the
promise was handed out, so the promise is named by a number and its offset is looked up. -/
inductive Promise where
  | resolved (value : Int)
  | asmCode (offset : Nat)
  | pool (key : Int)
  | code (id : Nat)
  | ip (logicalIp : Int)
deriving DecidableEq, Repr

/-- What the promise classes read from the two contexts when they are queried. -/
structure PromiseView where
  /-- The field `result` of the x86 context (0 is the null pointer). -/
  result : Int
  /-- The field `machineCode` of the compiler context (0 is the null pointer). -/
  machineCode : Int
  /-- The value of `c->assembler->length()`. -/
  length : Nat
  /-- The field `machineOffset` of `c->logicalCode[i]`. -/
  machineOffset : Int → Nat
  /-- The field `offset` of the compiler code promise with the given number. -/
  codeOffset : Nat → Int

/-- The method `resolved()` of each promise class. -/
def Promise.isResolved (w : PromiseView) : Promise → Bool
  | .resolved _ => true
  | .asmCode _ => w.result != 0
  | .pool _ => w.machineCode != 0
  | .code id => w.machineCode != 0 && decide (w.codeOffset id ≥ 0)
  | .ip _ => w.machineCode != 0

/-- The method `value()` of each promise class; `none` is `abort`. -/
def Promise.value (BytesPerWord : Nat) (w : PromiseView) (p : Promise) : Option Int :=
  if p.isResolved w then
    match p with
    | .resolved v => some v
    | .asmCode offset => some (wrapSigned (8 * BytesPerWord) (w.result + offset))
    | .pool key =>
      some (wrapSigned (8 * BytesPerWord)
        (w.machineCode + pad BytesPerWord w.length + key * BytesPerWord))
    | .code id => some (wrapSigned (8 * BytesPerWord) (w.machineCode + w.codeOffset id))
    | .ip logicalIp =>
      some (wrapSigned (8 * BytesPerWord) (w.machineCode + w.machineOffset logicalIp))
  else
    none

/-! ## Stores -/

/-- A block of bytes and the address it is stored at. -/
abbrev Store := Int × List Nat

/-- The effect of a sequence of `memcpy` calls, first to last. -/
def applyStores : List Store → RawMemory → RawMemory
  | [], m => m
  | s :: ss, m => applyStores ss (writeBytes m s.1 s.2)

/-- The byte a sequence of stores leaves at address `x`, if one of them covers `x`. -/
def storedByte : List Store → Int → Option Nat
  | [], _ => none
  | s :: ss, x =>
    match storedByte ss x with
    | some b => some b
    | none => if s.1 ≤ x ∧ x < s.1 + s.2.length then some (s.2.getD (x - s.1).toNat 0) else none

/-- A run that ends in the given memory, completed or aborted. -/
def Result.ofFlag {σ : Type} (completed : Bool) (s : σ) : Result σ :=
  if completed then .done s else .abort s

namespace X86

/-! ## x86.cpp: tasks -/

/-- The classes `OffsetTask` and `ImmediateTask`. -/
inductive Task where
  | offset (promise : Promise) (instructionOffset : Nat) (instructionSize : Nat)
  | immediate (promise : Promise) (offset : Nat)
deriving DecidableEq, Repr

/-- The method `OffsetTask::run`. -/
def OffsetTask.run (BytesPerWord : Nat) (w : PromiseView) (promise : Promise)
    (instructionOffset instructionSize : Nat) (m : RawMemory) : Result RawMemory :=
  let instruction : Int := w.result + instructionOffset
  match promise.value BytesPerWord w with
  | none => .abort m
  | some pv =>
    let v : Int :=
      wrapSigned (8 * BytesPerWord)
        (wrapUnsigned (8 * BytesPerWord) pv - instruction - instructionSize)
    if isInt32 v then
      let v4 : Int := wrapSigned 32 v
      .done (writeBytes m (instruction + instructionSize - 4) (leBytes 4 v4))
    else
      .abort m

/-- The method `ImmediateTask::run`. -/
def ImmediateTask.run (BytesPerWord : Nat) (w : PromiseView) (promise : Promise) (offset : Nat)
    (m : RawMemory) : Result RawMemory :=
  match promise.value BytesPerWord w with
  | none => .abort m
  | some pv =>
    let v : Int := wrapSigned (8 * BytesPerWord) pv
    .done (writeBytes m (w.result + offset) (leBytes BytesPerWord v))

/-- The virtual method `Task::run`. -/
def Task.run (BytesPerWord : Nat) (w : PromiseView) (m : RawMemory) : Task → Result RawMemory
  | .offset p o n => OffsetTask.run BytesPerWord w p o n m
  | .immediate p o => ImmediateTask.run BytesPerWord w p o m

/-! ## assembler.h: operands -/

/-- The constant `NoRegister`. -/
def NoRegister : Int := -1

namespace Assembler

/-- The operand class `Assembler::Register`. -/
structure Register where
  low : Int
  high : Int
deriving DecidableEq, Repr

/-- The operand class `Assembler::Constant`. -/
structure Constant where
  value : Promise
deriving DecidableEq, Repr

/-- The operand class `Assembler::Memory`. -/
structure Memory where
  base : Int
  offset : Int
  index : Int
  scale : Nat
deriving DecidableEq, Repr

end Assembler

/-- The constructor `Register(low)`, whose `high` defaults to `NoRegister`. -/
def reg (low : Int) : Assembler.Register :=
  ⟨low, NoRegister⟩

/-! ## x86.cpp: registers and context -/

def rax : Int := 0
def rcx : Int := 1
def rdx : Int := 2
def rbx : Int := 3
def rsp : Int := 4
def rbp : Int := 5
def rsi : Int := 6
def rdi : Int := 7
def r8 : Int := 8
def r9 : Int := 9
def r10 : Int := 10
def r11 : Int := 11
def r12 : Int := 12
def r13 : Int := 13
def r14 : Int := 14
def r15 : Int := 15

/-- The class `Context` of x86.cpp: the code vector, the task list (most recent task first) and
the destination pointer `result`. -/
structure Context where
  code : List Nat
  tasks : List Task
  result : Int

/-- The call `c->code.append(v)`: one byte, `v` converted to `uint8_t`. -/
def Context.append (c : Context) (v : Int) : Context :=
  { c with code := c.code ++ [(v % 256).toNat] }

/-- The call `c->code.append4(v)`: the four bytes of `v` as `uint32_t`. -/
def Context.append4 (c : Context) (v : Int) : Context :=
  { c with code := c.code ++ leBytes 4 v }

/-- The call `c->code.appendAddress(v)`: the `BytesPerWord` bytes of `v` as `uintptr_t`. -/
def Context.appendAddress (BytesPerWord : Nat) (c : Context) (v : Int) : Context :=
  { c with code := c.code ++ leBytes BytesPerWord v }

/-- The call `c->code.append(data, length)`. -/
def Context.appendBytes (c : Context) (data : List Nat) : Context :=
  { c with code := c.code ++ data }

/-- What the promises read from the compiler context that owns the assembler, and what its
client hands to an encoder: `temporary` is the register `c->client->acquireTemporary()` returns,
`none` when that call aborts.  The encoder releases the register before it returns, which
leaves the register table of the compiler as it was. -/
structure CompilerSide where
  machineCode : Int
  machineOffset : Int → Nat
  codeOffset : Nat → Int
  temporary : Option Int

/-- What the promises see of this context and of the compiler that owns it. -/
def Context.view (c : Context) (cs : CompilerSide) : PromiseView :=
  ⟨c.result, cs.machineCode, c.code.length, cs.machineOffset, cs.codeOffset⟩

/-- The function `appendOffsetTask`. -/
def appendOffsetTask (c : Context) (promise : Promise) (instructionOffset instructionSize : Nat) :
    Context :=
  { c with tasks := Task.offset promise instructionOffset instructionSize :: c.tasks }

/-- The function `appendImmediateTask`. -/
def appendImmediateTask (c : Context) (promise : Promise) (offset : Nat) : Context :=
  { c with tasks := Task.immediate promise offset :: c.tasks }

/-- The loop of `log` in common.h, with the 32 iterations an `unsigned` allows. -/
def logLoop (n : Nat) : Nat → Nat → Nat → Nat
  | 0, _, r => r
  | fuel + 1, i, r => if i < n then logLoop n fuel (i <<< 1) (r + 1) else r

/-- Modelled from the spec: `log` of common.h, which is not among the sources; the base-2
logarithm that turns a scale of 1, 2, 4 or 8 into the two-bit scale field of a SIB byte. -/
def log (n : Nat) : Nat :=
  logLoop n 32 1 0

/-! ## x86.cpp: encoders -/

/-- The function `encode(c, instruction, length, a, b, displacement, index, scale)`.
`none` is the failed assertion `b != rsp`. -/
def encode (c : Context) (instruction : List Nat) (a b : Int) (displacement : Int) (index : Int)
    (scale : Nat) : Option Context :=
  let c := c.appendBytes instruction
  let width : Int :=
    if displacement = 0 ∧ b ≠ rbp then 0
    else if isInt8 displacement then 0x40
    else 0x80
  let modrm : Option Context :=
    if index = -1 then
      let c := c.append (width ||| (a <<< 3) ||| b)
      if b = rsp then some (c.append 0x24) else some c
    else if b ≠ rsp then
      let c := c.append (width ||| (a <<< 3) ||| 4)
      some (c.append (((log scale : Int) <<< 6) ||| (index <<< 3) ||| b))
    else
      none
  match modrm with
  | none => none
  | some c =>
    if displacement = 0 ∧ b ≠ rbp then some c
    else if isInt8 displacement then some (c.append displacement)
    else some (c.append4 displacement)

/-- The function `rex(c, mask, r)`. -/
def rex (BytesPerWord : Nat) (c : Context) (mask : Int) (r : Int) : Context :=
  if BytesPerWord = 8 then c.append (mask ||| ((r &&& 8) >>> 3)) else c

/-- The function `rex(c)`. -/
def rex0 (BytesPerWord : Nat) (c : Context) : Context :=
  rex BytesPerWord c 0x48 rax

/-- The function `encode(c, instruction, a, b, rex)` with a one-byte opcode. -/
def encode1 (BytesPerWord : Nat) (c : Context) (instruction : Nat) (a : Int)
    (b : Assembler.Memory) (useRex : Bool) : Option Context :=
  let c := if useRex then rex0 BytesPerWord c else c
  encode c [instruction % 256] a b.base b.offset b.index b.scale

/-- The function `encode2`, with a two-byte opcode. -/
def encode2 (BytesPerWord : Nat) (c : Context) (instruction : Nat) (a : Int)
    (b : Assembler.Memory) (useRex : Bool) : Option Context :=
  let c := if useRex then rex0 BytesPerWord c else c
  encode c [(instruction >>> 8) % 256, (instruction &&& 0xff) % 256] a b.base b.offset b.index
    b.scale

/-- The function `return_`. -/
def return_ (c : Context) : Context :=
  c.append 0xc3

/-- The function `unconditional`. -/
def unconditional (c : Context) (jump : Nat) (a : Assembler.Constant) : Context :=
  let c := appendOffsetTask c a.value c.code.length 5
  let c := c.append jump
  c.append4 0

/-- The function `conditional`. -/
def conditional (c : Context) (condition : Nat) (a : Assembler.Constant) : Context :=
  let c := appendOffsetTask c a.value c.code.length 6
  let c := c.append 0x0f
  let c := c.append condition
  c.append4 0

/-- The function `jumpR`; `none` is the failed assertion `size == BytesPerWord`. -/
def jumpR (BytesPerWord : Nat) (c : Context) (size : Nat) (a : Assembler.Register) :
    Option Context :=
  if size = BytesPerWord then
    let c := if a.low &&& 8 ≠ 0 then rex BytesPerWord c 0x40 a.low else c
    let c := c.append 0xff
    some (c.append (0xe0 ||| (a.low &&& 7)))
  else
    none

/-- The function `jumpC`. -/
def jumpC (BytesPerWord : Nat) (c : Context) (size : Nat) (a : Assembler.Constant) :
    Option Context :=
  if size = BytesPerWord then some (unconditional c 0xe9 a) else none

/-- The function `callR`. -/
def callR (BytesPerWord : Nat) (c : Context) (size : Nat) (a : Assembler.Register) :
    Option Context :=
  if size = BytesPerWord then
    let c := if a.low &&& 8 ≠ 0 then rex BytesPerWord c 0x40 a.low else c
    let c := c.append 0xff
    some (c.append (0xd0 ||| (a.low &&& 7)))
  else
    none

/-- The function `callC`. -/
def callC (BytesPerWord : Nat) (c : Context) (size : Nat) (a : Assembler.Constant) :
    Option Context :=
  if size = BytesPerWord then some (unconditional c 0xe8 a) else none

/-- The function `pushR`.  The two recursive calls of the 32-bit branch have size 4; `fuel`
bounds the recursion depth, which is at most 2. -/
def pushRFuel (BytesPerWord : Nat) : Nat → Context → Nat → Assembler.Register → Option Context
  | 0, _, _, _ => none
  | fuel + 1, c, size, a =>
    if BytesPerWord = 4 ∧ size = 8 then
      let ah := reg a.high
      match pushRFuel BytesPerWord fuel c 4 ah with
      | none => none
      | some c => pushRFuel BytesPerWord fuel c 4 a
    else
      some (c.append (0x50 ||| a.low))

/-- The function `pushR`. -/
def pushR (BytesPerWord : Nat) (c : Context) (size : Nat) (a : Assembler.Register) :
    Option Context :=
  pushRFuel BytesPerWord 2 c size a

/-- The function `moveRR`; `fuel` bounds the recursion depth, which is at most 3.  `none` is a
failed assertion. -/
def moveRRFuel (BytesPerWord : Nat) :
    Nat → Context → Nat → Assembler.Register → Nat → Assembler.Register → Option Context
  | 0, _, _, _, _, _ => none
  | fuel + 1, c, aSize, a, bSize, b =>
    if BytesPerWord = 4 ∧ aSize = 8 ∧ bSize = 8 then
      let ah := reg a.high
      let bh := reg b.high
      match moveRRFuel BytesPerWord fuel c 4 a 4 b with
      | none => none
      | some c => moveRRFuel BytesPerWord fuel c 4 ah 4 bh
    else if aSize = 1 then
      if BytesPerWord = 4 ∧ a.low > rbx then
        if b.low ≤ rbx then
          match moveRRFuel BytesPerWord fuel c BytesPerWord a BytesPerWord b with
          | none => none
          | some c => moveRRFuel BytesPerWord fuel c 1 b BytesPerWord b
        else
          none
      else
        let c := rex0 BytesPerWord c
        let c := c.append 0x0f
        let c := c.append 0xbe
        some (c.append (0xc0 ||| (b.low <<< 3) ||| a.low))
    else if aSize = 2 then
      let c := rex0 BytesPerWord c
      let c := c.append 0x0f
      let c := c.append 0xbf
      some (c.append (0xc0 ||| (b.low <<< 3) ||| a.low))
    else if aSize = 8 ∨ aSize = 4 then
      if aSize = 4 ∧ bSize = 8 then
        if BytesPerWord = 8 then
          let c := rex0 BytesPerWord c
          let c := c.append 0x63
          some (c.append (0xc0 ||| (b.low <<< 3) ||| a.low))
        else if a.low = rax ∧ b.low = rax ∧ b.high = rdx then
          some (c.append 0x99)
        else if b.low = rax ∧ b.high = rdx then
          match moveRRFuel BytesPerWord fuel c 4 a 4 b with
          | none => none
          | some c => moveRRFuel BytesPerWord fuel c 4 b 8 b
        else
          none
      else if a.low ≠ b.low then
        let c := rex0 BytesPerWord c
        let c := c.append 0x89
        some (c.append (0xc0 ||| (a.low <<< 3) ||| b.low))
      else
        some c
    else
      some c

/-- The function `moveRR`. -/
def moveRR (BytesPerWord : Nat) (c : Context) (aSize : Nat) (a : Assembler.Register) (bSize : Nat)
    (b : Assembler.Register) : Option Context :=
  moveRRFuel BytesPerWord 3 c aSize a bSize b

/-- The function `popR`; `fuel` bounds the recursion depth, which is at most 2. -/
def popRFuel (BytesPerWord : Nat) : Nat → Context → Nat → Assembler.Register → Option Context
  | 0, _, _, _ => none
  | fuel + 1, c, size, a =>
    if BytesPerWord = 4 ∧ size = 8 then
      let ah := reg a.high
      match popRFuel BytesPerWord fuel c 4 a with
      | none => none
      | some c => popRFuel BytesPerWord fuel c 4 ah
    else
      let c := c.append (0x58 ||| a.low)
      if BytesPerWord = 8 ∧ size = 4 then moveRR BytesPerWord c 4 a 8 a else some c

/-- The function `popR`. -/
def popR (BytesPerWord : Nat) (c : Context) (size : Nat) (a : Assembler.Register) :
    Option Context :=
  popRFuel BytesPerWord 2 c size a

/-- The function `moveCR`; `fuel` bounds the recursion depth, which is at most 2.  `none` is the
failed assertion `aSize == bSize` or the abort of `value()` on an unresolved promise. -/
def moveCRFuel (BytesPerWord : Nat) (cs : CompilerSide) :
    Nat → Context → Nat → Assembler.Constant → Nat → Assembler.Register → Option Context
  | 0, _, _, _, _, _ => none
  | fuel + 1, c, aSize, a, bSize, b =>
    if aSize ≠ bSize then none
    else if BytesPerWord = 4 ∧ aSize = 8 then
      match a.value.value BytesPerWord (c.view cs) with
      | none => none
      | some v =>
        let ah : Assembler.Constant := ⟨Promise.resolved ((v >>> 32) &&& 0xFFFFFFFF)⟩
        let al : Assembler.Constant := ⟨Promise.resolved (v &&& 0xFFFFFFFF)⟩
        let bh := reg b.high
        match moveCRFuel BytesPerWord cs fuel c 4 al 4 b with
        | none => none
        | some c => moveCRFuel BytesPerWord cs fuel c 4 ah 4 bh
    else
      let c := rex BytesPerWord c 0x48 b.low
      let c := c.append (0xb8 ||| b.low)
      if a.value.isResolved (c.view cs) then
        match a.value.value BytesPerWord (c.view cs) with
        | none => none
        | some v => some (c.appendAddress BytesPerWord v)
      else
        let c := appendImmediateTask c a.value c.code.length
        some (c.appendAddress BytesPerWord 0)

/-- The function `moveCR`. -/
def moveCR (BytesPerWord : Nat) (cs : CompilerSide) (c : Context) (aSize : Nat)
    (a : Assembler.Constant) (bSize : Nat) (b : Assembler.Register) : Option Context :=
  moveCRFuel BytesPerWord cs 2 c aSize a bSize b

/-- The function `subtractBorrowRR`; `none` is a failed assertion. -/
def subtractBorrowRR (BytesPerWord : Nat) (c : Context) (aSize : Nat) (a : Assembler.Register)
    (bSize : Nat) (b : Assembler.Register) : Option Context :=
  if aSize ≠ bSize then none
  else if ¬ (BytesPerWord = 8 ∨ aSize = 4) then none
  else
    let c := if aSize = 8 then rex0 BytesPerWord c else c
    let c := c.append 0x19
    some (c.append (0xc0 ||| (a.low <<< 3) ||| b.low))

/-- The function `subtractRR`; the recursive call of the 32-bit branch has size 4 and `fuel`
bounds the recursion depth, which is at most 2. -/
def subtractRRFuel (BytesPerWord : Nat) :
    Nat → Context → Nat → Assembler.Register → Nat → Assembler.Register → Option Context
  | 0, _, _, _, _, _ => none
  | fuel + 1, c, aSize, a, bSize, b =>
    if aSize ≠ bSize then none
    else if BytesPerWord = 4 ∧ aSize = 8 then
      let ah := reg a.high
      let bh := reg b.high
      match subtractRRFuel BytesPerWord fuel c 4 a 4 b with
      | none => none
      | some c => subtractBorrowRR BytesPerWord c 4 ah 4 bh
    else
      let c := if aSize = 8 then rex0 BytesPerWord c else c
      let c := c.append 0x29
      some (c.append (0xc0 ||| (a.low <<< 3) ||| b.low))

/-- The function `subtractRR`. -/
def subtractRR (BytesPerWord : Nat) (c : Context) (aSize : Nat) (a : Assembler.Register)
    (bSize : Nat) (b : Assembler.Register) : Option Context :=
  subtractRRFuel BytesPerWord 2 c aSize a bSize b

/-- The function `moveMR`; `fuel` bounds the recursion depth, which is at most 2.  `none` is the
failed assertion `aSize == bSize`, a failed assertion of `encode`, or the `abort` of the default
case. -/
def moveMRFuel (BytesPerWord : Nat) :
    Nat → Context → Nat → Assembler.Memory → Nat → Assembler.Register → Option Context
  | 0, _, _, _, _, _ => none
  | fuel + 1, c, aSize, a, bSize, b =>
    if aSize ≠ bSize then none
    else if aSize = 1 then encode2 BytesPerWord c 0x0fbe b.low a true
    else if aSize = 2 then encode2 BytesPerWord c 0x0fbf b.low a true
    else if aSize = 4 ∨ aSize = 8 then
      if BytesPerWord = 4 ∧ aSize = 8 then
        let ah : Assembler.Memory := ⟨a.base, a.offset + 4, a.index, a.scale⟩
        let bh := reg b.high
        match moveMRFuel BytesPerWord fuel c 4 a 4 b with
        | none => none
        | some c => moveMRFuel BytesPerWord fuel c 4 ah 4 bh
      else if BytesPerWord = 8 ∧ aSize = 4 then encode1 BytesPerWord c 0x63 b.low a true
      else encode1 BytesPerWord c 0x8b b.low a true
    else
      none

/-- The function `moveMR`. -/
def moveMR (BytesPerWord : Nat) (c : Context) (aSize : Nat) (a : Assembler.Memory) (bSize : Nat)
    (b : Assembler.Register) : Option Context :=
  moveMRFuel BytesPerWord 2 c aSize a bSize b

/-- The function `moveRM`; `fuel` bounds the recursion depth, which is at most 2.  `none` is a
failed assertion, a failed assertion of `encode`, or the `abort` of the default case. -/
def moveRMFuel (BytesPerWord : Nat) :
    Nat → Context → Nat → Assembler.Register → Nat → Assembler.Memory → Option Context
  | 0, _, _, _, _, _ => none
  | fuel + 1, c, aSize, a, bSize, b =>
    if aSize ≠ bSize then none
    else if BytesPerWord = 4 ∧ aSize = 8 then
      let ah := reg a.high
      let bh : Assembler.Memory := ⟨b.base, b.offset + 4, b.index, b.scale⟩
      match moveRMFuel BytesPerWord fuel c 4 a 4 b with
      | none => none
      | some c => moveRMFuel BytesPerWord fuel c 4 ah 4 bh
    else if BytesPerWord = 8 ∧ aSize = 4 then encode1 BytesPerWord c 0x89 a.low b false
    else if aSize = 1 then
      if BytesPerWord = 8 then
        if a.low > rbx then encode2 BytesPerWord c 0x4088 a.low b false
        else encode1 BytesPerWord c 0x88 a.low b false
      else if a.low ≤ rbx then encode1 BytesPerWord c 0x88 a.low b false
      else none
    else if aSize = 2 then encode2 BytesPerWord c 0x6689 a.low b false
    else if aSize = BytesPerWord then encode1 BytesPerWord c 0x89 a.low b true
    else none

/-- The function `moveRM`. -/
def moveRM (BytesPerWord : Nat) (c : Context) (aSize : Nat) (a : Assembler.Register) (bSize : Nat)
    (b : Assembler.Memory) : Option Context :=
  moveRMFuel BytesPerWord 2 c aSize a bSize b

/-- The function `longJumpC`. -/
def longJumpC (BytesPerWord : Nat) (cs : CompilerSide) (c : Context) (size : Nat)
    (a : Assembler.Constant) : Option Context :=
  if size ≠ BytesPerWord then none
  else if BytesPerWord = 8 then
    match moveCR BytesPerWord cs c size a size (reg r10) with
    | none => none
    | some c => jumpR BytesPerWord c size (reg r10)
  else
    jumpC BytesPerWord c size a

/-- The function `longCallC`. -/
def longCallC (BytesPerWord : Nat) (cs : CompilerSide) (c : Context) (size : Nat)
    (a : Assembler.Constant) : Option Context :=
  if size ≠ BytesPerWord then none
  else if BytesPerWord = 8 then
    match moveCR BytesPerWord cs c size a size (reg r10) with
    | none => none
    | some c => callR BytesPerWord c size (reg r10)
  else
    callC BytesPerWord c size a

/-- The function `subtractBorrowCR`; `none` is a failed assertion, the abort of `value()` or the
`abort` of the last branch.  The value is passed to `isInt8` as an `intptr_t`. -/
def subtractBorrowCR (BytesPerWord : Nat) (cs : CompilerSide) (c : Context) (aSize : Nat)
    (a : Assembler.Constant) (bSize : Nat) (b : Assembler.Register) : Option Context :=
  if aSize ≠ bSize then none
  else if ¬ (BytesPerWord = 8 ∨ aSize = 4) then none
  else
    match a.value.value BytesPerWord (c.view cs) with
    | none => none
    | some v =>
      if isInt8 (wrapSigned (8 * BytesPerWord) v) then
        let c := c.append 0x83
        let c := c.append (0xd8 ||| b.low)
        some (c.append v)
      else
        none

/-- The function `subtractCR`; `fuel` bounds the recursion depth, which is at most 2.  A
constant that fits neither 8 nor 32 bits is moved to a temporary register of the client
first. -/
def subtractCRFuel (BytesPerWord : Nat) (cs : CompilerSide) :
    Nat → Context → Nat → Assembler.Constant → Nat → Assembler.Register → Option Context
  | 0, _, _, _, _, _ => none
  | fuel + 1, c, aSize, a, bSize, b =>
    if aSize ≠ bSize then none
    else
      match a.value.value BytesPerWord (c.view cs) with
      | none => none
      | some v =>
        if v ≠ 0 then
          if BytesPerWord = 4 ∧ aSize = 8 then
            let ah : Assembler.Constant := ⟨Promise.resolved ((v >>> 32) &&& 0xFFFFFFFF)⟩
            let al : Assembler.Constant := ⟨Promise.resolved (v &&& 0xFFFFFFFF)⟩
            let bh := reg b.high
            match subtractCRFuel BytesPerWord cs fuel c 4 al 4 b with
            | none => none
            | some c => subtractBorrowCR BytesPerWord cs c 4 ah 4 bh
          else
            let c := if aSize = 8 then rex0 BytesPerWord c else c
            if isInt8 (wrapSigned (8 * BytesPerWord) v) then
              let c := c.append 0x83
              let c := c.append (0xe8 ||| b.low)
              some (c.append v)
            else if isInt32 (wrapSigned (8 * BytesPerWord) v) then
              let c := c.append 0x81
              let c := c.append (0xe8 ||| b.low)
              some (c.append4 v)
            else
              match cs.temporary with
              | none => none
              | some r =>
                match moveCR BytesPerWord cs c aSize a aSize (reg r) with
                | none => none
                | some c => subtractRR BytesPerWord c aSize (reg r) bSize b
        else
          some c

/-- The function `subtractCR`. -/
def subtractCR (BytesPerWord : Nat) (cs : CompilerSide) (c : Context) (aSize : Nat)
    (a : Assembler.Constant) (bSize : Nat) (b : Assembler.Register) : Option Context :=
  subtractCRFuel BytesPerWord cs 2 c aSize a bSize b

/-! ## x86.cpp: parts of the encodings, named for the statements below -/

/-- The bytes `moveCR` emits before the immediate: the REX prefix on a 64-bit target, and the
opcode. -/
def moveCRHead (BytesPerWord : Nat) (b : Assembler.Register) : List Nat :=
  (if BytesPerWord = 8 then [((0x48 ||| ((b.low &&& 8) >>> 3)) % 256).toNat] else []) ++
    [((0xb8 ||| b.low) % 256).toNat]

/-- The displacement bytes that follow the ModRM and SIB bytes. -/
def displacementBytes (b displacement : Int) : List Nat :=
  if displacement = 0 ∧ b ≠ rbp then []
  else if isInt8 displacement = true then [(displacement % 256).toNat]
  else leBytes 4 displacement

/-- The value `width` of `encode`, which is meant for the mod field of the ModRM byte. -/
def modWidth (b displacement : Int) : Int :=
  if displacement = 0 ∧ b ≠ rbp then 0
  else if isInt8 displacement = true then 0x40
  else 0x80

/-! ## x86.cpp: writeTo -/

/-- The loop `for (Task* t = c.tasks; t; t = t->next) t->run(&c)`. -/
def runTasks (BytesPerWord : Nat) (w : PromiseView) : List Task → RawMemory → Result RawMemory
  | [], m => .done m
  | t :: ts, m =>
    match t.run BytesPerWord w m with
    | .done m => runTasks BytesPerWord w ts m
    | .abort m => .abort m

/-- The method `MyAssembler::writeTo`: the context with `result` set, and the memory. -/
def MyAssembler.writeTo (BytesPerWord : Nat) (cs : CompilerSide) (c : Context) (dst : Int)
    (m : RawMemory) : Context × Result RawMemory :=
  let c := { c with result := dst }
  let m := writeBytes m dst c.code
  (c, runTasks BytesPerWord (c.view cs) c.tasks m)

/-- The method `MyAssembler::length`. -/
def MyAssembler.length (c : Context) : Nat :=
  c.code.length

/-- The store a task performs when it runs, `none` if it aborts. -/
def Task.storeOf (BytesPerWord : Nat) (w : PromiseView) : Task → Option Store
  | .offset promise instructionOffset instructionSize =>
    match promise.value BytesPerWord w with
    | none => none
    | some pv =>
      let v : Int :=
        wrapSigned (8 * BytesPerWord)
          (wrapUnsigned (8 * BytesPerWord) pv - (w.result + instructionOffset) - instructionSize)
      if isInt32 v then
        some (w.result + instructionOffset + instructionSize - 4, leBytes 4 (wrapSigned 32 v))
      else
        none
  | .immediate promise immediateOffset =>
    match promise.value BytesPerWord w with
    | none => none
    | some pv => some (w.result + immediateOffset, leBytes BytesPerWord (wrapSigned (8 * BytesPerWord) pv))

/-- The stores the task loop performs, and whether it runs to its end. -/
def tasksStores (BytesPerWord : Nat) (w : PromiseView) : List Task → List Store × Bool
  | [] => ([], true)
  | t :: ts =>
    match t.storeOf BytesPerWord w with
    | none => ([], false)
    | some s => (s :: (tasksStores BytesPerWord w ts).1, (tasksStores BytesPerWord w ts).2)

/-- A task patches bytes of the code it was recorded for: an offset task the last four bytes of
an instruction of at least four bytes, an immediate task a word, inside code of the given
length. -/
def Task.inCode (BytesPerWord length : Nat) : Task → Prop
  | .offset _ instructionOffset instructionSize =>
    4 ≤ instructionSize ∧ instructionOffset + instructionSize ≤ length
  | .immediate _ immediateOffset => immediateOffset + BytesPerWord ≤ length

/-! ## assembler.h: operations and the Assembler as compiler.cpp drives it -/

namespace Assembler

/-- The enumeration `OperandType`.  assembler.h is not among the sources; these are the operand
types the two source files name (`StackOperand` is named by compiler.cpp only). -/
inductive OperandType where
  | constant
  | address
  | register
  | memory
  | stack
deriving DecidableEq, Repr

/-- The enumeration `Operation`, with the enumerator the sources name. -/
inductive Operation where
  | return_
deriving DecidableEq, Repr

/-- The enumeration `UnaryOperation`, with the enumerators the sources name. -/
inductive UnaryOperation where
  | call
  | alignedCall
  | longCall
  | jump
  | longJump
  | jumpIfLess
  | jumpIfGreater
  | jumpIfLessOrEqual
  | jumpIfGreaterOrEqual
  | jumpIfEqual
  | jumpIfNotEqual
  | push
  | pop
  | negate
deriving DecidableEq, Repr

/-- The enumeration `BinaryOperation`, with the enumerators the sources name. -/
inductive BinaryOperation where
  | move
  | moveZ
  | move4To8
  | compare
  | add
  | subtract
  | multiply
  | divide
  | remainder
  | shiftLeft
  | shiftRight
  | unsignedShiftRight
  | and
  | or
  | xor
deriving DecidableEq, Repr

/-- The class `Assembler::Operand` with its subclasses. -/
inductive Operand where
  | constant (value : Constant)
  | address (address : Promise)
  | register (value : Register)
  | memory (value : Memory)
deriving DecidableEq, Repr

/-- The abstract class `Assembler` as compiler.cpp calls it through `c->assembler`: the register
queries, and `apply` for operations with no, one and two operands, which act on the code buffer
and may abort (`none`).  `operandCode` gives the numeric values of the `OperandType`
enumerators, which the missing assembler.h fixes. -/
structure Interface where
  registerCount : Nat
  base : Int
  stack : Int
  thread : Int
  returnLow : Int
  returnHigh : Int
  argumentRegisterCount : Nat
  argumentRegister : Nat → Option Int
  getTargets : BinaryOperation → Nat → Register × Register
  operandCode : OperandType → Nat
  apply0 : Operation → Context → Option Context
  apply1 : CompilerSide → UnaryOperation → Nat → OperandType → Operand → Context → Option Context
  apply2 : CompilerSide → BinaryOperation → Nat → OperandType → Operand → OperandType → Operand →
    Context → Option Context

end Assembler

/-! ## x86.cpp: the dispatch tables -/

/-- The type `OperationType`: the encoder of an operation without operands. -/
abbrev OperationType := Context → Option Context

/-- The type `UnaryOperationType`: an encoder that is passed a size and an operand.  The
encoders run for the assembler of a compiler, whose side they are passed too. -/
abbrev UnaryOperationType := CompilerSide → Context → Nat → Assembler.Operand → Option Context

/-- The type `BinaryOperationType`. -/
abbrev BinaryOperationType :=
  CompilerSide → Context → Nat → Assembler.Operand → Nat → Assembler.Operand → Option Context

/-- The tables of the class `ArchitectureContext`.  A cell holds the address of an encoder or
something else (`none`): a null pointer or any other bytes, through which no call returns.  The
constructor initialises none of the cells.  The source indexes a flat array by
`index(operation, operand)`, which is one-to-one on the enumerators; here the cells are named
by the enumerators themselves. -/
structure ArchitectureContext where
  operations : Assembler.Operation → Option OperationType
  unaryOperations : Assembler.UnaryOperation → Assembler.OperandType → Option UnaryOperationType
  binaryOperations :
    Assembler.BinaryOperation → Assembler.OperandType → Assembler.OperandType →
      Option BinaryOperationType

/-- The macro `CAST1` on an encoder of a constant: the encoder is called with the operand the
caller passed, which it takes for a constant. -/
def cast1C (f : Context → Nat → Assembler.Constant → Option Context) : UnaryOperationType :=
  fun _ c size operand =>
    match operand with
    | .constant a => f c size a
    | _ => none

/-- The macro `CAST1` on an encoder of a register. -/
def cast1R (f : Context → Nat → Assembler.Register → Option Context) : UnaryOperationType :=
  fun _ c size operand =>
    match operand with
    | .register a => f c size a
    | _ => none

/-- The tables whose memory holds zero bytes: every cell is a null pointer. -/
def ArchitectureContext.zeroed : ArchitectureContext :=
  { operations := fun _ => none
    unaryOperations := fun _ _ => none
    binaryOperations := fun _ _ _ => none }

/-- The cells `populateTables` assigns in the table of unary operations. -/
def registeredUnary : Assembler.UnaryOperation → Assembler.OperandType → Bool
  | .call, .constant => true
  | .longCall, .constant => true
  | .jump, .register => true
  | .jump, .constant => true
  | .longJump, .constant => true
  | _, _ => false

/-- The cells `populateTables` assigns in the table of binary operations. -/
def registeredBinary :
    Assembler.BinaryOperation → Assembler.OperandType → Assembler.OperandType → Bool
  | .move, .register, .register => true
  | .move, .memory, .register => true
  | .move, .register, .memory => true
  | .subtract, .constant, .register => true
  | _, _, _ => false

/-- The function `populateTables`, applied to tables with the content `raw`: the cells it does
not assign keep what they held. -/
def populateTables (BytesPerWord : Nat) (raw : ArchitectureContext) : ArchitectureContext :=
  { operations := fun op =>
      match op with
      | .return_ => some (fun c => some (return_ c))
    unaryOperations := fun op type =>
      match op, type with
      | .call, .constant => some (cast1C (callC BytesPerWord))
      | .longCall, .constant =>
        some (fun cs c size operand =>
          match operand with
          | .constant a => longCallC BytesPerWord cs c size a
          | _ => none)
      | .jump, .register => some (cast1R (jumpR BytesPerWord))
      | .jump, .constant => some (cast1C (jumpC BytesPerWord))
      | .longJump, .constant =>
        some (fun cs c size operand =>
          match operand with
          | .constant a => longJumpC BytesPerWord cs c size a
          | _ => none)
      | op, type => raw.unaryOperations op type
    binaryOperations := fun op aType bType =>
      match op, aType, bType with
      | .move, .register, .register =>
        some (fun _ c aSize a bSize b =>
          match a, b with
          | .register a, .register b => moveRR BytesPerWord c aSize a bSize b
          | _, _ => none)
      | .move, .memory, .register =>
        some (fun _ c aSize a bSize b =>
          match a, b with
          | .memory a, .register b => moveMR BytesPerWord c aSize a bSize b
          | _, _ => none)
      | .move, .register, .memory =>
        some (fun _ c aSize a bSize b =>
          match a, b with
          | .register a, .memory b => moveRM BytesPerWord c aSize a bSize b
          | _, _ => none)
      | .subtract, .constant, .register =>
        some (fun cs c aSize a bSize b =>
          match a, b with
          | .constant a, .register b => subtractCR BytesPerWord cs c aSize a bSize b
          | _, _ => none)
      | op, aType, bType => raw.binaryOperations op aType bType }

/-- The method `MyAssembler::apply(Operation)`: the call through the cell of the operation. -/
def MyAssembler.apply0 (arch : ArchitectureContext) (op : Assembler.Operation) (c : Context) :
    Option Context :=
  match arch.operations op with
  | none => none
  | some f => f c

/-- The method `MyAssembler::apply(UnaryOperation, ...)`: the call through the cell of the
operation and the operand type, whatever the cell holds. -/
def MyAssembler.apply1 (arch : ArchitectureContext) (cs : CompilerSide)
    (op : Assembler.UnaryOperation) (aSize : Nat) (aType : Assembler.OperandType)
    (aOperand : Assembler.Operand) (c : Context) : Option Context :=
  match arch.unaryOperations op aType with
  | none => none
  | some f => f cs c aSize aOperand

/-- The method `MyAssembler::apply(BinaryOperation, ...)`. -/
def MyAssembler.apply2 (arch : ArchitectureContext) (cs : CompilerSide)
    (op : Assembler.BinaryOperation) (aSize : Nat) (aType : Assembler.OperandType)
    (aOperand : Assembler.Operand) (bSize : Nat) (bType : Assembler.OperandType)
    (bOperand : Assembler.Operand) (c : Context) : Option Context :=
  match arch.binaryOperations op aType bType with
  | none => none
  | some f => f cs c aSize aOperand bSize bOperand

/-- An assembler for the compiler built from the encoders of x86.cpp, each under the operation
and operand types it encodes; an operation with operands for which no encoder is embedded above
aborts.  This is not the table `populateTables` fills, which has no entry for `Push` and `Pop`,
the operations `compile` frames the code with: `pushR` and `popR` are bound here.  x86.cpp has
no `base()` and no `getTargets`: the base register is `rbp`, which its frame code uses and lists
as reserved, and `getTargets` names no register. -/
def directAssembler (BytesPerWord : Nat) : Assembler.Interface where
  registerCount := 8
  base := rbp
  stack := rsp
  thread := rbx
  returnLow := rax
  returnHigh := if BytesPerWord = 4 then rdx else NoRegister
  argumentRegisterCount := if BytesPerWord = 4 then 0 else 6
  argumentRegister := fun index =>
    if BytesPerWord = 8 then
      match index with
      | 0 => some rdi
      | 1 => some rsi
      | 2 => some rdx
      | 3 => some rcx
      | 4 => some r8
      | 5 => some r9
      | _ => none
    else
      none
  getTargets := fun _ _ => (reg NoRegister, reg NoRegister)
  operandCode := fun t =>
    match t with
    | .constant => 0
    | .address => 1
    | .register => 2
    | .memory => 3
    | .stack => 4
  apply0 := fun op c =>
    match op with
    | .return_ => some (return_ c)
  apply1 := fun cs op size _ operand c =>
    match op, operand with
    | .call, .constant a => callC BytesPerWord c size a
    | .longCall, .constant a => longCallC BytesPerWord cs c size a
    | .jump, .register a => jumpR BytesPerWord c size a
    | .jump, .constant a => jumpC BytesPerWord c size a
    | .longJump, .constant a => longJumpC BytesPerWord cs c size a
    | .push, .register a => pushR BytesPerWord c size a
    | .pop, .register a => popR BytesPerWord c size a
    | _, _ => none
  apply2 := fun cs op aSize _ a _ b c =>
    match op, a, b with
    | .move, .register a, .register b => moveRR BytesPerWord c aSize a aSize b
    | .move, .memory a, .register b => moveMR BytesPerWord c aSize a aSize b
    | .move, .register a, .memory b => moveRM BytesPerWord c aSize a aSize b
    | .move, .constant a, .register b => moveCR BytesPerWord cs c aSize a aSize b
    | .subtract, .constant a, .register b => subtractCR BytesPerWord cs c aSize a aSize b
    | .subtract, .register a, .register b => subtractRR BytesPerWord c aSize a aSize b
    | _, _, _ => none

/-- The assembler of x86.cpp as the compiler drives it: the queries of `MyArchitecture` and the
methods `apply` of `MyAssembler` on the tables `populateTables` fills, `raw` being what the
memory of the tables held before.  compiler.cpp passes one size for both operands of a binary
operation. -/
def MyAssembler.interface (BytesPerWord : Nat) (raw : ArchitectureContext) :
    Assembler.Interface :=
  { directAssembler BytesPerWord with
    apply0 := MyAssembler.apply0 (populateTables BytesPerWord raw)
    apply1 := MyAssembler.apply1 (populateTables BytesPerWord raw)
    apply2 := fun cs op size aType a bType b c =>
      MyAssembler.apply2 (populateTables BytesPerWord raw) cs op size aType a size bType b c }

/-! ## x86.cpp: the frame layout of the architecture -/

/-- The method `MyArchitecture::frameHeaderSize`. -/
def frameHeaderSize : Nat := 2

/-- The method `MyArchitecture::alignFrameSize`:
`ceiling(sizeInWords + 2, alignment) * alignment` with `alignment = 16 / BytesPerWord`, where
`ceiling(n, d)` of common.h is `(n + d - 1) / d`.  The operands are `unsigned`: each sum and the
product are reduced modulo `2 ^ 32`. -/
def alignFrameSize (BytesPerWord sizeInWords : Nat) : Nat :=
  let alignment := 16 / BytesPerWord
  ((((sizeInWords + 2) % 2 ^ 32 + alignment - 1) % 2 ^ 32) / alignment * alignment) % 2 ^ 32

/-- An assembler whose operations only append to the code vector: the bytes there are stay. -/
def Appends (A : Assembler.Interface) : Prop :=
  (∀ op c c1, A.apply0 op c = some c1 → c.code <+: c1.code)
  ∧ (∀ cs op size type a c c1, A.apply1 cs op size type a c = some c1 → c.code <+: c1.code)
  ∧ (∀ cs op size aType a bType b c c1,
      A.apply2 cs op size aType a bType b c = some c1 → c.code <+: c1.code)

/-! ## x86.cpp: the indices of the dispatch tables -/

/-- The function `index(UnaryOperation, OperandType)`.  The enumerators and the constants
`UnaryOperationCount` and `OperandTypeCount` are declared in assembler.h, which is not among the
sources: the count is a parameter, and an enumerator is the number it stands for.  The sum is an
`unsigned`. -/
def indexUnary (UnaryOperationCount operation operand : Nat) : Nat :=
  (operation + UnaryOperationCount * operand) % 2 ^ 32

/-- The function `index(BinaryOperation, OperandType, OperandType)`. -/
def indexBinary (BinaryOperationCount TernaryOperationCount OperandTypeCount : Nat)
    (operation operand1 operand2 : Nat) : Nat :=
  (operation + (BinaryOperationCount + TernaryOperationCount) * operand1
    + (BinaryOperationCount + TernaryOperationCount) * OperandTypeCount * operand2) % 2 ^ 32

/-- The function `index(TernaryOperation, OperandType, OperandType)`. -/
def indexTernary (BinaryOperationCount TernaryOperationCount OperandTypeCount : Nat)
    (operation operand1 operand2 : Nat) : Nat :=
  (operation + (BinaryOperationCount + TernaryOperationCount) * operand1
    + (BinaryOperationCount + TernaryOperationCount) * OperandTypeCount * operand2) % 2 ^ 32

end X86

namespace Compiler

/-! ## compiler.cpp: data model -/

/-- A `Value*`: values are objects reached through pointers and compared by identity. -/
abbrev ValueRef := Nat

/-- A `Stack*`: the position of the frame in the arena of frames; `none` is the null pointer. -/
abbrev StackRef := Option Nat

/-- The class `Stack`, one frame of the abstract stack.  The field `pushed` is used by the source
(`s->pushed`) and described by the spec, though the class declaration does not list it. -/
structure Stack where
  value : Option ValueRef
  size : Nat
  index : Nat
  next : StackRef
  pushed : Bool
deriving DecidableEq, Repr

/-- The class `State`.  Only the state at the head of the chain is ever assigned to, and the head
is always a freshly allocated record, so the chain is a value. -/
inductive State where
  | mk (stack : StackRef) (next : Option State)

/-- The field `stack` of a state. -/
def State.stack : State → StackRef
  | .mk s _ => s

/-- The field `next` of a state. -/
def State.next : State → Option State
  | .mk _ n => n

/-- The constructor `State(State* s)`: `stack(s ? s->stack : 0), next(s)`. -/
def State.new : Option State → State
  | none => .mk none none
  | some s => .mk s.stack (some s)

/-- A `Site*`: the position of the site in the arena of sites. -/
abbrev SiteRef := Nat

/-- A `Read*`: the position of the read in the arena of reads. -/
abbrev ReadRef := Nat

/-- The subclasses of `Site` with their payload: `ConstantSite`, `AddressSite`, `RegisterSite`,
`MemorySite`, `ValueSite`, `StackSite`. -/
inductive SiteKind where
  | constant (value : Promise)
  | address (address : Promise)
  | register (low high : Int)
  | memory (base offset index : Int) (scale : Nat)
  | value (value : ValueRef)
  | stack (stack : Nat)
deriving DecidableEq, Repr

/-- The class `Site`: the subclass and the intrusive link `next`. -/
structure Site where
  kind : SiteKind
  next : Option SiteRef
deriving DecidableEq, Repr

/-- The class `Read`.  The link `eventNext` is kept as the list of reads of the event. -/
structure Read where
  size : Nat
  value : ValueRef
  target : Option SiteRef
  next : Option ReadRef
deriving DecidableEq, Repr

/-- The class `Write`.  The link `eventNext` is kept as the list of writes of the event. -/
structure Write where
  size : Nat
  value : ValueRef
deriving DecidableEq, Repr

/-- The class `Value`. -/
structure Value where
  reads : Option ReadRef
  lastRead : Option ReadRef
  sites : Option SiteRef
  source : Option SiteRef
  target : Option SiteRef
deriving DecidableEq, Repr

/-- The class `Register` of compiler.cpp, one slot of the register table. -/
structure Register where
  value : Option ValueRef
  site : Option SiteRef
  size : Nat
  reserved : Bool
deriving DecidableEq, Repr

/-- The subclasses of `Event` with their fields.  `push` and `pop` are the events `appendPush`
and `appendPop` construct, whose classes are not in the source. -/
inductive EventKind where
  | push
  | pop (count : Nat) (ignore : Bool)
  | call (address : ValueRef) (indirection : Int) (flags : Nat) (traceHandler : Bool)
      (result : Option ValueRef)
  | return_ (value : Option ValueRef)
  | move (type : X86.Assembler.BinaryOperation) (size : Nat) (src dst : ValueRef)
  | compare (size : Nat) (first second : ValueRef)
  | branch (type : X86.Assembler.UnaryOperation) (address : ValueRef)
  | combine (type : X86.Assembler.BinaryOperation) (size : Nat) (first second result : ValueRef)
  | translate (type : X86.Assembler.UnaryOperation) (size : Nat) (value result : ValueRef)
  | memory (base : ValueRef) (index : Option ValueRef) (result : ValueRef)
deriving DecidableEq, Repr

/-- The class `Event`: the snapshot of the abstract stack taken by the constructor, the reads and
writes in the order of the `eventNext` links (the one added last comes first), and the code
promises in the order of their `next` links.  `compile` reads a member `logicalIp` that the class
does not declare; it is the logical IP that was current when the event was constructed. -/
structure Event where
  kind : EventKind
  stack : StackRef
  reads : List ReadRef
  writes : List Write
  promises : List Nat
  logicalIp : Int
deriving DecidableEq, Repr

/-- The class `LogicalInstruction`; events are named by their position in the event list. -/
structure LogicalInstruction where
  visits : Nat
  firstEvent : Option Nat
  lastEvent : Option Nat
  machineOffset : Nat
  predecessor : Int
deriving DecidableEq, Repr

/-- The class `Context` of compiler.cpp, as far as the operations below use it.  `events` is the
chain of events in the order they were appended (`c->event` is the last one), `frames` the arena
of stack frames, `constants` the chain from `firstConstant` to `lastConstant`, `codeOffsets` the
`offset` fields of the compiler code promises, `sites`, `values` and `reads` the arenas of the
objects of these classes, `junctions` the logical IPs of the chain `c->junctions`, the one added
last first.  `registers` is the register table as memory: the table proper has
`registerCount()` slots, and an index outside it reads what lies next to the table. -/
structure Context where
  assembler : X86.Context
  logicalIp : Int
  state : State
  events : List Event
  logicalCode : List LogicalInstruction
  frames : List Stack
  constants : List Promise
  constantCount : Nat
  machineCode : Int
  codeOffsets : List Int
  sites : List Site
  values : List Value
  reads : List Read
  registers : Int → Register
  stackOffset : Nat
  junctions : List Nat

/-- The constructor `Context::Context` followed by `MyCompiler::init`: the register table is
zeroed and the base, stack and thread registers of the assembler are marked reserved, and the
`memset` of `init` zeroes every logical instruction. -/
def Context.create (a : X86.Assembler.Interface) (logicalCodeLength stackOffset : Nat) : Context :=
  { assembler := ⟨[], [], 0⟩
    logicalIp := -1
    state := State.new none
    events := []
    logicalCode := List.replicate logicalCodeLength ⟨0, none, none, 0, 0⟩
    frames := []
    constants := []
    constantCount := 0
    machineCode := 0
    codeOffsets := []
    sites := []
    values := []
    reads := []
    registers := fun i =>
      ⟨none, none, 0, decide (i = a.base) || decide (i = a.stack) || decide (i = a.thread)⟩
    stackOffset := stackOffset
    junctions := [] }

/-- The context of a compiler for the x86 assembler with no stack offset. -/
def Context.init (logicalCodeLength : Nat) : Context :=
  Context.create (X86.directAssembler 8) logicalCodeLength 0

/-- What the promises read from the compiler context.  Reading a promise calls no encoder, so
no temporary register is asked for. -/
def Context.side (c : Context) : X86.CompilerSide :=
  { machineCode := c.machineCode
    machineOffset := fun i => ((c.logicalCode.get? i.toNat).map (·.machineOffset)).getD 0
    codeOffset := fun i => c.codeOffsets.getD i (-1)
    temporary := none }

/-! ## compiler.cpp: the client of the assembler -/

/-- A loop `for (int i = n; i >= 0; --i) if (p(i)) return i;`. -/
def downFrom (p : Int → Bool) : Nat → Option Int
  | 0 => if p 0 then some 0 else none
  | n + 1 => if p ((n + 1 : Nat) : Int) then some ((n + 1 : Nat) : Int) else downFrom p n

/-- The function `freeRegisterExcept`; `none` is `abort`. -/
def freeRegisterExcept (A : X86.Assembler.Interface) (c : Context) (except : Int)
    (allowAcquired : Bool) : Option Int :=
  match downFrom
      (fun i => decide (i ≠ except) && !(c.registers i).reserved && (c.registers i).value.isNone)
      A.registerCount with
  | some i => some i
  | none =>
    if allowAcquired then
      downFrom (fun i => decide (i ≠ except) && !(c.registers i).reserved) A.registerCount
    else
      none

/-- The methods `Client::acquireTemporary` and `Client::releaseTemporary`. -/
def acquireTemporary (A : X86.Assembler.Interface) (c : Context) (r : Int) :
    Option (Context × Int) :=
  let chosen : Option Int :=
    if r = X86.NoRegister then freeRegisterExcept A c X86.NoRegister false
    else if (c.registers r).reserved then none
    else if (c.registers r).value ≠ none then none
    else some r
  chosen.map fun r =>
    ({ c with registers := Function.update c.registers r { (c.registers r) with reserved := true } },
      r)

/-- The method `Client::releaseTemporary`. -/
def releaseTemporary (c : Context) (r : Int) : Context :=
  { c with registers := Function.update c.registers r { (c.registers r) with reserved := false } }

/-- What an encoder called through `c->assembler` gets from the compiler context: what the
promises read, and the temporary register its client would hand out. -/
def Context.clientSide (A : X86.Assembler.Interface) (c : Context) : X86.CompilerSide :=
  { c.side with temporary := (acquireTemporary A c X86.NoRegister).map (fun r => r.2) }

/-! ## compiler.cpp: states and the abstract stack -/

/-- The function `pushState`. -/
def pushState (c : Context) : Context :=
  { c with state := State.new (some c.state) }

/-- The function `popState`. -/
def popState (c : Context) : Context :=
  { c with state := State.new c.state.next }

/-- The constructor `Event::Event`, for an event of the given kind; `none` is the failed assertion
`c->logicalIp >= 0`. -/
def Event.new (c : Context) (kind : EventKind) : Option Context :=
  if c.logicalIp ≥ 0 then
    let this := c.events.length
    some { c with
      events := c.events ++ [⟨kind, c.state.stack, [], [], [], c.logicalIp⟩]
      logicalCode := c.logicalCode.modify
        (fun li => if li.firstEvent = none then { li with firstEvent := some this } else li)
        c.logicalIp.toNat }
  else
    none

/-- Modelled from the spec: `appendPush` is called by `push` but not defined in the source; by the
spec every operation constructs an Event attached to the current logical IP, and `push` "records
a new top frame but does not itself emit a stack-pointer adjustment". -/
def appendPush (c : Context) : Option Context :=
  Event.new c EventKind.push

/-- Modelled from the spec: `appendPop` is called by `pop` but not defined in the source; by the
spec every operation constructs an Event attached to the current logical IP. -/
def appendPop (c : Context) (count : Nat) (ignore : Bool) : Option Context :=
  Event.new c (EventKind.pop count ignore)

/-- The five-argument function `stack`: allocates a frame and returns the pointer to it. -/
def stackAt (c : Context) (value : Option ValueRef) (size index : Nat) (next : StackRef) :
    Context × StackRef :=
  ({ c with frames := c.frames ++ [⟨value, size, index, next, false⟩] }, some c.frames.length)

/-- The four-argument function `stack`.  Its body passes an identifier `operand` that is not
declared; it is read as the parameter `value`. -/
def stack (c : Context) (value : Option ValueRef) (size : Nat) (next : StackRef) :
    Context × StackRef :=
  let index : Nat :=
    match next with
    | some n => ((c.frames.get? n).map (·.index)).getD 0 + size
    | none => 0
  stackAt c value size index next

/-- The function `push`; `none` is a failed assertion. -/
def push (BytesPerWord : Nat) (c : Context) (size : Nat) (v : ValueRef) : Option Context :=
  if ceiling size BytesPerWord ≠ 0 then
    let (c, s) := stack c (some v) (ceiling size BytesPerWord) c.state.stack
    let c := { c with state := State.mk s c.state.next }
    appendPush c
  else
    none

/-- The function `pop`: the context and the returned `Value*`; `none` is a null `c->state->stack`
or a failed assertion. -/
def pop (BytesPerWord : Nat) (c : Context) (size : Nat) : Option (Context × Option ValueRef) :=
  match c.state.stack with
  | none => none
  | some n =>
    match c.frames.get? n with
    | none => none
    | some s =>
      if ceiling size BytesPerWord = s.size then
        match appendPop c s.size false with
        | none => none
        | some c => some ({ c with state := State.mk s.next c.state.next }, s.value)
      else
        none

/-- The pointer `c->event`: the event appended last, if any. -/
def Context.event (c : Context) : Option Nat :=
  if c.events = [] then none else some (c.events.length - 1)

/-- The method `MyCompiler::startLogicalIp`. -/
def startLogicalIp (c : Context) (logicalIp : Nat) : Context :=
  let last := c.event
  let code :=
    if c.logicalIp ≥ 0 then
      c.logicalCode.modify (fun li => { li with lastEvent := last }) c.logicalIp.toNat
    else
      c.logicalCode
  { c with logicalCode := code, logicalIp := logicalIp }

/-! ## compiler.cpp: the constant pool and writeTo -/

/-- The method `MyCompiler::poolAppendPromise`: the context and the returned promise. -/
def poolAppendPromise (c : Context) (value : Promise) : Context × Promise :=
  let p := Promise.pool c.constantCount
  ({ c with constants := c.constants ++ [value], constantCount := c.constantCount + 1 }, p)

/-- The method `MyCompiler::poolAppend`. -/
def poolAppend (c : Context) (value : Int) : Context × Promise :=
  poolAppendPromise c (Promise.resolved value)

/-- The method `MyCompiler::poolSize`. -/
def poolSize (BytesPerWord : Nat) (c : Context) : Nat :=
  c.constantCount * BytesPerWord

/-- The loop of `MyCompiler::writeTo` over the constant pool, `i` being its counter: each node's
value is stored as an `intptr_t` at `dst + pad(length) + i`. -/
def writePool (BytesPerWord : Nat) (w : PromiseView) (dst : Int) (length : Nat) :
    List Promise → Int → RawMemory → Result RawMemory
  | [], _, m => .done m
  | p :: ps, i, m =>
    match p.value BytesPerWord w with
    | none => .abort m
    | some v =>
      writePool BytesPerWord w dst length ps (i + 1)
        (writeBytes m (dst + pad BytesPerWord length + i)
          (leBytes BytesPerWord (wrapSigned (8 * BytesPerWord) v)))

/-- The method `MyCompiler::writeTo`. -/
def writeTo (BytesPerWord : Nat) (c : Context) (dst : Int) (m : RawMemory) :
    Context × Result RawMemory :=
  let c := { c with machineCode := dst }
  let (a, r) := X86.MyAssembler.writeTo BytesPerWord c.side c.assembler dst m
  let c := { c with assembler := a }
  match r with
  | .abort m => (c, .abort m)
  | .done m =>
    (c, writePool BytesPerWord (c.assembler.view c.side) dst (X86.MyAssembler.length c.assembler)
      c.constants 0 m)

/-- The stores the constant-pool loop performs, and whether it runs to its end. -/
def poolStores (BytesPerWord : Nat) (w : PromiseView) (dst : Int) (length : Nat) :
    List Promise → Int → List Store × Bool
  | [], _ => ([], true)
  | p :: ps, i =>
    match p.value BytesPerWord w with
    | none => ([], false)
    | some v =>
      ((dst + pad BytesPerWord length + i, leBytes BytesPerWord (wrapSigned (8 * BytesPerWord) v))
          :: (poolStores BytesPerWord w dst length ps (i + 1)).1,
        (poolStores BytesPerWord w dst length ps (i + 1)).2)

/-- The context after `writeTo(dst)`: `machineCode` and the assembler's `result` are `dst`. -/
def Context.supplied (c : Context) (dst : Int) : Context :=
  { c with machineCode := dst, assembler := { c.assembler with result := dst } }

/-- The stores `MyCompiler::writeTo` performs, and whether it runs to its end. -/
def writeToStores (BytesPerWord : Nat) (c : Context) (dst : Int) : List Store × Bool :=
  let w := X86.Context.view { c.assembler with result := dst }
    (Context.side { c with machineCode := dst })
  let ts := X86.tasksStores BytesPerWord w c.assembler.tasks
  if ts.2 then
    let ps := poolStores BytesPerWord w dst c.assembler.code.length c.constants 0
    ((dst, c.assembler.code) :: ts.1 ++ ps.1, ps.2)
  else
    ((dst, c.assembler.code) :: ts.1, false)

/-! ## compiler.cpp: sites -/

open X86.Assembler in
/-- The virtual method `Site::type`; `none` is the `abort` of `ValueSite`. -/
def SiteKind.type : SiteKind → Option OperandType
  | .constant _ => some .constant
  | .address _ => some .address
  | .register _ _ => some .register
  | .memory _ _ _ _ => some .memory
  | .value _ => none
  | .stack _ => some .stack

open X86.Assembler in
/-- The virtual method `Site::asAssemblerOperand`; `none` is the `abort` of `ValueSite` and of
`StackSite`. -/
def SiteKind.asAssemblerOperand : SiteKind → Option Operand
  | .constant p => some (.constant ⟨p⟩)
  | .address p => some (.address p)
  | .register low high => some (.register ⟨low, high⟩)
  | .memory base offset index scale => some (.memory ⟨base, offset, index, scale⟩)
  | .value _ => none
  | .stack _ => none

/-- The field `next` of the site `s`. -/
def Context.siteNext (c : Context) (s : SiteRef) : Option SiteRef :=
  (c.sites.get? s).bind (fun x => x.next)

/-- Allocation of a site with `next` null, as the functions `constantSite`, `addressSite`,
`registerSite`, `memorySite`, `valueSite` and `stackSite` do: the context and the new pointer. -/
def newSite (c : Context) (kind : SiteKind) : Context × SiteRef :=
  ({ c with sites := c.sites ++ [⟨kind, none⟩] }, c.sites.length)

/-- The constructor `Value(Site* site)` with its allocation: the context and the new pointer. -/
def newValue (c : Context) (site : Option SiteRef) : Context × ValueRef :=
  ({ c with values := c.values ++ [⟨none, none, site, none, none⟩] }, c.values.length)

/-- The virtual method `Site::copyCost` of the site `this` towards the site `target`; `none` is
an `abort`. -/
def copyCost (c : Context) (this : SiteRef) (target : Option SiteRef) : Option Nat :=
  match c.sites.get? this with
  | none => none
  | some site =>
    match site.kind with
    | .constant _ => some 1
    | .address _ => some 3
    | .stack _ => some 5
    | .value _ => none
    | .register low high =>
      match target with
      | none => some 2
      | some s =>
        if this = s then some 0
        else
          match c.sites.get? s with
          | none => none
          | some t =>
            match t.kind with
            | .value _ => none
            | .register l h => if l = low ∧ h = high then some 0 else some 2
            | _ => some 2
    | .memory base offset index scale =>
      match target with
      | none => some 4
      | some s =>
        if this = s then some 0
        else
          match c.sites.get? s with
          | none => none
          | some t =>
            match t.kind with
            | .value _ => none
            | .memory b o i sc =>
              if b = base ∧ o = offset ∧ i = index ∧ sc = scale then some 0 else some 4
            | _ => some 4

/-- The loop of `pick`: `s` runs along the `next` links, `site` and `cost` are the best site and
its cost so far.  `fuel` bounds the number of sites visited; `none` is an `abort` of `copyCost`
or a chain that does not end. -/
def pickLoop (c : Context) (target : Option SiteRef) :
    Nat → Option SiteRef → Option SiteRef → Nat → Option (Option SiteRef × Nat)
  | _, none, site, cost => some (site, cost)
  | 0, some _, _, _ => none
  | fuel + 1, some s, site, cost =>
    match copyCost c s target with
    | none => none
    | some k =>
      if k < cost then pickLoop c target fuel (c.siteNext s) (some s) k
      else pickLoop c target fuel (c.siteNext s) site cost

/-- The function `pick`: the site picked and its copy cost. -/
def pick (c : Context) (sites : Option SiteRef) (target : Option SiteRef) :
    Option (Option SiteRef × Nat) :=
  pickLoop c target c.sites.length sites none 0xFFFFFFFF

/-- The function `apply` of compiler.cpp for a unary operation on a site. -/
def applyUnary (A : X86.Assembler.Interface) (c : Context)
    (op : X86.Assembler.UnaryOperation) (size : Nat) (a : Option SiteRef) : Option Context :=
  match a with
  | none => none
  | some a =>
    match c.sites.get? a with
    | none => none
    | some s =>
      match s.kind.type, s.kind.asAssemblerOperand with
      | some type, some operand =>
        (A.apply1 (c.clientSide A) op size type operand c.assembler).map
          fun assembler => { c with assembler := assembler }
      | _, _ => none

/-- The function `apply` of compiler.cpp for a binary operation on two sites. -/
def applyBinary (A : X86.Assembler.Interface) (c : Context)
    (op : X86.Assembler.BinaryOperation) (size : Nat) (a b : Option SiteRef) : Option Context :=
  match a, b with
  | some a, some b =>
    match c.sites.get? a, c.sites.get? b with
    | some sa, some sb =>
      match sa.kind.type, sa.kind.asAssemblerOperand, sb.kind.type, sb.kind.asAssemblerOperand with
      | some aType, some aOperand, some bType, some bOperand =>
        (A.apply2 (c.clientSide A) op size aType aOperand bType bOperand c.assembler).map
          fun assembler => { c with assembler := assembler }
      | _, _, _, _ => none
    | _, _ => none
  | _, _ => none

/-! ## compiler.cpp: syncStack, acquire, addSite -/

/-- The frames `syncStack` collects into `segment`: up to `count` frames from `start` along the
`next` links, `start` first. -/
def segment (c : Context) : Nat → StackRef → List Nat
  | 0, _ => []
  | _ + 1, none => []
  | count + 1, some s => s :: segment c count ((c.frames.get? s).bind (fun f => f.next))

/-- The body of the second loop of `syncStack` for the frame `s`. -/
def syncFrame (A : X86.Assembler.Interface) (BytesPerWord : Nat) (c : Context) (s : Nat) :
    Option Context :=
  match c.frames.get? s with
  | none => none
  | some f =>
    let emitted : Option Context :=
      match f.value with
      | some v =>
        match c.values.get? v with
        | none => none
        | some value =>
          match pick c value.sites none with
          | none => none
          | some (picked, _) =>
            match applyUnary A c .push (f.size * BytesPerWord) picked with
            | none => none
            | some c =>
              let (c, site) := newSite c (.stack s)
              some { c with
                sites := c.sites.modify (fun x => { x with next := value.sites }) site
                values := c.values.modify (fun x => { x with sites := some site }) v }
      | none =>
        (A.apply2 (c.clientSide A) .subtract BytesPerWord .constant
            (.constant ⟨Promise.resolved (f.size * BytesPerWord : Nat)⟩) .register
            (.register ⟨A.stack, X86.NoRegister⟩) c.assembler).map
          fun assembler => { c with assembler := assembler }
    emitted.map fun c =>
      { c with frames := c.frames.modify (fun x => { x with pushed := true }) s }

/-- The second loop of `syncStack` over the frames of `segment`. -/
def syncFrames (A : X86.Assembler.Interface) (BytesPerWord : Nat) :
    Context → List Nat → Option Context
  | c, [] => some c
  | c, s :: rest =>
    match syncFrame A BytesPerWord c s with
    | none => none
    | some c => syncFrames A BytesPerWord c rest

/-- The function `syncStack`.  When fewer than `count` frames can be reached from `start` the
first entries of `segment` are never assigned; the run is then counted as aborted. -/
def syncStack (A : X86.Assembler.Interface) (BytesPerWord : Nat) (c : Context) (start : StackRef)
    (count : Nat) : Option Context :=
  if (segment c count start).length < count then none
  else syncFrames A BytesPerWord c (segment c count start).reverse

/-- The loop of `acquire` over the frames not yet pushed: `start` and `count` as the loop leaves
them. -/
def spillRange (c : Context) (old : ValueRef) :
    Nat → StackRef → StackRef → Nat → StackRef × Nat
  | 0, _, start, count => (start, count)
  | _ + 1, none, start, count => (start, count)
  | fuel + 1, some s, start, count =>
    match c.frames.get? s with
    | none => (start, count)
    | some f =>
      if f.pushed then (start, count)
      else
        let start := if f.value = some old then some s else start
        let count := if start.isSome then count + 1 else count
        spillRange c old fuel f.next start count

/-- The loop of `acquire` that unlinks the site recorded for register `r` from the site list of
the value `old`: `previous` is the site whose `next` field `p` points to (`none` for the field
`sites` of the value), `current` is `*p`. -/
def unlinkSite (c : Context) (r : Int) (old : ValueRef) :
    Nat → Option SiteRef → Option SiteRef → Context
  | _, _, none => c
  | 0, _, some _ => c
  | fuel + 1, previous, some s =>
    if (c.registers r).site = some s then
      match previous with
      | none => { c with values := c.values.modify (fun x => { x with sites := c.siteNext s }) old }
      | some p => { c with sites := c.sites.modify (fun x => { x with next := c.siteNext s }) p }
    else
      unlinkSite c r old fuel (some s) (c.siteNext s)

/-- The function `acquire`.  Its body names an undeclared `old`; it is read as `oldValue`. -/
def acquire (A : X86.Assembler.Interface) (BytesPerWord : Nat) (c : Context) (r : Int)
    (stack : StackRef) (newSize : Nat) (newValue : ValueRef) (newSite : SiteRef) :
    Option Context :=
  let released : Option Context :=
    match (c.registers r).value with
    | none => some c
    | some old =>
      match c.values.get? old with
      | none => none
      | some oldValue =>
        match oldValue.sites with
        | none => none
        | some first =>
          let synced : Option Context :=
            if c.siteNext first = none ∧ oldValue.reads ≠ none then
              let range := spillRange c old c.frames.length stack none 0
              if range.1 = none then none else syncStack A BytesPerWord c range.1 range.2
            else
              some c
          match synced with
          | none => none
          | some c =>
            match c.values.get? old with
            | none => none
            | some oldValue => some (unlinkSite c r old c.sites.length none oldValue.sites)
  released.map fun c =>
    { c with registers := (Function.update c.registers r
        { value := some newValue, site := some newSite, size := newSize,
          reserved := (c.registers r).reserved }) }

/-- The virtual method `Site::acquire`: nothing, except for a register site, which acquires its
low register and, if `high >= 0`, its high register. -/
def siteAcquire (A : X86.Assembler.Interface) (BytesPerWord : Nat) (c : Context)
    (stack : StackRef) (size : Nat) (v : ValueRef) (s : SiteRef) : Option Context :=
  match c.sites.get? s with
  | none => none
  | some site =>
    match site.kind with
    | .register low high =>
      match acquire A BytesPerWord c low stack size v s with
      | none => none
      | some c => if high ≥ 0 then acquire A BytesPerWord c high stack size v s else some c
    | _ => some c

/-- The function `addSite`. -/
def addSite (A : X86.Assembler.Interface) (BytesPerWord : Nat) (c : Context) (stack : StackRef)
    (size : Nat) (v : ValueRef) (s : SiteRef) : Option Context :=
  match siteAcquire A BytesPerWord c stack size v s with
  | none => none
  | some c =>
    match c.values.get? v with
    | none => none
    | some value =>
      some { c with
        sites := c.sites.modify (fun x => { x with next := value.sites }) s
        values := c.values.modify (fun x => { x with sites := some s }) v }

/-! ## compiler.cpp: free registers -/

/-- The two-argument function `freeRegister`. -/
def freeRegister (A : X86.Assembler.Interface) (c : Context) (allowAcquired : Bool) :
    Option Int :=
  freeRegisterExcept A c X86.NoRegister allowAcquired

/-- The three-argument function `freeRegister`: the context with the new register site, and the
pointer to the site. -/
def freeRegisterSite (A : X86.Assembler.Interface) (BytesPerWord : Nat) (c : Context)
    (size : Nat) (allowAcquired : Bool) : Option (Context × SiteRef) :=
  if BytesPerWord = 4 ∧ size = 8 then
    match freeRegister A c allowAcquired with
    | none => none
    | some low =>
      match freeRegisterExcept A c low allowAcquired with
      | none => none
      | some high => some (newSite c (.register low high))
  else
    match freeRegister A c allowAcquired with
    | none => none
    | some low => some (newSite c (.register low X86.NoRegister))

/-! ## compiler.cpp: reads, writes and events -/

/-- The virtual method `Site::resolve`: a `ValueSite` forwards to the sites of its value, every
other site is its own resolution.  The outer `none` is a dangling pointer. -/
def resolve (c : Context) (s : SiteRef) : Option (Option SiteRef) :=
  match c.sites.get? s with
  | none => none
  | some site =>
    match site.kind with
    | .value v => (c.values.get? v).map (fun x => x.sites)
    | _ => some (some s)

/-- The function `target`.  The condition `not value->reads->target->type(c) == StackOperand`
negates the operand type first and compares the outcome, 0 or 1, with `StackOperand`.
Modelled from the spec: the call `freeRegister(c, size)` has no third argument; by the spec
acquired registers that are not reserved are reusable, so `allowAcquired` is taken to be
`true`. -/
def target (A : X86.Assembler.Interface) (BytesPerWord : Nat) (c : Context) (size : Nat)
    (value : ValueRef) : Option (Context × SiteRef) :=
  match c.values.get? value with
  | none => none
  | some v =>
    match v.reads with
    | none => freeRegisterSite A BytesPerWord c size true
    | some r =>
      match c.reads.get? r with
      | none => none
      | some read =>
        match read.target with
        | none => freeRegisterSite A BytesPerWord c size true
        | some t =>
          match c.sites.get? t with
          | none => none
          | some site =>
            match site.kind.type with
            | none => none
            | some type =>
              if (if A.operandCode type = 0 then 1 else 0) = A.operandCode .stack then
                some (c, t)
              else
                freeRegisterSite A BytesPerWord c size true

/-- The function `addRead`.  Its body calls the constructor of `Read` with the value and the size
exchanged and names `c->event-reads` and `r->lastRead`; it is read as a read of `size` bytes of
`v`, linked before `c->event->reads` and after `v->lastRead`. -/
def addRead (c : Context) (v : ValueRef) (size : Nat) (target : Option SiteRef) :
    Option Context :=
  match c.event, c.values.get? v with
  | some e, some value =>
    let r := c.reads.length
    let c := { c with
      reads := c.reads ++ [Read.mk size v target none]
      events := c.events.modify (fun x => { x with reads := r :: x.reads }) e }
    let c :=
      match value.lastRead with
      | some last => { c with reads := c.reads.modify (fun x => { x with next := some r }) last }
      | none => { c with values := c.values.modify (fun x => { x with reads := some r }) v }
    some { c with values := c.values.modify (fun x => { x with lastRead := some r }) v }
  | _, _ => none

/-- The function `addWrite`. -/
def addWrite (c : Context) (v : ValueRef) (size : Nat) : Option Context :=
  match c.event with
  | some e =>
    some { c with events := c.events.modify (fun x => { x with writes := Write.mk size v :: x.writes }) e }
  | none => none

/-- The function `appendReturn` with the constructor of `ReturnEvent`. -/
def appendReturn (A : X86.Assembler.Interface) (BytesPerWord : Nat) (c : Context) (size : Nat)
    (value : Option ValueRef) : Option Context :=
  match Event.new c (.return_ value) with
  | none => none
  | some c =>
    match value with
    | none => some c
    | some v =>
      let (c, s) :=
        newSite c (.register A.returnLow (if size > BytesPerWord then A.returnHigh else X86.NoRegister))
      addRead c v size (some s)

/-- The function `appendMove` with the constructor of `MoveEvent`. -/
def appendMove (c : Context) (type : X86.Assembler.BinaryOperation) (size : Nat)
    (src dst : ValueRef) : Option Context :=
  match Event.new c (.move type size src dst) with
  | none => none
  | some c =>
    match addRead c src size none with
    | none => none
    | some c => addWrite c dst size

/-- The function `appendCompare` with the constructor of `CompareEvent`. -/
def appendCompare (c : Context) (size : Nat) (first second : ValueRef) : Option Context :=
  match Event.new c (.compare size first second) with
  | none => none
  | some c =>
    match addRead c first size none with
    | none => none
    | some c => addRead c second size none

/-- The function `appendBranch` with the constructor of `BranchEvent`. -/
def appendBranch (BytesPerWord : Nat) (c : Context) (type : X86.Assembler.UnaryOperation)
    (address : ValueRef) : Option Context :=
  match Event.new c (.branch type address) with
  | none => none
  | some c => addRead c address BytesPerWord none

/-- The function `appendCombine` with the constructor of `CombineEvent`. -/
def appendCombine (A : X86.Assembler.Interface) (c : Context)
    (type : X86.Assembler.BinaryOperation) (size : Nat) (first second result : ValueRef) :
    Option Context :=
  match Event.new c (.combine type size first second result) with
  | none => none
  | some c =>
    let r := A.getTargets type size
    let (c, t1) :=
      if r.1.low = X86.NoRegister then (c, none)
      else Prod.map id some (newSite c (.register r.1.low r.1.high))
    match addRead c first size t1 with
    | none => none
    | some c =>
      let (c, t2) :=
        if r.2.low = X86.NoRegister then newSite c (.value result)
        else newSite c (.register r.2.low r.2.high)
      match addRead c second size (some t2) with
      | none => none
      | some c => addWrite c result size

/-- The function `appendTranslate` with the constructor of `TranslateEvent`. -/
def appendTranslate (c : Context) (type : X86.Assembler.UnaryOperation) (size : Nat)
    (value result : ValueRef) : Option Context :=
  match Event.new c (.translate type size value result) with
  | none => none
  | some c =>
    let (c, t) := newSite c (.value result)
    match addRead c value size (some t) with
    | none => none
    | some c => addWrite c result size

/-- The private method `MyCompiler::machineIp()`: a code promise with offset -1, linked before
the promises of `c.event`; the context and the promise. -/
def codePromise (c : Context) : Option (Context × Promise) :=
  match c.event with
  | none => none
  | some e =>
    let p := c.codeOffsets.length
    some ({ c with
        codeOffsets := c.codeOffsets ++ [-1]
        events := c.events.modify (fun x => { x with promises := p :: x.promises }) e },
      Promise.code p)

/-- The method `MyCompiler::machineIp(unsigned)`. -/
def machineIp (logicalIp : Nat) : Promise :=
  Promise.ip logicalIp

/-! ## compiler.cpp: compile -/

/-- The virtual method `Site::accept`: a push for a `StackSite`, a move for every other site. -/
def accept (A : X86.Assembler.Interface) (c : Context) (this : SiteRef) (size : Nat)
    (src : Option SiteRef) : Option Context :=
  match c.sites.get? this with
  | none => none
  | some site =>
    match site.kind with
    | .stack _ => applyUnary A c .push size src
    | _ => applyBinary A c .move size src (some this)

/-- The loop of `compile` over the frames of `e->stack`, run when the picked site is a stack
site: `s` is the loop variable, `target`, `site` and `copyCost` the locals of the enclosing
loop, `stackOf` the frame of the stack site first picked.  The undeclared `t` in the call of
`target` is read as `c`. -/
def unwind (A : X86.Assembler.Interface) (BytesPerWord : Nat) (stackTop : StackRef)
    (value : ValueRef) (stackOf : Nat) :
    Nat → Context → StackRef → Option SiteRef → Option SiteRef → Nat →
      Option (Context × Option SiteRef × Option SiteRef × Nat)
  | _, c, none, target, site, copyCost => some (c, target, site, copyCost)
  | 0, _, some _, _, _, _ => none
  | fuel + 1, c, some s, target, site, copyCost =>
    match c.frames.get? s with
    | none => none
    | some f =>
      if f.pushed then
        match f.value with
        | none => none
        | some fv =>
          match Compiler.target A BytesPerWord c (f.size * BytesPerWord) fv with
          | none => none
          | some (c, t) =>
            match addSite A BytesPerWord c stackTop (f.size * BytesPerWord) fv t with
            | none => none
            | some c =>
              let c := { c with frames := c.frames.modify (fun x => { x with pushed := false }) s }
              if s = stackOf then
                match c.values.get? value with
                | none => none
                | some v =>
                  match pick c v.sites (some t) with
                  | none => none
                  | some (site, copyCost) => some (c, some t, site, copyCost)
              else
                unwind A BytesPerWord stackTop value stackOf fuel c f.next (some t) site copyCost
      else
        unwind A BytesPerWord stackTop value stackOf fuel c f.next target site copyCost

/-- The first statement of the loop of `compile` over the reads:
`r->target ? r->target->resolve(c) : 0`.  The outer `none` is a dangling pointer. -/
def readTarget (c : Context) (read : Read) : Option (Option SiteRef) :=
  match read.target with
  | none => some none
  | some t => resolve c t

/-- The choice of the site a read is served from: `pick`, and the loop over the frames when the
picked site is a stack site.  The outcome is the context with `target`, `site` and `copyCost`. -/
def chooseSite (A : X86.Assembler.Interface) (BytesPerWord : Nat) (c : Context) (e : Event)
    (read : Read) (target : Option SiteRef) :
    Option (Context × Option SiteRef × Option SiteRef × Nat) :=
  match c.values.get? read.value with
  | none => none
  | some v =>
    match pick c v.sites target with
    | some (some site, copyCost) =>
      match c.sites.get? site with
      | none => none
      | some picked =>
        match picked.kind with
        | .value _ => none
        | .stack stackOf =>
          unwind A BytesPerWord e.stack read.value stackOf c.frames.length c e.stack target
            (some site) copyCost
        | _ => some (c, target, some site, copyCost)
    | _ => none

/-- The statements of the loop of `compile` over the reads that assign `r->value->source`. -/
def supplySource (A : X86.Assembler.Interface) (BytesPerWord : Nat) (c : Context) (e : Event)
    (read : Read) (target site : Option SiteRef) (copyCost : Nat) : Option Context :=
  match target with
  | some t =>
    let copied : Option Context :=
      if copyCost ≠ 0 then
        match addSite A BytesPerWord c e.stack read.size read.value t with
        | none => none
        | some c => accept A c t read.size site
      else
        some c
    copied.map fun c =>
      { c with values := c.values.modify (fun x => { x with source := some t }) read.value }
  | none =>
    some { c with values := c.values.modify (fun x => { x with source := site }) read.value }

/-- The last statement of the loop of `compile` over the reads:
`r->value->reads = r->value->reads->next`. -/
def retireRead (c : Context) (value : ValueRef) : Option Context :=
  match c.values.get? value with
  | none => none
  | some v =>
    match v.reads with
    | none => none
    | some head =>
      match c.reads.get? head with
      | none => none
      | some first =>
        some { c with values := c.values.modify (fun x => { x with reads := first.next }) value }

/-- The body of the loop of `compile` over the reads of the event `e`, for the read `r`. -/
def processRead (A : X86.Assembler.Interface) (BytesPerWord : Nat) (c : Context) (e : Event)
    (r : ReadRef) : Option Context :=
  match c.reads.get? r with
  | none => none
  | some read =>
    match readTarget c read with
    | none => none
    | some target =>
      match chooseSite A BytesPerWord c e read target with
      | none => none
      | some (c, target, site, copyCost) =>
        match supplySource A BytesPerWord c e read target site copyCost with
        | none => none
        | some c => retireRead c read.value

/-- The loop of `compile` over the reads of the event `e`. -/
def processReads (A : X86.Assembler.Interface) (BytesPerWord : Nat) (e : Event) :
    Context → List ReadRef → Option Context
  | c, [] => some c
  | c, r :: rest =>
    match processRead A BytesPerWord c e r with
    | none => none
    | some c => processReads A BytesPerWord e c rest

/-- The loop of `compile` over the writes of the event `e`. -/
def processWrites (A : X86.Assembler.Interface) (BytesPerWord : Nat) (e : Event) :
    Context → List Write → Option Context
  | c, [] => some c
  | c, w :: rest =>
    match target A BytesPerWord c w.size w.value with
    | none => none
    | some (c, t) =>
      let c := { c with values := c.values.modify (fun x => { x with target := some t }) w.value }
      match addSite A BytesPerWord c e.stack w.size w.value t with
      | none => none
      | some c => processWrites A BytesPerWord e c rest

/-- A call of the assembler through `c->assembler`. -/
def Context.emit (c : Context) (f : X86.Context → Option X86.Context) : Option Context :=
  (f c.assembler).map fun assembler => { c with assembler := assembler }

/-- Modelled from the spec: the flag `Compiler::Aligned` is declared in compiler.h, which is not
among the sources, and the spec gives no number for it; the lowest bit is taken. -/
def Aligned : Nat := 1

/-- The field `source` of the value `v`. -/
def Context.source (c : Context) (v : ValueRef) : Option SiteRef :=
  (c.values.get? v).bind (fun x => x.source)

/-- The virtual method `Event::compile`.  Modelled from the spec: the events of `appendPush` and
`appendPop` have no class in the source; by the spec a push "does not itself emit a
stack-pointer adjustment", and both are taken to emit nothing. -/
def Event.compile (A : X86.Assembler.Interface) (BytesPerWord : Nat) (c : Context) :
    EventKind → Option Context
  | .push => some c
  | .pop _ _ => some c
  | .call address indirection flags traceHandler _ =>
    let type : X86.Assembler.UnaryOperation := if flags &&& Aligned ≠ 0 then .alignedCall else .call
    let called : Option Context :=
      if indirection ≠ 0 then
        let (c, s) := newSite c (.constant (Promise.resolved indirection))
        applyUnary A c type BytesPerWord (some s)
      else
        applyUnary A c type BytesPerWord (c.source address)
    called.map fun c =>
      if traceHandler then
        { c with codeOffsets := c.codeOffsets ++ [wrapSigned 32 (c.assembler.code.length : Int)] }
      else c
  | .return_ _ =>
    match c.emit (A.apply2 (c.clientSide A) .move BytesPerWord .register (.register (X86.reg A.base))
        .register (.register (X86.reg A.stack))) with
    | none => none
    | some c =>
      match c.emit (A.apply1 (c.clientSide A) .pop BytesPerWord .register (.register (X86.reg A.base))) with
      | none => none
      | some c => c.emit (A.apply0 .return_)
  | .move type size src dst =>
    applyBinary A c type size (c.source src) ((c.values.get? dst).bind (fun x => x.target))
  | .compare size first second =>
    applyBinary A c .compare size (c.source first) (c.source second)
  | .branch type address => applyUnary A c type BytesPerWord (c.source address)
  | .combine type size first second _ =>
    applyBinary A c type size (c.source first) (c.source second)
  | .translate type size value _ => applyUnary A c type size (c.source value)
  | .memory _ _ _ => some c

/-- The loop of `compile` over the promises of an event: `p->offset = a->length()`.  The length
is an `unsigned` and the field `offset` an `int`: the assignment converts it. -/
def setOffsets (length : Nat) : List Int → List Nat → List Int
  | offsets, [] => offsets
  | offsets, p :: rest => setOffsets length (offsets.set p (wrapSigned 32 (length : Int))) rest

/-- The body of the loop of `compile` over the events, for the event `e`. -/
def compileEvent (A : X86.Assembler.Interface) (BytesPerWord : Nat) (c : Context) (e : Event) :
    Option Context :=
  let c := { c with
    logicalCode := c.logicalCode.modify
      (fun li => { li with machineOffset := c.assembler.code.length }) e.logicalIp.toNat }
  match processReads A BytesPerWord e c e.reads with
  | none => none
  | some c =>
    match processWrites A BytesPerWord e c e.writes with
    | none => none
    | some c =>
      match Event.compile A BytesPerWord c e.kind with
      | none => none
      | some c =>
        some { c with codeOffsets := setOffsets c.assembler.code.length c.codeOffsets e.promises }

/-- The loop of `compile` over the events, from the given event on. -/
def compileEvents (A : X86.Assembler.Interface) (BytesPerWord : Nat) :
    Context → List Event → Option Context
  | c, [] => some c
  | c, e :: rest =>
    match compileEvent A BytesPerWord c e with
    | none => none
    | some c => compileEvents A BytesPerWord c rest

/-- The first statements of `compile`: the base register is pushed, the stack register is moved
to it, and room for `stackOffset` words is taken from the stack register.  The product
`c->stackOffset * BytesPerWord` is an `unsigned`. -/
def prologue (A : X86.Assembler.Interface) (BytesPerWord : Nat) (c : Context) : Option Context :=
  match c.emit (A.apply1 (c.clientSide A) .push BytesPerWord .register (.register (X86.reg A.base))) with
  | none => none
  | some c =>
    match c.emit (A.apply2 (c.clientSide A) .move BytesPerWord .register (.register (X86.reg A.stack))
        .register (.register (X86.reg A.base))) with
    | none => none
    | some c =>
      if c.stackOffset ≠ 0 then
        c.emit (A.apply2 (c.clientSide A) .subtract BytesPerWord .constant
          (.constant ⟨Promise.resolved ((c.stackOffset * BytesPerWord) % 2 ^ 32 : Nat)⟩)
          .register (.register (X86.reg A.stack)))
      else
        some c

/-- The function `compile`.  It starts from `c->firstEvent`, a member the class `Context` does
not declare; it is the event appended first.  The events are those appended before the call,
`count` of them being compiled. -/
def compileUpTo (A : X86.Assembler.Interface) (BytesPerWord : Nat) (c : Context) (count : Nat) :
    Option Context :=
  match prologue A BytesPerWord c with
  | none => none
  | some c1 => compileEvents A BytesPerWord c1 (c.events.take count)

/-- The function `compile`: all events are compiled. -/
def compile (A : X86.Assembler.Interface) (BytesPerWord : Nat) (c : Context) : Option Context :=
  compileUpTo A BytesPerWord c c.events.length

/-! ## Register-table states named by the statements below -/

/-- The table after the constructor and `acquireTemporary` of each of the registers in `rs`. -/
def withTemporaries (A : X86.Assembler.Interface) (c : Context) : List Int → Option Context
  | [] => some c
  | r :: rs =>
    match acquireTemporary A c r with
    | none => none
    | some (c, _) => withTemporaries A c rs


/-! ## The register-table invariant -/

/-- The sites of a site list, from its first site along the `next` links. -/
def siteList (c : Context) : Nat → Option SiteRef → List SiteRef
  | 0, _ => []
  | _ + 1, none => []
  | fuel + 1, some s => s :: siteList c fuel (c.siteNext s)

/-- The site list of the value `v`. -/
def Context.sitesOf (c : Context) (v : ValueRef) : List SiteRef :=
  siteList c c.sites.length ((c.values.get? v).bind (fun x => x.sites))

/-- The register-table invariant at the register `r`: if `r` has a resident value, the site
recorded for `r` is in the site list of that value and in the site list of no other value. -/
def registerInvariantAt (c : Context) (r : Int) : Bool :=
  match (c.registers r).value with
  | none => true
  | some v =>
    match (c.registers r).site with
    | none => false
    | some s =>
      decide (s ∈ c.sitesOf v)
        && (List.range c.values.length).all (fun w => decide (w = v) || !decide (s ∈ c.sitesOf w))

/-- The register-table invariant: it holds at every register of the table. -/
def registerInvariant (A : X86.Assembler.Interface) (c : Context) : Bool :=
  (List.range A.registerCount).all (fun r => registerInvariantAt c (r : Int))

/-! ## Contexts named by the statements below -/

/-- On a 32-bit target: a value `0` with no site yet and the register pair site `0` for
(`rax`, `rdx`), a value `1` with no site yet and the register site `1` for `rax`. -/
def pairAndSingle : Context :=
  let c := Context.create (X86.directAssembler 4) 0 0
  let c := (newSite c (.register X86.rax X86.rdx)).1
  let c := (newValue c none).1
  let c := (newSite c (.register X86.rax X86.NoRegister)).1
  (newValue c none).1

/-- On x86-64: logical IP 0 is started and a compare of the value `0`, which lives in `rax`,
with itself is appended. -/
def compareWithItself : Option Context :=
  let c := startLogicalIp (Context.create (X86.directAssembler 8) 1 0) 0
  let c := (newSite c (.register X86.rax X86.NoRegister)).1
  let c := (newValue c (some 0)).1
  appendCompare c 8 0 0

/-- On x86-64: logical IP 0 is started and two returns without a value are appended. -/
def twoReturns : Option Context :=
  let c := startLogicalIp (Context.create (X86.directAssembler 8) 1 0) 0
  (appendReturn (X86.directAssembler 8) 8 c 0 none).bind fun c =>
    appendReturn (X86.directAssembler 8) 8 c 0 none

/-! ## The bookkeeping of compile -/

/-- The parts of the context that only `compile` itself assigns during emission: the logical
instructions, the offsets of the code promises and the events. -/
def Context.book (c : Context) : List LogicalInstruction × List Int × List Event :=
  (c.logicalCode, c.codeOffsets, c.events)

/-- The code promises of the events are distinct objects, each with an offset field. -/
def Context.promisesLinked (c : Context) : Prop :=
  (c.events.map (fun e => e.promises)).flatten.Nodup
    ∧ ∀ p ∈ (c.events.map (fun e => e.promises)).flatten, p < c.codeOffsets.length


/-- On x86-64: logical IP 0 is started, a return without a value is appended and a code promise
is attached to it. -/
def returnWithPromise : Context :=
  let c := startLogicalIp (Context.create (X86.directAssembler 8) 1 0) 0
  match appendReturn (X86.directAssembler 8) 8 c 0 none with
  | none => c
  | some c1 =>
    match codePromise c1 with
    | none => c1
    | some (c2, _) => c2

/-- As `returnWithPromise`, for an assembler that holds the bytes `code` when the front end
starts. -/
def returnAfterCode (code : List Nat) : Context :=
  let c0 := Context.create (X86.directAssembler 8) 1 0
  let c := startLogicalIp { c0 with assembler := { c0.assembler with code := code } } 0
  match appendReturn (X86.directAssembler 8) 8 c 0 none with
  | none => c
  | some c1 =>
    match codePromise c1 with
    | none => c1
    | some (c2, _) => c2

/-! ## Site lists -/

/-- The sites `l` are the site list that starts at `first`: each is linked to the next by
`next`, and the last one has a null `next`. -/
def isSiteList (c : Context) : Option SiteRef → List SiteRef → Prop
  | none, [] => True
  | some s, t :: l => s = t ∧ isSiteList c (c.siteNext s) l
  | none, _ :: _ => False
  | some _, [] => False

/-- One site of each concrete class, in a fresh context: a constant, an address, a register, a
memory and a stack site, with the pointers 0 to 4. -/
def oneSiteOfEachClass : Context :=
  let c := Context.create (X86.directAssembler 8) 0 0
  let c := (newSite c (.constant (Promise.resolved 42))).1
  let c := (newSite c (.address (Promise.resolved 4096))).1
  let c := (newSite c (.register X86.rax X86.NoRegister)).1
  let c := (newSite c (.memory X86.rbp 8 X86.NoRegister 1)).1
  (newSite c (.stack 0)).1


/-- A value whose site list holds a stack site, a register site and a constant site, in this
order: the sites 0, 2 and 4 of `oneSiteOfEachClass` are added to a new value, the constant site
first. -/
def threeSites : Context :=
  let A := X86.directAssembler 8
  let c := (newValue oneSiteOfEachClass none).1
  match addSite A 8 c none 8 0 0 with
  | none => c
  | some c1 =>
    match addSite A 8 c1 none 8 0 2 with
    | none => c1
    | some c2 =>
      match addSite A 8 c2 none 8 0 4 with
      | none => c2
      | some c3 => c3

/-! ## A program that spills -/

/-- The front-end calls `constant(k)`, a new value, and a move of the constant to it: the
context and the new value. -/
def moveConstant (c : Context) (k : Int) : Option (Context × ValueRef) :=
  let (c, s) := newSite c (.constant (Promise.resolved k))
  let (c, src) := newValue c (some s)
  let (c, dst) := newValue c none
  (appendMove c .move 8 src dst).map fun c => (c, dst)

/-- On x86-64, under logical IP 0: six constants are moved to the values `v1` .. `v6`, `v1` is
pushed, a seventh constant is moved to `v7`, `v7` is pushed, `v1` is returned, and `v7` is read
by a further return.  The values are 1, 3, 5, 7, 9, 11 and 13; the frames are 0, of `v1`, and
on top of it 1, of `v7`. -/
def spillThenReturn : Option Context :=
  let A := X86.directAssembler 8
  let c := startLogicalIp (Context.create A 1 0) 0
  (moveConstant c 1).bind fun r1 =>
  (moveConstant r1.1 2).bind fun r2 =>
  (moveConstant r2.1 3).bind fun r3 =>
  (moveConstant r3.1 4).bind fun r4 =>
  (moveConstant r4.1 5).bind fun r5 =>
  (moveConstant r5.1 6).bind fun r6 =>
  (push 8 r6.1 8 r1.2).bind fun c =>
  (moveConstant c 7).bind fun r7 =>
  (push 8 r7.1 8 r7.2).bind fun c =>
  (appendReturn A 8 c 8 (some r1.2)).bind fun c =>
  appendReturn A 8 c 8 (some r7.2)

/-- As `spillThenReturn`, but `v1` is read by a move to a new value, a read without a target,
and not by a return. -/
def spillThenMove : Option Context :=
  let A := X86.directAssembler 8
  let c := startLogicalIp (Context.create A 1 0) 0
  (moveConstant c 1).bind fun r1 =>
  (moveConstant r1.1 2).bind fun r2 =>
  (moveConstant r2.1 3).bind fun r3 =>
  (moveConstant r3.1 4).bind fun r4 =>
  (moveConstant r4.1 5).bind fun r5 =>
  (moveConstant r5.1 6).bind fun r6 =>
  (push 8 r6.1 8 r1.2).bind fun c =>
  (moveConstant c 7).bind fun r7 =>
  (push 8 r7.1 8 r7.2).bind fun c =>
  let (c, dst) := newValue c none
  (appendMove c .move 8 r1.2 dst).bind fun c =>
  appendReturn A 8 c 8 (some r7.2)

/-- The frame order of the abstract stack: the frame beneath a pushed frame is pushed. -/
def pushedBelow (c : Context) : Bool :=
  c.frames.all fun f =>
    !f.pushed ||
      match f.next with
      | none => true
      | some n => ((c.frames.get? n).map (fun g => g.pushed)).getD false

/-- On x86-64, under logical IP 0: a value without a site is returned, which gives its first
read the register site of `rax` as target. -/
def returnedValue : Option Context :=
  let A := X86.directAssembler 8
  let c := startLogicalIp (Context.create A 1 0) 0
  let c := (newValue c none).1
  appendReturn A 8 c 8 (some 0)

/-! ## compiler.cpp: call events -/

/-- The loop of the constructor of `CallEvent` over the arguments: `s` is the frame of the next
argument, `index` its word index, and the first argument of the function the number of
arguments left.  `index` and the size of a read are `unsigned`: the sum `index += s->size` and
the product `s->size * BytesPerWord` are taken modulo 2^32.  `none` is a null frame or value, or
the abort of `argumentRegister`. -/
def callArguments (A : X86.Assembler.Interface) (BytesPerWord : Nat) :
    Nat → Context → StackRef → Nat → Option Context
  | 0, c, _, _ => some c
  | _ + 1, _, none, _ => none
  | n + 1, c, some f, index =>
    match c.frames.get? f with
    | none => none
    | some frame =>
      match frame.value with
      | none => none
      | some v =>
        let site : Option (Context × SiteRef) :=
          if index < A.argumentRegisterCount then
            (A.argumentRegister index).map fun r => newSite c (.register r X86.NoRegister)
          else
            some (newSite c (.stack f))
        match site with
        | none => none
        | some (c1, t) =>
          match addRead c1 v ((frame.size * BytesPerWord) % 2 ^ 32) (some t) with
          | none => none
          | some c2 =>
            callArguments A BytesPerWord n c2 frame.next ((index + frame.size) % 2 ^ 32)

/-- The function `appendCall` with the constructor of `CallEvent`.  `indirection` is a pointer,
0 when null, and `traceHandler` tells whether the handler is not null.  `appendCall` passes no
`resultSize` to the constructor; it is a parameter here. -/
def appendCall (A : X86.Assembler.Interface) (BytesPerWord : Nat) (c : Context)
    (address : ValueRef) (indirection : Int) (flags : Nat) (traceHandler : Bool)
    (result : Option ValueRef) (resultSize argumentCount : Nat) : Option Context :=
  match Event.new c (.call address indirection flags traceHandler result) with
  | none => none
  | some c1 =>
    let (c2, t) :=
      if indirection ≠ 0 then Prod.map id some (newSite c1 (.register A.returnLow X86.NoRegister))
      else (c1, none)
    match addRead c2 address BytesPerWord t with
    | none => none
    | some c3 =>
      match callArguments A BytesPerWord argumentCount c3 c.state.stack 0 with
      | none => none
      | some c4 =>
        match result with
        | none => some c4
        | some r => addWrite c4 r resultSize

/-- The frame `j` frames beneath the frame `s`. -/
def frameAt (c : Context) : Nat → StackRef → Option Nat
  | _, none => none
  | 0, some f => some f
  | j + 1, some f => frameAt c j ((c.frames.get? f).bind fun x => x.next)

/-- The sum of the sizes of the first `j` frames from the frame `s` down. -/
def wordsBefore (c : Context) : Nat → StackRef → Nat
  | 0, _ => 0
  | _ + 1, none => 0
  | j + 1, some f =>
    ((c.frames.get? f).map fun x => x.size).getD 0
      + wordsBefore c j ((c.frames.get? f).bind fun x => x.next)

/-- What a read is of: its size, its value and its target. -/
def Read.key (r : Read) : Nat × ValueRef × Option SiteRef :=
  (r.size, r.value, r.target)

/-- On x86-64: seven values are pushed, the last of them of two words and the others of one. -/
def sevenPushed : Option Context :=
  let A := X86.directAssembler 8
  let c := startLogicalIp (Context.create A 1 0) 0
  let c := (List.range 8).foldl (fun c _ => (newValue c none).1) c
  (push 8 c 8 1).bind fun c =>
  (push 8 c 8 2).bind fun c =>
  (push 8 c 8 3).bind fun c =>
  (push 8 c 8 4).bind fun c =>
  (push 8 c 8 5).bind fun c =>
  (push 8 c 8 6).bind fun c =>
  push 8 c 16 7

/-- A call of the value 0 with the seven values of `sevenPushed` as its arguments. -/
def callOfSeven : Option Context :=
  sevenPushed.bind fun c => appendCall (X86.directAssembler 8) 8 c 0 0 0 false none 0 7

/-- The calls `push(size, v)` for the sizes and values of a list, first to last. -/
def pushEach (BytesPerWord : Nat) : Context → List (Nat × ValueRef) → Option Context
  | c, [] => some c
  | c, (size, v) :: rest =>
    match push BytesPerWord c size v with
    | none => none
    | some c1 => pushEach BytesPerWord c1 rest

/-- On x86-64: seventeen values are pushed, the first of 8 bytes, then eight of 8 bytes and
eight of 2^32 - 8 bytes, which take 2^29 - 1 words each: the sixteen frames above the first
take 2^32 words. -/
def seventeenPushed : Option Context :=
  let A := X86.directAssembler 8
  let c := startLogicalIp (Context.create A 1 0) 0
  let c := (List.range 18).foldl (fun c _ => (newValue c none).1) c
  pushEach 8 c
    ([(8, 1)] ++ (List.range 8).map (fun i => (8, 2 + i))
      ++ (List.range 8).map (fun i => (2 ^ 32 - 8, 10 + i)))

/-- A call of the value 0 with the seventeen values of `seventeenPushed` as its arguments. -/
def callOfSeventeen : Option Context :=
  seventeenPushed.bind fun c => appendCall (X86.directAssembler 8) 8 c 0 0 0 false none 0 17

/-! ## The code of the prologue -/

/-- The code vector of `c1` begins with that of `c`. -/
def Context.grownFrom (c1 c : Context) : Prop :=
  c.assembler.code <+: c1.assembler.code

/-- The instruction `sub rsp, imm` of x86-64 for `stackOffset` words of 8 bytes: REX.W, then
opcode 83 /5 with an immediate of 8 bits, or 81 /5 with one of 32 bits; no instruction for no
words. -/
def stackAdjustment (stackOffset : Nat) : List Nat :=
  if stackOffset = 0 then []
  else if stackOffset * 8 < 128 then [0x48, 0x83, 0xec, stackOffset * 8]
  else [0x48, 0x81, 0xec] ++ leBytes 4 ((stackOffset * 8 : Nat) : Int)

/-- On x86-64, with a frame of three words: logical IP 0 is started and a return without a
value is appended. -/
def returnInFrame : Context :=
  let c := startLogicalIp (Context.create (X86.directAssembler 8) 1 3) 0
  (appendReturn (X86.directAssembler 8) 8 c 0 none).getD c

/-! ## Register tables named by the statements below -/

/-- On x86-64, the register table after the constructor, and after it a slot whose byte
`reserved` is not zero: the table proper is the same as after the constructor. -/
def reservedPastTable : Context :=
  let c := Context.create (X86.directAssembler 8) 0 0
  { c with registers := Function.update c.registers 8 ⟨none, none, 0, true⟩ }

/-- On x86-64: a register site for `r9`, the register of the sixth argument, is added to a new
value. -/
def sixthArgumentSite : Option Context :=
  let A := X86.directAssembler 8
  let c := (newValue (Context.create A 1 0) none).1
  let (c, s) := newSite c (.register X86.r9 X86.NoRegister)
  addSite A 8 c none 8 0 s

/-! ## compiler.cpp: junctions -/

/-- The method `MyCompiler::visitLogicalIp`: the counter `visits` is an `unsigned`; `none` is
a logical IP outside the array `logicalCode`. -/
def visitLogicalIp (c : Context) (logicalIp : Nat) : Option Context :=
  match c.logicalCode.get? logicalIp with
  | none => none
  | some li =>
    let visits := (li.visits + 1) % 2 ^ 32
    let c := { c with
      logicalCode := c.logicalCode.modify (fun x => { x with visits := visits }) logicalIp }
    if visits = 1 then some { c with junctions := logicalIp :: c.junctions } else some c

/-- The function `updateJunctions`, as the list of the stacks it passes to `markStack`, in the
order of the calls.  The body of `markStack(Context*, Stack*)` reads members `operand` and
`push` that the classes of this source do not declare, so a call is recorded by its argument.
`none` is a read through a null `lastEvent`, or outside the array `logicalCode`. -/
def updateJunctions (c : Context) : List Nat → Option (List StackRef)
  | [] => some []
  | j :: rest =>
    match c.logicalCode.get? j with
    | none => none
    | some i =>
      if i.predecessor ≥ 0 then
        match c.logicalCode.get? i.predecessor.toNat with
        | none => none
        | some p =>
          match p.lastEvent with
          | none => none
          | some last =>
            match c.events.get? last with
            | none => none
            | some e => (updateJunctions c rest).map fun marked => e.stack :: marked
      else
        updateJunctions c rest

/-- On x86-64, with two logical instructions: logical IP 0 is visited and started and a new
value is pushed under it; logical IP 1 is visited and started and the value is returned under
it. -/
def twoLogicalIps : Option Context :=
  let A := X86.directAssembler 8
  (visitLogicalIp (Context.create A 2 0) 0).bind fun c =>
  let c := startLogicalIp c 0
  let c := (newValue c none).1
  (push 8 c 8 0).bind fun c =>
  (visitLogicalIp c 1).bind fun c =>
  let c := startLogicalIp c 1
  appendReturn A 8 c 8 (some 0)

/-- On x86-64, with one logical instruction: logical IP 0 is visited and started and a return
is appended under it. -/
def oneLogicalIp : Option Context :=
  let A := X86.directAssembler 8
  (visitLogicalIp (Context.create A 1 0) 0).bind fun c =>
  appendReturn A 8 (startLogicalIp c 0) 0 none

/-! ## What syncStack does to a frame, in the words of the specification -/

/-- On x86-64, under logical IP 0: six constants are moved to the values `v1` .. `v6`, `v1` is
pushed twice, a seventh constant is moved to `v7`, and `v1` is returned.  The values are 1, 3,
5, 7, 9, 11 and 13; the frames are 0 and, on top of it, 1, both of `v1`. -/
def spillTwice : Option Context :=
  let A := X86.directAssembler 8
  let c := startLogicalIp (Context.create A 1 0) 0
  (moveConstant c 1).bind fun r1 =>
  (moveConstant r1.1 2).bind fun r2 =>
  (moveConstant r2.1 3).bind fun r3 =>
  (moveConstant r3.1 4).bind fun r4 =>
  (moveConstant r4.1 5).bind fun r5 =>
  (moveConstant r5.1 6).bind fun r6 =>
  (push 8 r6.1 8 r1.2).bind fun c =>
  (push 8 c 8 r1.2).bind fun c =>
  (moveConstant c 7).bind fun r7 =>
  appendReturn A 8 r7.1 8 (some r1.2)

end Compiler

end Avian

/-! # Theorems -/

namespace Avian

/-! ## Machine integers and memory -/

theorem wrapSigned_32_of_fits (v : Int) (h : -2 ^ 31 ≤ v ∧ v < 2 ^ 31) : wrapSigned 32 v = v := by
  unfold wrapSigned
  norm_num at h ⊢
  omega

theorem isInt32_iff (v : Int) : isInt32 v = true ↔ (-2 ^ 31 ≤ v ∧ v < 2 ^ 31) := by
  unfold isInt32 wrapSigned
  norm_num
  omega

theorem isInt8_iff (v : Int) : isInt8 v = true ↔ (-128 ≤ v ∧ v ≤ 127) := by
  unfold isInt8 wrapSigned
  norm_num
  omega

/-- The pointer difference computed by a task is the mathematical difference whenever that
difference is representable in the word. -/
theorem ptrdiff_exact (BytesPerWord : Nat) (hw : BytesPerWord = 4 ∨ BytesPerWord = 8)
    (T base : Int)
    (h : -2 ^ (8 * BytesPerWord - 1) ≤ T - base ∧ T - base < 2 ^ (8 * BytesPerWord - 1)) :
    wrapSigned (8 * BytesPerWord) (wrapUnsigned (8 * BytesPerWord) T - base) = T - base := by
  unfold wrapSigned wrapUnsigned
  rcases hw with rfl | rfl <;> norm_num at h ⊢ <;> omega

theorem writeBytes_four (m : RawMemory) (a : Int) (b0 b1 b2 b3 : Nat) (x : Int) :
    writeBytes m a [b0, b1, b2, b3] x =
      if x = a + 3 then b3 else if x = a + 2 then b2 else if x = a + 1 then b1
      else if x = a then b0 else m x := by
  simp only [writeBytes, Function.update_apply]
  have e2 : a + 1 + 1 = a + 2 := by ring
  have e3 : a + 1 + 1 + 1 = a + 3 := by ring
  rw [e3, e2]

theorem leBytes_four (v : Int) :
    leBytes 4 v =
      [(v % 256).toNat, (v / 256 % 256).toNat, (v / 256 / 256 % 256).toNat,
        (v / 256 / 256 / 256 % 256).toNat] := by
  simp [leBytes]

theorem readInt32_writeBytes_leBytes (m : RawMemory) (a v : Int)
    (h : -2 ^ 31 ≤ v ∧ v < 2 ^ 31) :
    readInt32 (writeBytes m a (leBytes 4 v)) a = v := by
  have e2 : a + 1 + 1 = a + 2 := by ring
  have e3 : a + 2 + 1 = a + 3 := by ring
  simp only [readInt32, readLE, leBytes_four, writeBytes_four, e2, e3]
  simp only [add_right_eq_self, add_right_inj, OfNat.ofNat_ne_zero, if_false, if_true,
    OfNat.ofNat_eq_ofNat, Nat.reduceEqDiff, one_ne_zero]
  unfold wrapSigned
  norm_num at h ⊢
  omega

/-- Pointwise description of `writeBytes`. -/
theorem writeBytes_apply (bs : List Nat) (m : RawMemory) (a x : Int) :
    writeBytes m a bs x =
      if a ≤ x ∧ x < a + bs.length then bs.getD (x - a).toNat 0 else m x := by
  induction bs generalizing m a with
  | nil =>
    have : ¬ (a ≤ x ∧ x < a) := by omega
    simp [writeBytes, this]
  | cons b bs ih =>
    rw [writeBytes, ih]
    by_cases h1 : a + 1 ≤ x ∧ x < a + 1 + bs.length
    · have h2 : a ≤ x ∧ x < a + ((b :: bs).length : Nat) := by
        simp only [List.length_cons]; push_cast; omega
      rw [if_pos h1, if_pos h2]
      have h3 : (x - a).toNat = (x - (a + 1)).toNat + 1 := by omega
      rw [h3, List.getD_cons_succ]
    · rw [if_neg h1]
      by_cases h4 : x = a
      · subst h4
        have h2 : x ≤ x ∧ x < x + ((b :: bs).length : Nat) := by
          simp only [List.length_cons]; push_cast; omega
        rw [if_pos h2]
        simp
      · have h2 : ¬ (a ≤ x ∧ x < a + ((b :: bs).length : Nat)) := by
          simp only [List.length_cons]; push_cast; omega
        rw [if_neg h2, Function.update_noteq h4]

/-- Patching the tail of a copied block is the same as copying the patched block. -/
theorem writeBytes_patch (m : RawMemory) (a : Int) (pre old new : List Nat)
    (h : old.length = new.length) :
    writeBytes (writeBytes m a (pre ++ old)) (a + pre.length) new = writeBytes m a (pre ++ new) := by
  funext x
  simp only [writeBytes_apply, List.length_append, Nat.cast_add]
  by_cases h1 : a + pre.length ≤ x ∧ x < a + pre.length + new.length
  · have h2 : a ≤ x ∧ x < a + (↑pre.length + ↑new.length) := by omega
    rw [if_pos h1, if_pos h2]
    have h3 : (x - a).toNat = pre.length + (x - (a + pre.length)).toNat := by omega
    rw [h3, List.getD_append_right _ _ _ _ (by omega)]
    simp
  · rw [if_neg h1]
    by_cases h2 : a ≤ x ∧ x < a + (↑pre.length + ↑old.length)
    · have h4 : a ≤ x ∧ x < a + (↑pre.length + ↑new.length) := by omega
      rw [if_pos h2, if_pos h4]
      have h5 : (x - a).toNat < pre.length := by omega
      rw [List.getD_append _ _ _ _ h5, List.getD_append _ _ _ _ h5]
    · have h4 : ¬ (a ≤ x ∧ x < a + (↑pre.length + ↑new.length)) := by omega
      rw [if_neg h2, if_neg h4]

theorem readLE_congr (m1 m2 : RawMemory) (n : Nat) (a : Int)
    (h : ∀ j : Nat, j < n → m1 (a + j) = m2 (a + j)) : readLE m1 a n = readLE m2 a n := by
  induction n generalizing a with
  | zero => rfl
  | succ n ih =>
    simp only [readLE]
    have h0 := h 0 (by omega)
    simp only [Nat.cast_zero, add_zero] at h0
    rw [h0, ih (a + 1)]
    intro j hj
    have := h (j + 1) (by omega)
    rw [show a + 1 + (j : Int) = a + ((j + 1 : Nat) : Int) by push_cast; ring]
    exact this

/-- Reading back a block that was just written gives the value of its bytes. -/
theorem readLE_writeBytes (bs : List Nat) (m : RawMemory) (a : Int) :
    readLE (writeBytes m a bs) a bs.length = leValue bs := by
  induction bs generalizing m a with
  | nil => rfl
  | cons b bs ih =>
    simp only [List.length_cons, readLE, leValue]
    rw [show writeBytes m a (b :: bs) = writeBytes (Function.update m a b) (a + 1) bs from rfl, ih]
    rw [writeBytes_apply, if_neg (by omega)]
    simp

theorem leBytes_length (n : Nat) (v : Int) : (leBytes n v).length = n := by
  induction n generalizing v with
  | zero => rfl
  | succ n ih => simp [leBytes, ih]

/-- The bytes of a word do not change when the value is first converted to `intptr_t`. -/
theorem leBytes_wrapSigned (BytesPerWord : Nat) (hw : BytesPerWord = 4 ∨ BytesPerWord = 8)
    (v : Int) :
    leBytes BytesPerWord (wrapSigned (8 * BytesPerWord) v) = leBytes BytesPerWord v := by
  unfold wrapSigned
  rcases hw with rfl | rfl
  · simp only [leBytes]
    norm_num
    refine ⟨?_, ?_, ?_, ?_⟩ <;> omega
  · simp only [leBytes]
    norm_num
    refine ⟨?_, ?_, ?_, ?_, ?_, ?_, ?_, ?_⟩ <;> omega

/-! ## Stores -/

theorem applyStores_apply (ss : List Store) (m : RawMemory) (x : Int) :
    applyStores ss m x = (storedByte ss x).getD (m x) := by
  induction ss generalizing m with
  | nil => rfl
  | cons s ss ih =>
    rw [applyStores, ih, storedByte, writeBytes_apply]
    cases storedByte ss x with
    | some b => rfl
    | none =>
      by_cases h : s.1 ≤ x ∧ x < s.1 + s.2.length
      · simp [h]
      · simp [h]

theorem applyStores_idem (ss : List Store) (m : RawMemory) :
    applyStores ss (applyStores ss m) = applyStores ss m := by
  funext x
  rw [applyStores_apply, applyStores_apply]
  cases storedByte ss x <;> rfl

theorem applyStores_append (ss ts : List Store) (m : RawMemory) :
    applyStores (ss ++ ts) m = applyStores ts (applyStores ss m) := by
  induction ss generalizing m with
  | nil => rfl
  | cons s ss ih => simp [applyStores, ih]

theorem storedByte_none (ss : List Store) (x : Int)
    (h : ∀ s ∈ ss, ¬ (s.1 ≤ x ∧ x < s.1 + s.2.length)) : storedByte ss x = none := by
  induction ss with
  | nil => rfl
  | cons s ss ih =>
    rw [storedByte, ih (fun t ht => h t (List.mem_cons_of_mem _ ht))]
    simp only
    rw [if_neg (h s (List.mem_cons_self _ _))]

theorem le_pad (BytesPerWord : Nat) (hw : BytesPerWord = 4 ∨ BytesPerWord = 8) (n : Nat) :
    n ≤ pad BytesPerWord n := by
  unfold pad ceiling
  rcases hw with rfl | rfl <;> omega

/-- C15: for every promise, `value()` aborts if and only if `resolved()` is false; a resolved
promise is always resolved, a pool promise and an IP promise exactly when `machineCode` is not
null, the assembler's code promise exactly when `result` is not null, and a compiler code promise
exactly when `machineCode` is not null and its offset is not negative. -/
theorem promise_value_aborts_iff (BytesPerWord : Nat) (w : PromiseView) (p : Promise) :
    (p.value BytesPerWord w = none ↔ p.isResolved w = false) ∧
    (∀ v, (Promise.resolved v).isResolved w = true) ∧
    (∀ key, (Promise.pool key).isResolved w = true ↔ w.machineCode ≠ 0) ∧
    (∀ logicalIp, (Promise.ip logicalIp).isResolved w = true ↔ w.machineCode ≠ 0) ∧
    (∀ offset, (Promise.asmCode offset).isResolved w = true ↔ w.result ≠ 0) ∧
    (∀ id, (Promise.code id).isResolved w = true ↔ (w.machineCode ≠ 0 ∧ 0 ≤ w.codeOffset id)) := by
  refine ⟨?_, ?_, ?_, ?_, ?_, ?_⟩
  · unfold Promise.value
    cases h : p.isResolved w
    · simp
    · cases p <;> simp
  · intro v; rfl
  · intro key; simp [Promise.isResolved]
  · intro ip; simp [Promise.isResolved]
  · intro o; simp [Promise.isResolved]
  · intro id; simp [Promise.isResolved]

namespace X86

/-! ## Offset tasks -/

/-- What `OffsetTask::run` does when the promise has a value `T` and the pointer difference is
representable in a word: it aborts exactly when the displacement is no `int32_t`, leaving memory
as it was, and otherwise stores the displacement in the last four bytes of the instruction. -/
theorem OffsetTask.run_eq (BytesPerWord : Nat) (hw : BytesPerWord = 4 ∨ BytesPerWord = 8)
    (w : PromiseView) (p : Promise) (o n : Nat) (T : Int) (m : RawMemory)
    (hp : p.value BytesPerWord w = some T)
    (hrep : -2 ^ (8 * BytesPerWord - 1) ≤ T - (w.result + o + n) ∧
      T - (w.result + o + n) < 2 ^ (8 * BytesPerWord - 1)) :
    OffsetTask.run BytesPerWord w p o n m =
      if -2 ^ 31 ≤ T - (w.result + o + n) ∧ T - (w.result + o + n) < 2 ^ 31 then
        Result.done (writeBytes m (w.result + o + n - 4) (leBytes 4 (T - (w.result + o + n))))
      else
        Result.abort m := by
  have hd : wrapSigned (8 * BytesPerWord)
      (wrapUnsigned (8 * BytesPerWord) T - (w.result + o) - n) = T - (w.result + o + n) := by
    have := ptrdiff_exact BytesPerWord hw T (w.result + o + n) hrep
    rw [← this]
    congr 1
    ring
  unfold OffsetTask.run
  simp only [hp, hd]
  by_cases hfit : -2 ^ 31 ≤ T - (w.result + o + n) ∧ T - (w.result + o + n) < 2 ^ 31
  · rw [if_pos ((isInt32_iff _).2 hfit), if_pos hfit, wrapSigned_32_of_fits _ hfit]
  · have : ¬ (isInt32 (T - (w.result + o + n)) = true) := fun h => hfit ((isInt32_iff _).1 h)
    rw [if_neg this, if_neg hfit]

/-- C4: for an offset task with instruction offset `o`, instruction size `n ≥ 4` and a promise of
value `T` whose displacement `T - (dst + o + n)` is an `int32_t`, `run` completes, the four bytes
at offsets `o+n-4 .. o+n-1` from `dst` hold that displacement in little-endian order, and every
other byte of memory is unchanged. -/
theorem offsetTask_run_writes_displacement (BytesPerWord : Nat)
    (hw : BytesPerWord = 4 ∨ BytesPerWord = 8) (w : PromiseView) (p : Promise) (o n : Nat)
    (T : Int) (m : RawMemory)
    (hp : p.value BytesPerWord w = some T) (hn : 4 ≤ n)
    (hfit : -2 ^ 31 ≤ T - (w.result + o + n) ∧ T - (w.result + o + n) < 2 ^ 31) :
    ∃ m1, OffsetTask.run BytesPerWord w p o n m = Result.done m1 ∧
      [m1 (w.result + (o + n - 4 : Nat)), m1 (w.result + (o + n - 4 : Nat) + 1),
        m1 (w.result + (o + n - 4 : Nat) + 2), m1 (w.result + (o + n - 4 : Nat) + 3)]
        = leBytes 4 (T - (w.result + o + n)) ∧
      readInt32 m1 (w.result + (o + n - 4 : Nat)) = T - (w.result + o + n) ∧
      ∀ x : Int, (x < w.result + (o + n - 4 : Nat) ∨ w.result + (o + n : Nat) ≤ x) →
        m1 x = m x := by
  have hrep : -2 ^ (8 * BytesPerWord - 1) ≤ T - (w.result + o + n) ∧
      T - (w.result + o + n) < 2 ^ (8 * BytesPerWord - 1) := by
    rcases hw with rfl | rfl <;> norm_num at hfit ⊢ <;> omega
  have haddr : w.result + o + n - 4 = w.result + ((o + n - 4 : Nat) : Int) := by
    push_cast [Nat.cast_sub (by omega : 4 ≤ o + n)]
    ring
  refine ⟨writeBytes m (w.result + ((o + n - 4 : Nat) : Int))
    (leBytes 4 (T - (w.result + o + n))), ?_, ?_, ?_, ?_⟩
  · rw [OffsetTask.run_eq BytesPerWord hw w p o n T m hp hrep, if_pos hfit, haddr]
  · rw [leBytes_four]
    simp only [writeBytes_four]
    simp
  · exact readInt32_writeBytes_leBytes _ _ _ hfit
  · intro x hx
    rw [leBytes_four, writeBytes_four]
    have h4 : ((o + n - 4 : Nat) : Int) + 4 = ((o + n : Nat) : Int) := by
      push_cast [Nat.cast_sub (by omega : 4 ≤ o + n)]
      ring
    have h0 : x ≠ w.result + ((o + n - 4 : Nat) : Int) := by omega
    have h1 : x ≠ w.result + ((o + n - 4 : Nat) : Int) + 1 := by omega
    have h2 : x ≠ w.result + ((o + n - 4 : Nat) : Int) + 2 := by omega
    have h3 : x ≠ w.result + ((o + n - 4 : Nat) : Int) + 3 := by omega
    simp [h0, h1, h2, h3]

theorem offsetTask_run_writes_displacement_witness :
    ∃ m1, OffsetTask.run 8 ⟨4096, 0, 0, fun _ => 0, fun _ => -1⟩ (Promise.resolved 8192) 0 5
        (fun _ => 0) = Result.done m1 ∧
      readInt32 m1 (4096 + 1) = 4091 := by
  obtain ⟨m1, h1, _, h3, _⟩ :=
    offsetTask_run_writes_displacement 8 (Or.inr rfl) ⟨4096, 0, 0, fun _ => 0, fun _ => -1⟩
      (Promise.resolved 8192) 0 5 8192 (fun _ => 0) (by decide) (by decide) (by decide)
  exact ⟨m1, h1, by simpa using h3⟩

/-- The value of `v` in `OffsetTask::run`: the pointer difference as an `intptr_t`. -/
theorem OffsetTask.run_general (BytesPerWord : Nat) (w : PromiseView) (p : Promise) (o n : Nat)
    (T : Int) (m : RawMemory) (hp : p.value BytesPerWord w = some T) :
    OffsetTask.run BytesPerWord w p o n m =
      if isInt32 (wrapSigned (8 * BytesPerWord)
          (wrapUnsigned (8 * BytesPerWord) T - (w.result + o) - n)) = true then
        Result.done (writeBytes m (w.result + o + n - 4)
          (leBytes 4 (wrapSigned 32 (wrapSigned (8 * BytesPerWord)
            (wrapUnsigned (8 * BytesPerWord) T - (w.result + o) - n)))))
      else
        Result.abort m := by
  unfold OffsetTask.run
  simp only [hp]

theorem wrapSigned_wrapUnsigned_sub (BytesPerWord : Nat)
    (hw : BytesPerWord = 4 ∨ BytesPerWord = 8) (T a b : Int) :
    wrapSigned (8 * BytesPerWord) (wrapUnsigned (8 * BytesPerWord) T - a - b) =
      wrapSigned (8 * BytesPerWord) (T - (a + b)) := by
  unfold wrapSigned wrapUnsigned
  rcases hw with rfl | rfl <;> norm_num <;> omega

theorem wrapSigned_32_range (v : Int) : -2 ^ 31 ≤ wrapSigned 32 v ∧ wrapSigned 32 v < 2 ^ 31 := by
  unfold wrapSigned
  norm_num
  omega

/-- C5 (counterexample): on a 32-bit target, for code stored at 4096, a jump of five bytes at
offset 0 and a promise of value 0xB0000000, the displacement `T - (dst + o + n)` is 2952785915,
which does not fit in a signed 32-bit integer; `run` does not abort, and stores that
displacement modulo 2^32, -1342181381, in the last four bytes of the instruction. -/
theorem offsetTask_run_completes_on_32_bit :
    Promise.value 4 ⟨4096, 0, 0, fun _ => 0, fun _ => -1⟩ (Promise.resolved 2952790016)
      = some 2952790016
    ∧ (2952790016 : Int) - (4096 + (0 : Nat) + (5 : Nat)) = 2952785915
    ∧ ¬ ((2952785915 : Int) < 2 ^ 31)
    ∧ (OffsetTask.run 4 ⟨4096, 0, 0, fun _ => 0, fun _ => -1⟩ (Promise.resolved 2952790016) 0 5
        (fun _ => 0)).aborted = false
    ∧ readInt32 (OffsetTask.run 4 ⟨4096, 0, 0, fun _ => 0, fun _ => -1⟩
        (Promise.resolved 2952790016) 0 5 (fun _ => 0)).state (4096 + 1) = -1342181381 := by
  refine ⟨rfl, by decide, by decide, by decide, by decide⟩

/-- C5: when the promise has a value `T`, `OffsetTask::run` aborts if and only if the
displacement `T - (dst + o + n)`, taken as the `intptr_t` the code computes, is no signed 32-bit
integer.  On a 64-bit target, when the difference of the two addresses is representable as an
`intptr_t`, this is the displacement itself; on a 32-bit target every `intptr_t` is a signed
32-bit integer, and `run` never aborts: it stores the displacement modulo 2^32.  A run that
aborts leaves every byte of memory as it was. -/
theorem offsetTask_run_aborts_iff (BytesPerWord : Nat) (hw : BytesPerWord = 4 ∨ BytesPerWord = 8)
    (w : PromiseView) (p : Promise) (o n : Nat) (T : Int) (m : RawMemory)
    (hp : p.value BytesPerWord w = some T) :
    ((OffsetTask.run BytesPerWord w p o n m).aborted = true ↔
      ¬ (-2 ^ 31 ≤ wrapSigned (8 * BytesPerWord) (T - (w.result + o + n)) ∧
          wrapSigned (8 * BytesPerWord) (T - (w.result + o + n)) < 2 ^ 31)) ∧
    (BytesPerWord = 8 →
      (-2 ^ 63 ≤ T - (w.result + o + n) ∧ T - (w.result + o + n) < 2 ^ 63) →
      ((OffsetTask.run BytesPerWord w p o n m).aborted = true ↔
        ¬ (-2 ^ 31 ≤ T - (w.result + o + n) ∧ T - (w.result + o + n) < 2 ^ 31))) ∧
    (BytesPerWord = 4 →
      OffsetTask.run BytesPerWord w p o n m
        = Result.done (writeBytes m (w.result + o + n - 4)
            (leBytes 4 (wrapSigned 32 (T - (w.result + o + n)))))) ∧
    ((OffsetTask.run BytesPerWord w p o n m).aborted = true →
      ∀ x : Int, (OffsetTask.run BytesPerWord w p o n m).state x = m x) := by
  have hgen := OffsetTask.run_general BytesPerWord w p o n T m hp
  rw [wrapSigned_wrapUnsigned_sub BytesPerWord hw] at hgen
  have hfirst : (OffsetTask.run BytesPerWord w p o n m).aborted = true ↔
      ¬ (-2 ^ 31 ≤ wrapSigned (8 * BytesPerWord) (T - (w.result + o + n)) ∧
          wrapSigned (8 * BytesPerWord) (T - (w.result + o + n)) < 2 ^ 31) := by
    rw [hgen, ← isInt32_iff]
    by_cases h : isInt32 (wrapSigned (8 * BytesPerWord) (T - (w.result + o + n))) = true
    · simp [h, Result.aborted]
    · simp [h, Result.aborted]
  refine ⟨hfirst, ?_, ?_, ?_⟩
  · intro h8 hrep
    subst h8
    have hex : wrapSigned (8 * 8) (T - (w.result + o + n)) = T - (w.result + o + n) := by
      unfold wrapSigned
      norm_num at hrep ⊢
      omega
    rw [hfirst, hex]
  · intro h4
    subst h4
    rw [hgen]
    have h32 : wrapSigned (8 * 4) (T - (w.result + o + n))
        = wrapSigned 32 (T - (w.result + o + n)) := rfl
    rw [h32, if_pos ((isInt32_iff _).2 (wrapSigned_32_range _)),
      wrapSigned_32_of_fits _ (wrapSigned_32_range _)]
  · intro hab x
    rw [hgen] at hab ⊢
    by_cases h : isInt32 (wrapSigned (8 * BytesPerWord) (T - (w.result + o + n))) = true
    · simp [h, Result.aborted] at hab
    · simp [h, Result.state]

theorem offsetTask_run_aborts_iff_witness :
    ((OffsetTask.run 8 ⟨4096, 0, 0, fun _ => 0, fun _ => -1⟩ (Promise.resolved 8589934592) 0 5
        (fun _ => 0)).aborted = true ↔
      ¬ (-2 ^ 31 ≤ (8589934592 : Int) - (4096 + (0 : Nat) + (5 : Nat)) ∧
        (8589934592 : Int) - (4096 + (0 : Nat) + (5 : Nat)) < 2 ^ 31))
    ∧ OffsetTask.run 4 ⟨4096, 0, 0, fun _ => 0, fun _ => -1⟩ (Promise.resolved 2952790016) 0 5
        (fun _ => 0)
      = Result.done (writeBytes (fun _ => 0) (4096 + (0 : Nat) + (5 : Nat) - 4)
          (leBytes 4 (wrapSigned 32 ((2952790016 : Int) - (4096 + (0 : Nat) + (5 : Nat)))))) :=
  ⟨(offsetTask_run_aborts_iff 8 (Or.inr rfl) ⟨4096, 0, 0, fun _ => 0, fun _ => -1⟩
      (Promise.resolved 8589934592) 0 5 8589934592 (fun _ => 0) (by decide)).2.1 rfl (by decide),
    (offsetTask_run_aborts_iff 4 (Or.inl rfl) ⟨4096, 0, 0, fun _ => 0, fun _ => -1⟩
      (Promise.resolved 2952790016) 0 5 2952790016 (fun _ => 0) (by decide)).2.2.1 rfl⟩

/-! ## Branches -/

/-- C7: `unconditional(jump, a)` appends the opcode byte and four zero bytes, five bytes in all,
and `conditional(cond, a)` appends `0x0F`, the condition byte and four zero bytes, six in all;
each puts exactly one task, an offset task for the promise of `a`, in front of the task list,
with the code length before the call as instruction offset and 5, respectively 6, as size. -/
theorem unconditional_conditional_emit (c : Context) (op : Nat) (a : Assembler.Constant) :
    (unconditional c op a).code = c.code ++ [op % 256, 0, 0, 0, 0] ∧
    (unconditional c op a).code.length = c.code.length + 5 ∧
    (unconditional c op a).tasks = Task.offset a.value c.code.length 5 :: c.tasks ∧
    (conditional c op a).code = c.code ++ [0x0f, op % 256, 0, 0, 0, 0] ∧
    (conditional c op a).code.length = c.code.length + 6 ∧
    (conditional c op a).tasks = Task.offset a.value c.code.length 6 :: c.tasks := by
  have hb : ((op : Int) % 256).toNat = op % 256 := by omega
  simp [unconditional, conditional, appendOffsetTask, Context.append, Context.append4, leBytes,
    hb]

/-! ## moveCR and immediate tasks -/

theorem isResolved_view (p : Promise) (cs : CompilerSide) (c c0 : Context)
    (h : c0.result = c.result) : p.isResolved (c0.view cs) = p.isResolved (c.view cs) := by
  cases p <;> simp [Promise.isResolved, Context.view, h]

theorem value_isSome_of_isResolved (BytesPerWord : Nat) (w : PromiseView) (p : Promise)
    (h : p.isResolved w = true) : ∃ v, p.value BytesPerWord w = some v := by
  unfold Promise.value
  rw [if_pos h]
  cases p <;> exact ⟨_, rfl⟩

/-- The function `moveCR` on a word-sized constant. -/
theorem moveCR_word (BytesPerWord : Nat) (hw : BytesPerWord = 4 ∨ BytesPerWord = 8)
    (cs : CompilerSide) (c : Context) (p : Promise) (b : Assembler.Register) :
    moveCR BytesPerWord cs c BytesPerWord ⟨p⟩ BytesPerWord b =
      if p.isResolved (c.view cs) = true then
        (p.value BytesPerWord
            (Context.view ⟨c.code ++ moveCRHead BytesPerWord b, c.tasks, c.result⟩ cs)).map
          fun v => ⟨c.code ++ moveCRHead BytesPerWord b ++ leBytes BytesPerWord v, c.tasks,
            c.result⟩
      else
        some ⟨c.code ++ moveCRHead BytesPerWord b ++ leBytes BytesPerWord 0,
          Task.immediate p (c.code ++ moveCRHead BytesPerWord b).length :: c.tasks, c.result⟩ := by
  have hres : p.isResolved
      (Context.view ⟨c.code ++ moveCRHead BytesPerWord b, c.tasks, c.result⟩ cs) =
      p.isResolved (c.view cs) := isResolved_view p cs c _ rfl
  by_cases h : p.isResolved (c.view cs) = true
  · rw [if_pos h]
    rw [h] at hres
    obtain ⟨v, hv⟩ := value_isSome_of_isResolved BytesPerWord _ p hres
    rw [hv]
    rcases hw with rfl | rfl
    · simp [moveCR, moveCRFuel, rex, moveCRHead, Context.append, Context.appendAddress,
        appendImmediateTask] at hres hv ⊢
      simp [hres, hv]
    · simp [moveCR, moveCRFuel, rex, moveCRHead, Context.append, Context.appendAddress,
        appendImmediateTask] at hres hv ⊢
      simp [hres, hv]
  · rw [if_neg h]
    rw [Bool.not_eq_true] at h
    rw [h] at hres
    rcases hw with rfl | rfl
    · simp [moveCR, moveCRFuel, rex, moveCRHead, Context.append, Context.appendAddress,
        appendImmediateTask] at hres ⊢
      simp [hres]
    · simp [moveCR, moveCRFuel, rex, moveCRHead, Context.append, Context.appendAddress,
        appendImmediateTask] at hres ⊢
      simp [hres]

/-- C6: for a word-sized constant whose promise `p` is unresolved when `moveCR` encodes it,
`moveCR` puts one immediate task for `p`, addressing the last word of the instruction, in front of
the task list, while for a resolved promise it adds no task; both emit the same number of bytes;
and if `p` has the value `v` when `writeTo` runs, `writeTo` leaves memory exactly as it does after
`moveCR` of an already resolved promise of value `v`: the buffer holds the bytes that the direct
encoding emits. -/
theorem moveCR_unresolved_matches_resolved (BytesPerWord : Nat)
    (hw : BytesPerWord = 4 ∨ BytesPerWord = 8) (cs cs1 : CompilerSide) (c : Context)
    (b : Assembler.Register) (p : Promise) (v dst : Int) (m : RawMemory)
    (hunres : p.isResolved (c.view cs) = false) :
    ∃ c1 c2 : Context,
      moveCR BytesPerWord cs c BytesPerWord ⟨p⟩ BytesPerWord b = some c1 ∧
      moveCR BytesPerWord cs c BytesPerWord ⟨Promise.resolved v⟩ BytesPerWord b = some c2 ∧
      c1.code.length = c2.code.length ∧
      (∃ offset, c1.tasks = Task.immediate p offset :: c.tasks ∧
        offset + BytesPerWord = c1.code.length) ∧
      c2.tasks = c.tasks ∧
      (∀ q : Promise, q.isResolved (c.view cs) = true →
        ∃ c3, moveCR BytesPerWord cs c BytesPerWord ⟨q⟩ BytesPerWord b = some c3 ∧
          c3.tasks = c.tasks ∧ c3.code.length = c1.code.length) ∧
      (p.value BytesPerWord (Context.view { c1 with result := dst } cs1) = some v →
        (MyAssembler.writeTo BytesPerWord cs1 c1 dst m).2 =
            (MyAssembler.writeTo BytesPerWord cs1 c2 dst m).2 ∧
          (c.tasks = [] →
            ∃ m1, (MyAssembler.writeTo BytesPerWord cs1 c1 dst m).2 = Result.done m1 ∧
              ∀ i : Nat, i < c2.code.length → m1 (dst + i) = c2.code.getD i 0)) := by
  have h1 := moveCR_word BytesPerWord hw cs c p b
  have h2 := moveCR_word BytesPerWord hw cs c (Promise.resolved v) b
  rw [hunres] at h1
  simp only [Bool.false_eq_true, if_false] at h1
  have hv2 : ∀ w, (Promise.resolved v).value BytesPerWord w = some v := by
    intro w; simp [Promise.value, Promise.isResolved]
  simp only [Promise.isResolved, if_true, hv2, Option.map_some'] at h2
  refine ⟨_, _, h1, h2, ?_, ⟨_, rfl, ?_⟩, rfl, ?_, ?_⟩
  · simp [leBytes_length]
  · simp [leBytes_length, Nat.add_assoc]
  · intro q hq
    have h3 := moveCR_word BytesPerWord hw cs c q b
    rw [if_pos hq] at h3
    have hq2 : q.isResolved
        (Context.view ⟨c.code ++ moveCRHead BytesPerWord b, c.tasks, c.result⟩ cs) = true := by
      rw [← hq]; exact isResolved_view q cs c _ rfl
    obtain ⟨u, hu⟩ := value_isSome_of_isResolved BytesPerWord _ q hq2
    rw [hu] at h3
    exact ⟨_, h3, rfl, by simp [leBytes_length]⟩
  · intro hval
    have hview : Context.view
        { (⟨c.code ++ moveCRHead BytesPerWord b ++ leBytes BytesPerWord 0,
            Task.immediate p (c.code ++ moveCRHead BytesPerWord b).length :: c.tasks,
            c.result⟩ : Context) with result := dst } cs1 =
        Context.view
          { (⟨c.code ++ moveCRHead BytesPerWord b ++ leBytes BytesPerWord v, c.tasks,
              c.result⟩ : Context) with result := dst } cs1 := by
      simp [Context.view, leBytes_length]
    have hrun : (MyAssembler.writeTo BytesPerWord cs1
          ⟨c.code ++ moveCRHead BytesPerWord b ++ leBytes BytesPerWord 0,
            Task.immediate p (c.code ++ moveCRHead BytesPerWord b).length :: c.tasks,
            c.result⟩ dst m).2 =
        runTasks BytesPerWord (Context.view
          { (⟨c.code ++ moveCRHead BytesPerWord b ++ leBytes BytesPerWord v, c.tasks,
              c.result⟩ : Context) with result := dst } cs1) c.tasks
          (writeBytes m dst (c.code ++ moveCRHead BytesPerWord b ++ leBytes BytesPerWord v)) := by
      simp only [MyAssembler.writeTo, runTasks, Task.run, ImmediateTask.run, hval]
      rw [leBytes_wrapSigned BytesPerWord hw, hview]
      have : (Context.view
          { (⟨c.code ++ moveCRHead BytesPerWord b ++ leBytes BytesPerWord v, c.tasks,
              c.result⟩ : Context) with result := dst } cs1).result = dst := rfl
      rw [this, writeBytes_patch m dst _ _ _ (by simp [leBytes_length])]
    refine ⟨?_, ?_⟩
    · rw [hrun]
      rfl
    · intro hts
      rw [hrun, hts]
      refine ⟨_, rfl, ?_⟩
      intro i hi
      rw [writeBytes_apply]
      have : dst ≤ dst + (i : Int) ∧ dst + (i : Int) <
          dst + ((c.code ++ moveCRHead BytesPerWord b ++ leBytes BytesPerWord v).length : Nat) := by
        constructor
        · omega
        · have : (i : Int) < ((c.code ++ moveCRHead BytesPerWord b ++
              leBytes BytesPerWord v).length : Nat) := by exact_mod_cast hi
          omega
      rw [if_pos this]
      congr 1
      omega

theorem moveCR_unresolved_matches_resolved_witness :
    (MyAssembler.writeTo 8 ⟨4096, fun _ => 0, fun _ => -1, none⟩
        ⟨[0x48, 0xb8, 0, 0, 0, 0, 0, 0, 0, 0], [Task.immediate (Promise.pool 0) 2], 0⟩ 4096
        (fun _ => 0)).2 =
      (MyAssembler.writeTo 8 ⟨4096, fun _ => 0, fun _ => -1, none⟩
        ⟨[0x48, 0xb8, 16, 16, 0, 0, 0, 0, 0, 0], [], 0⟩ 4096 (fun _ => 0)).2 := by
  obtain ⟨c1, c2, h1, h2, _, _, _, _, h7⟩ :=
    moveCR_unresolved_matches_resolved 8 (Or.inr rfl) ⟨0, fun _ => 0, fun _ => -1, none⟩
      ⟨4096, fun _ => 0, fun _ => -1, none⟩ ⟨[], [], 0⟩ (reg rax) (Promise.pool 0) 4112 4096
      (fun _ => 0) (by decide)
  have e1 : c1 = ⟨[0x48, 0xb8, 0, 0, 0, 0, 0, 0, 0, 0], [Task.immediate (Promise.pool 0) 2], 0⟩ :=
    (Option.some.inj h1).symm
  have e2 : c2 = ⟨[0x48, 0xb8, 16, 16, 0, 0, 0, 0, 0, 0], [], 0⟩ := (Option.some.inj h2).symm
  subst e1 e2
  exact (h7 (by decide)).1

/-! ## ModRM and SIB -/

/-- The bytes `encode` appends, case by case. -/
theorem encode_eq (c : Context) (instruction : List Nat) (a b d index : Int) (scale : Nat) :
    encode c instruction a b d index scale =
      if index = -1 then
        if b = rsp then
          some ⟨c.code ++ instruction ++
            [((modWidth b d ||| (a <<< 3) ||| b) % 256).toNat, 0x24] ++ displacementBytes b d,
            c.tasks, c.result⟩
        else
          some ⟨c.code ++ instruction ++
            [((modWidth b d ||| (a <<< 3) ||| b) % 256).toNat] ++ displacementBytes b d,
            c.tasks, c.result⟩
      else if b ≠ rsp then
        some ⟨c.code ++ instruction ++
          [((modWidth b d ||| (a <<< 3) ||| 4) % 256).toNat,
            ((((log scale : Int) <<< 6) ||| (index <<< 3) ||| b) % 256).toNat] ++
          displacementBytes b d, c.tasks, c.result⟩
      else
        none := by
  unfold encode modWidth displacementBytes
  simp only [Context.append, Context.append4, Context.appendBytes]
  split_ifs <;> simp_all

theorem modrm_mod_field (w a b : Int) (hw : w = 0 ∨ w = 0x40 ∨ w = 0x80)
    (ha : 0 ≤ a ∧ a ≤ 7) (hb : 0 ≤ b ∧ b ≤ 7) :
    ((w ||| (a <<< 3) ||| b) % 256).toNat / 64 = (w / 64).toNat := by
  obtain ⟨ha0, ha7⟩ := ha
  obtain ⟨hb0, hb7⟩ := hb
  rcases hw with rfl | rfl | rfl <;> interval_cases a <;> interval_cases b <;> decide

/-- The r/m field of the ModRM byte of the indexed form is 4, whatever is or-ed into the reg
field. -/
theorem modrm_rm_field_sib (w a : Int) (hw : w = 0 ∨ w = 0x40 ∨ w = 0x80) :
    ((w ||| (a <<< 3) ||| 4) % 256).toNat % 8 = 4 := by
  have ha : a <<< (3 : Int) = Int.bit false (Int.bit false (Int.bit false a)) := by
    rw [show (3 : Int) = ((3 : Nat) : Int) from rfl, Int.shiftLeft_eq_mul_pow]
    simp only [Int.bit_val, cond_false]
    push_cast
    ring
  have h4 : (4 : Int) = Int.bit false (Int.bit false (Int.bit true 0)) := by
    simp [Int.bit_val]
  have hw2 : ∃ u : Int, w = Int.bit false (Int.bit false (Int.bit false u)) := by
    rcases hw with rfl | rfl | rfl
    · exact ⟨0, by simp [Int.bit_val]⟩
    · exact ⟨8, by simp [Int.bit_val]⟩
    · exact ⟨16, by simp [Int.bit_val]⟩
  obtain ⟨u, hu⟩ := hw2
  have key : (w ||| (a <<< 3) ||| 4) = 8 * Int.lor (Int.lor u a) 0 + 4 := by
    show Int.lor (Int.lor w (a <<< (3 : Int))) 4 = _
    rw [ha, hu, show Int.lor (Int.lor (Int.bit false (Int.bit false (Int.bit false u)))
      (Int.bit false (Int.bit false (Int.bit false a)))) 4 =
      Int.lor (Int.lor (Int.bit false (Int.bit false (Int.bit false u)))
      (Int.bit false (Int.bit false (Int.bit false a))))
      (Int.bit false (Int.bit false (Int.bit true 0))) from by rw [← h4]]
    rw [Int.lor_bit, Int.lor_bit, Int.lor_bit, Int.lor_bit, Int.lor_bit, Int.lor_bit]
    simp only [Int.bit_val, Bool.or_false, Bool.or_true, cond_false, cond_true]
    ring
  rw [key]
  omega

theorem modWidth_cases (b d : Int) :
    modWidth b d = 0 ∨ modWidth b d = 0x40 ∨ modWidth b d = 0x80 := by
  unfold modWidth
  split_ifs <;> simp

/-- The displacement encoding of `encode` when the reg-field operand `a` and the base `b` are
both among the registers 0..7: the mod field of the ModRM byte is 00 with no displacement byte
when `d = 0` and `b ≠ rbp`; otherwise 01 with the single byte `d` when `-128 ≤ d ≤ 127`;
otherwise 10 with `d` in four bytes. -/
theorem encode_displacement_low_registers (c : Context) (instruction : List Nat)
    (a b d index : Int) (scale : Nat) (ha : 0 ≤ a ∧ a ≤ 7) (hb : 0 ≤ b ∧ b ≤ 7)
    (hok : index = -1 ∨ b ≠ rsp) :
    ∃ (modrm : Nat) (sib : List Nat) (c1 : Context),
      encode c instruction a b d index scale = some c1 ∧
      c1.code = c.code ++ instruction ++ modrm :: sib ++ displacementBytes b d ∧
      ((d = 0 ∧ b ≠ rbp) → modrm / 64 = 0 ∧ displacementBytes b d = []) ∧
      (¬ (d = 0 ∧ b ≠ rbp) → (-128 ≤ d ∧ d ≤ 127) →
        modrm / 64 = 1 ∧ displacementBytes b d = [(d % 256).toNat]) ∧
      (¬ (d = 0 ∧ b ≠ rbp) → ¬ (-128 ≤ d ∧ d ≤ 127) →
        modrm / 64 = 2 ∧ displacementBytes b d = leBytes 4 d) := by
  have hmod : ∀ x : Int, 0 ≤ x ∧ x ≤ 7 →
      ((modWidth b d ||| (a <<< 3) ||| x) % 256).toNat / 64 = (modWidth b d / 64).toNat :=
    fun x hx => modrm_mod_field _ a x (modWidth_cases b d) ha hx
  have hcases : ((d = 0 ∧ b ≠ rbp) → (modWidth b d / 64).toNat = 0 ∧ displacementBytes b d = []) ∧
      (¬ (d = 0 ∧ b ≠ rbp) → (-128 ≤ d ∧ d ≤ 127) →
        (modWidth b d / 64).toNat = 1 ∧ displacementBytes b d = [(d % 256).toNat]) ∧
      (¬ (d = 0 ∧ b ≠ rbp) → ¬ (-128 ≤ d ∧ d ≤ 127) →
        (modWidth b d / 64).toNat = 2 ∧ displacementBytes b d = leBytes 4 d) := by
    refine ⟨?_, ?_, ?_⟩
    · intro h
      simp [modWidth, displacementBytes, h]
    · intro h h8
      have := (isInt8_iff d).2 h8
      simp only [modWidth, displacementBytes, if_neg h, this, if_true]
      exact ⟨by decide, trivial⟩
    · intro h h8
      have : ¬ (isInt8 d = true) := fun h9 => h8 ((isInt8_iff d).1 h9)
      simp only [modWidth, displacementBytes, if_neg h, if_neg this]
      exact ⟨by decide, trivial⟩
  rw [encode_eq]
  by_cases hi : index = -1
  · by_cases hs : b = rsp
    · rw [if_pos hi, if_pos hs]
      refine ⟨((modWidth b d ||| (a <<< 3) ||| b) % 256).toNat, [0x24], _, rfl, by simp, ?_⟩
      rw [hmod b hb]
      exact hcases
    · rw [if_pos hi, if_neg hs]
      refine ⟨((modWidth b d ||| (a <<< 3) ||| b) % 256).toNat, [], _, rfl, by simp, ?_⟩
      rw [hmod b hb]
      exact hcases
  · have hs : b ≠ rsp := by
      rcases hok with h | h
      · exact absurd h hi
      · exact h
    rw [if_neg hi, if_pos hs]
    refine ⟨((modWidth b d ||| (a <<< 3) ||| 4) % 256).toNat,
      [((((log scale : Int) <<< 6) ||| (index <<< 3) ||| b) % 256).toNat], _, rfl, by simp, ?_⟩
    rw [hmod 4 (by decide)]
    exact hcases

/-- C8 (failing input): with the extended register `r8` as reg-field operand, base `rax`,
displacement 0 and no index, `encode` emits the ModRM byte `0x40`, whose mod field is 01, and no
displacement byte; `moveMR` reaches this call when it loads from `[rax]` into `r8`. -/
theorem encode_r8_mod_field :
    encode ⟨[], [], 0⟩ [0x8b] r8 rax 0 (-1) 1 = some ⟨[0x8b, 0x40], [], 0⟩ ∧
    (0x40 : Nat) / 64 = 1 ∧
    displacementBytes rax 0 = [] ∧
    moveMR 8 ⟨[], [], 0⟩ 8 ⟨rax, 0, -1, 1⟩ 8 (reg r8) = some ⟨[0x48, 0x8b, 0x40], [], 0⟩ :=
  ⟨rfl, rfl, rfl, rfl⟩

/-- C9 (amended): without an index, `encode` puts the SIB byte `0x24` after the ModRM byte
exactly when the base is `rsp`; with an index and a base other than `rsp` the ModRM byte is
followed by the SIB byte `(log(scale) << 6) | (index << 3) | base` and its r/m field is 4; with an
index and base `rsp` the assertion `b != rsp` fails and `encode` does not return. -/
theorem encode_sib (c : Context) (instruction : List Nat) (a b d index : Int) (scale : Nat) :
    (index = -1 → b = rsp → ∃ c1, encode c instruction a b d index scale = some c1 ∧
      c1.code = c.code ++ instruction ++
        [((modWidth b d ||| (a <<< 3) ||| b) % 256).toNat, 0x24] ++ displacementBytes b d) ∧
    (index = -1 → b ≠ rsp → ∃ c1, encode c instruction a b d index scale = some c1 ∧
      c1.code = c.code ++ instruction ++
        [((modWidth b d ||| (a <<< 3) ||| b) % 256).toNat] ++ displacementBytes b d) ∧
    (index ≠ -1 → b ≠ rsp → ∃ c1, encode c instruction a b d index scale = some c1 ∧
      c1.code = c.code ++ instruction ++
        [((modWidth b d ||| (a <<< 3) ||| 4) % 256).toNat,
          ((((log scale : Int) <<< 6) ||| (index <<< 3) ||| b) % 256).toNat] ++
        displacementBytes b d ∧
      ((modWidth b d ||| (a <<< 3) ||| 4) % 256).toNat % 8 = 4) ∧
    (index ≠ -1 → b = rsp → encode c instruction a b d index scale = none) := by
  rw [encode_eq]
  refine ⟨?_, ?_, ?_, ?_⟩
  · intro hi hs
    rw [if_pos hi, if_pos hs]
    exact ⟨_, rfl, rfl⟩
  · intro hi hs
    rw [if_pos hi, if_neg hs]
    exact ⟨_, rfl, rfl⟩
  · intro hi hs
    rw [if_neg hi, if_pos hs]
    exact ⟨_, rfl, rfl, modrm_rm_field_sib _ a (modWidth_cases b d)⟩
  · intro hi hs
    rw [if_neg hi, if_neg (not_not.2 hs)]

theorem encode_sib_witness :
    ∃ c1, encode ⟨[], [], 0⟩ [0x8b] rax rbx 8 rcx 4 = some c1 ∧
      c1.code = [0x8b, 0x44, 0x8b, 8] := by
  obtain ⟨c1, h1, h2, _⟩ :=
    (encode_sib ⟨[], [], 0⟩ [0x8b] rax rbx 8 rcx 4).2.2.1 (by decide) (by decide)
  exact ⟨c1, h1, h2⟩

/-- C9 (counterexample): with base `rsp` and the index register `rcx`, `encode` fails its
assertion `b != rsp`; no SIB byte is emitted. -/
theorem encode_rsp_with_index_fails :
    encode ⟨[], [], 0⟩ [0x8b] rax rsp 0 rcx 1 = none :=
  rfl

/-- The scale field of the SIB byte for the four scales of x86. -/
theorem log_scales : log 1 = 0 ∧ log 2 = 1 ∧ log 4 = 2 ∧ log 8 = 3 := by
  decide

/-! ## Extended registers -/

/-- C10 (failing input): on a 64-bit target, with the extended register `r8` as operand, `pushR`
and `popR` emit the single byte `0x58` with no REX prefix, and `moveRR` and `subtractRR` emit the
prefix `0x48`, whose register bits are clear, and a ModRM byte into which the whole register
number is or-ed; `jumpR` and `callR` emit the prefix `0x41` and only the low three bits. -/
theorem extended_register_encoders :
    pushR 8 ⟨[], [], 0⟩ 8 (reg r8) = some ⟨[0x58], [], 0⟩ ∧
    popR 8 ⟨[], [], 0⟩ 8 (reg r8) = some ⟨[0x58], [], 0⟩ ∧
    moveRR 8 ⟨[], [], 0⟩ 8 (reg r8) 8 (reg rax) = some ⟨[0x48, 0x89, 0xc0], [], 0⟩ ∧
    moveRR 8 ⟨[], [], 0⟩ 8 (reg rcx) 8 (reg r8) = some ⟨[0x48, 0x89, 0xc8], [], 0⟩ ∧
    subtractRR 8 ⟨[], [], 0⟩ 8 (reg r8) 8 (reg rax) = some ⟨[0x48, 0x29, 0xc0], [], 0⟩ ∧
    jumpR 8 ⟨[], [], 0⟩ 8 (reg r8) = some ⟨[0x41, 0xff, 0xe0], [], 0⟩ ∧
    callR 8 ⟨[], [], 0⟩ 8 (reg r8) = some ⟨[0x41, 0xff, 0xd0], [], 0⟩ :=
  ⟨rfl, rfl, rfl, rfl, rfl, rfl, rfl⟩

/-! ## writeTo as a sequence of stores -/

theorem Task.run_eq_storeOf (BytesPerWord : Nat) (w : PromiseView) (m : RawMemory) (t : Task) :
    t.run BytesPerWord w m =
      match t.storeOf BytesPerWord w with
      | none => Result.abort m
      | some s => Result.done (writeBytes m s.1 s.2) := by
  cases t with
  | offset p o n =>
    simp only [Task.run, OffsetTask.run, Task.storeOf]
    cases p.value BytesPerWord w with
    | none => rfl
    | some pv =>
      simp only
      split_ifs <;> rfl
  | immediate p o =>
    simp only [Task.run, ImmediateTask.run, Task.storeOf]
    cases p.value BytesPerWord w <;> rfl

theorem runTasks_eq_stores (BytesPerWord : Nat) (w : PromiseView) (ts : List Task)
    (m : RawMemory) :
    runTasks BytesPerWord w ts m =
      Result.ofFlag (tasksStores BytesPerWord w ts).2
        (applyStores (tasksStores BytesPerWord w ts).1 m) := by
  induction ts generalizing m with
  | nil => rfl
  | cons t ts ih =>
    rw [runTasks, Task.run_eq_storeOf, tasksStores]
    cases t.storeOf BytesPerWord w with
    | none => rfl
    | some s => simp only [ih, applyStores]

theorem tasksStores_mem (BytesPerWord : Nat) (w : PromiseView) (length : Nat) (ts : List Task)
    (hts : ∀ t ∈ ts, t.inCode BytesPerWord length) :
    ∀ s ∈ (tasksStores BytesPerWord w ts).1,
      w.result ≤ s.1 ∧ s.1 + s.2.length ≤ w.result + length := by
  induction ts with
  | nil => intro s hs; simp [tasksStores] at hs
  | cons t ts ih =>
    intro s hs
    rw [tasksStores] at hs
    cases hst : t.storeOf BytesPerWord w with
    | none => rw [hst] at hs; simp at hs
    | some s0 =>
      rw [hst] at hs
      simp only [List.mem_cons] at hs
      rcases hs with rfl | hs
      · have hin := hts t (List.mem_cons_self _ _)
        cases t with
        | offset p o n =>
          simp only [Task.storeOf] at hst
          cases hv : p.value BytesPerWord w with
          | none => rw [hv] at hst; simp at hst
          | some pv =>
            rw [hv] at hst
            simp only at hst
            split_ifs at hst
            have := Option.some.inj hst
            subst this
            simp only [Task.inCode] at hin
            simp only [leBytes_length]
            omega
        | immediate p o =>
          simp only [Task.storeOf] at hst
          cases hv : p.value BytesPerWord w with
          | none => rw [hv] at hst; simp at hst
          | some pv =>
            rw [hv] at hst
            have := Option.some.inj hst
            subst this
            simp only [Task.inCode] at hin
            simp only [leBytes_length]
            omega
      · exact ih (fun t ht => hts t (List.mem_cons_of_mem _ ht)) s hs

/-! ## Frame sizes -/

/-- C25 (counterexample): on x86-64 a frame of `2 ^ 32 - 3` words is aligned to 0 words, which
is less than the frame with its header, and less than the aligned size of the smaller frame of
`2 ^ 32 - 4` words. -/
theorem alignFrameSize_wraps :
    alignFrameSize 8 (2 ^ 32 - 3) = 0
    ∧ ¬ (2 ^ 32 - 3 + frameHeaderSize ≤ alignFrameSize 8 (2 ^ 32 - 3))
    ∧ alignFrameSize 8 (2 ^ 32 - 4) = 2 ^ 32 - 2
    ∧ ¬ (alignFrameSize 8 (2 ^ 32 - 4) ≤ alignFrameSize 8 (2 ^ 32 - 3)) := by
  refine ⟨?_, ?_, ?_, ?_⟩ <;> decide

theorem alignFrameSize_eq (BytesPerWord : Nat) (hw : BytesPerWord = 4 ∨ BytesPerWord = 8)
    (n : Nat) (hn : n + frameHeaderSize + 16 / BytesPerWord ≤ 2 ^ 32) :
    alignFrameSize BytesPerWord n
      = (n + 2 + 16 / BytesPerWord - 1) / (16 / BytesPerWord) * (16 / BytesPerWord) := by
  unfold alignFrameSize
  unfold frameHeaderSize at hn
  rcases hw with rfl | rfl
  · norm_num at hn ⊢
    omega
  · norm_num at hn ⊢
    omega

/-- C25 (amended): for a frame of `n` words with `n + 2 + 16 / BytesPerWord ≤ 2 ^ 32`,
`alignFrameSize(n)` is the least multiple of `16 / BytesPerWord` that is at least `n + 2`, the
frame header included; its size in bytes is a multiple of 16; and it is at least the aligned
size of every smaller frame. -/
theorem alignFrameSize_least_multiple (BytesPerWord : Nat)
    (hw : BytesPerWord = 4 ∨ BytesPerWord = 8) (n : Nat)
    (hn : n + frameHeaderSize + 16 / BytesPerWord ≤ 2 ^ 32) :
    (16 / BytesPerWord) ∣ alignFrameSize BytesPerWord n
    ∧ n + frameHeaderSize ≤ alignFrameSize BytesPerWord n
    ∧ (∀ m, (16 / BytesPerWord) ∣ m → n + frameHeaderSize ≤ m → alignFrameSize BytesPerWord n ≤ m)
    ∧ 16 ∣ alignFrameSize BytesPerWord n * BytesPerWord
    ∧ (∀ k, k ≤ n → alignFrameSize BytesPerWord k ≤ alignFrameSize BytesPerWord n) := by
  have hmono : ∀ k, k ≤ n → alignFrameSize BytesPerWord k ≤ alignFrameSize BytesPerWord n := by
    intro k hk
    rw [alignFrameSize_eq BytesPerWord hw n hn,
      alignFrameSize_eq BytesPerWord hw k (by unfold frameHeaderSize at hn ⊢; omega)]
    rcases hw with rfl | rfl
    · norm_num
      omega
    · norm_num
      omega
  unfold frameHeaderSize at hn ⊢
  rcases hw with rfl | rfl
  · have e : alignFrameSize 4 n = (n + 5) / 4 * 4 := by
      rw [alignFrameSize_eq 4 (Or.inl rfl) n hn]
      norm_num
    have h4 : 16 / 4 = 4 := by decide
    rw [h4] at hn ⊢
    refine ⟨?_, ?_, ?_, ?_, hmono⟩
    · rw [e]
      exact Nat.dvd_mul_left _ _
    · rw [e]
      omega
    · intro m hm hle
      obtain ⟨q, rfl⟩ := hm
      rw [e]
      omega
    · rw [e]
      omega
  · have e : alignFrameSize 8 n = (n + 3) / 2 * 2 := by
      rw [alignFrameSize_eq 8 (Or.inr rfl) n hn]
      norm_num
    have h2 : 16 / 8 = 2 := by decide
    rw [h2] at hn ⊢
    refine ⟨?_, ?_, ?_, ?_, hmono⟩
    · rw [e]
      exact Nat.dvd_mul_left _ _
    · rw [e]
      omega
    · intro m hm hle
      obtain ⟨q, rfl⟩ := hm
      rw [e]
      omega
    · rw [e]
      omega

theorem alignFrameSize_least_multiple_witness :
    alignFrameSize 8 3 = 6 ∧ (16 / 8) ∣ alignFrameSize 8 3 ∧ 3 + frameHeaderSize ≤ alignFrameSize 8 3
      ∧ 16 ∣ alignFrameSize 8 3 * 8 := by
  have h := alignFrameSize_least_multiple 8 (Or.inr rfl) 3 (by decide)
  exact ⟨by decide, h.1, h.2.1, h.2.2.2.1⟩

/-! ## The dispatch tables -/

/-- The cells `populateTables` assigns hold an encoder whatever they held before. -/
theorem populateTables_registered (BytesPerWord : Nat) (raw : ArchitectureContext) :
    (∀ op, ((populateTables BytesPerWord raw).operations op).isSome = true)
    ∧ (∀ op type, registeredUnary op type = true →
        ((populateTables BytesPerWord raw).unaryOperations op type).isSome = true)
    ∧ (∀ op aType bType, registeredBinary op aType bType = true →
        ((populateTables BytesPerWord raw).binaryOperations op aType bType).isSome = true) := by
  refine ⟨?_, ?_, ?_⟩
  · intro op
    cases op
    rfl
  · intro op type h
    cases op <;> cases type <;> first | rfl | (exact absurd h (by decide))
  · intro op aType bType h
    cases op <;> cases aType <;> cases bType <;> first | rfl | (exact absurd h (by decide))

theorem append_keeps (c : Context) (v : Int) : c.code <+: (c.append v).code :=
  List.prefix_append _ _

theorem append4_keeps (c : Context) (v : Int) : c.code <+: (c.append4 v).code :=
  List.prefix_append _ _

theorem appendAddress_keeps (BytesPerWord : Nat) (c : Context) (v : Int) :
    c.code <+: (c.appendAddress BytesPerWord v).code :=
  List.prefix_append _ _

theorem rex_keeps (BytesPerWord : Nat) (c : Context) (mask r : Int) :
    c.code <+: (rex BytesPerWord c mask r).code := by
  unfold rex
  split_ifs
  · exact append_keeps _ _
  · exact List.prefix_refl _

theorem encode_keeps (c c1 : Context) (instruction : List Nat) (a b displacement index : Int)
    (scale : Nat) (h : encode c instruction a b displacement index scale = some c1) :
    c.code <+: c1.code := by
  by_cases h1 : index = -1 <;> by_cases h2 : b = rsp
    <;> by_cases h3 : (displacement = 0 ∧ b ≠ rbp) <;> by_cases h4 : isInt8 displacement = true
    <;> simp [encode, h1, h2, h3, h4, Context.appendBytes, Context.append, Context.append4] at h
    <;> (try split_ifs at h)
    <;> (try simp only [Option.some.injEq] at h)
    <;> (try (subst h; simp))

theorem encode1_keeps (BytesPerWord : Nat) (c c1 : Context) (instruction : Nat) (a : Int)
    (b : Assembler.Memory) (useRex : Bool)
    (h : encode1 BytesPerWord c instruction a b useRex = some c1) : c.code <+: c1.code := by
  unfold encode1 at h
  refine List.IsPrefix.trans ?_ (encode_keeps _ _ _ _ _ _ _ _ h)
  split_ifs
  · exact rex_keeps _ _ _ _
  · exact List.prefix_refl _

theorem encode2_keeps (BytesPerWord : Nat) (c c1 : Context) (instruction : Nat) (a : Int)
    (b : Assembler.Memory) (useRex : Bool)
    (h : encode2 BytesPerWord c instruction a b useRex = some c1) : c.code <+: c1.code := by
  unfold encode2 at h
  refine List.IsPrefix.trans ?_ (encode_keeps _ _ _ _ _ _ _ _ h)
  split_ifs
  · exact rex_keeps _ _ _ _
  · exact List.prefix_refl _

theorem unconditional_keeps (c : Context) (jump : Nat) (a : Assembler.Constant) :
    c.code <+: (unconditional c jump a).code := by
  simp [unconditional, appendOffsetTask, Context.append, Context.append4]

theorem jumpR_keeps (BytesPerWord : Nat) (c c1 : Context) (size : Nat) (a : Assembler.Register)
    (h : jumpR BytesPerWord c size a = some c1) : c.code <+: c1.code := by
  unfold jumpR at h
  split_ifs at h
  all_goals
    simp only [Option.some.injEq] at h
    subst h
    try simp only [rex, Context.append]
    (try split_ifs) <;> simp

theorem callR_keeps (BytesPerWord : Nat) (c c1 : Context) (size : Nat) (a : Assembler.Register)
    (h : callR BytesPerWord c size a = some c1) : c.code <+: c1.code := by
  unfold callR at h
  split_ifs at h
  all_goals
    simp only [Option.some.injEq] at h
    subst h
    try simp only [rex, Context.append]
    (try split_ifs) <;> simp

theorem jumpC_keeps (BytesPerWord : Nat) (c c1 : Context) (size : Nat) (a : Assembler.Constant)
    (h : jumpC BytesPerWord c size a = some c1) : c.code <+: c1.code := by
  unfold jumpC at h
  split_ifs at h
  simp only [Option.some.injEq] at h
  subst h
  exact unconditional_keeps _ _ _

theorem callC_keeps (BytesPerWord : Nat) (c c1 : Context) (size : Nat) (a : Assembler.Constant)
    (h : callC BytesPerWord c size a = some c1) : c.code <+: c1.code := by
  unfold callC at h
  split_ifs at h
  simp only [Option.some.injEq] at h
  subst h
  exact unconditional_keeps _ _ _

theorem pushRFuel_keeps (BytesPerWord : Nat) (fuel : Nat) (c c1 : Context) (size : Nat)
    (a : Assembler.Register) (h : pushRFuel BytesPerWord fuel c size a = some c1) :
    c.code <+: c1.code := by
  induction fuel generalizing c c1 size a with
  | zero => simp [pushRFuel] at h
  | succ n ih =>
    simp only [pushRFuel] at h
    split_ifs at h
    · split at h
      · cases h
      · rename_i c2 h2
        exact (ih _ _ _ _ h2).trans (ih _ _ _ _ h)
    · simp only [Option.some.injEq] at h
      subst h
      exact append_keeps _ _

theorem moveRRFuel_keeps (BytesPerWord : Nat) (fuel : Nat) (c c1 : Context) (aSize : Nat)
    (a : Assembler.Register) (bSize : Nat) (b : Assembler.Register)
    (h : moveRRFuel BytesPerWord fuel c aSize a bSize b = some c1) : c.code <+: c1.code := by
  induction fuel generalizing c c1 aSize a bSize b with
  | zero => simp [moveRRFuel] at h
  | succ n ih =>
    simp only [moveRRFuel] at h
    repeat' split at h
    all_goals first
      | (cases h; done)
      | (rename_i c2 h2; exact (ih _ _ _ _ _ _ h2).trans (ih _ _ _ _ _ _ h))
      | (simp only [Option.some.injEq] at h; subst h
         try simp only [rex0, rex, Context.append]
         (try split_ifs) <;> simp)

theorem popRFuel_keeps (BytesPerWord : Nat) (fuel : Nat) (c c1 : Context) (size : Nat)
    (a : Assembler.Register) (h : popRFuel BytesPerWord fuel c size a = some c1) :
    c.code <+: c1.code := by
  induction fuel generalizing c c1 size a with
  | zero => simp [popRFuel] at h
  | succ n ih =>
    simp only [popRFuel] at h
    split_ifs at h
    · split at h
      · cases h
      · rename_i c2 h2
        exact (ih _ _ _ _ h2).trans (ih _ _ _ _ h)
    · exact (append_keeps _ _).trans (moveRRFuel_keeps _ _ _ _ _ _ _ _ h)
    · simp only [Option.some.injEq] at h
      subst h
      exact append_keeps _ _

theorem moveCRFuel_keeps (BytesPerWord : Nat) (cs : CompilerSide) (fuel : Nat) (c c1 : Context)
    (aSize : Nat) (a : Assembler.Constant) (bSize : Nat) (b : Assembler.Register)
    (h : moveCRFuel BytesPerWord cs fuel c aSize a bSize b = some c1) : c.code <+: c1.code := by
  induction fuel generalizing c c1 aSize a bSize b with
  | zero => simp [moveCRFuel] at h
  | succ n ih =>
    simp only [moveCRFuel] at h
    repeat' split at h
    all_goals first
      | (cases h; done)
      | (rename_i c2 h2; exact (ih _ _ _ _ _ _ h2).trans (ih _ _ _ _ _ _ h))
      | (simp only [Option.some.injEq] at h; subst h
         try simp only [rex, Context.append, Context.appendAddress, appendImmediateTask]
         (try split_ifs) <;> simp)

theorem subtractBorrowRR_keeps (BytesPerWord : Nat) (c c1 : Context) (aSize : Nat)
    (a : Assembler.Register) (bSize : Nat) (b : Assembler.Register)
    (h : subtractBorrowRR BytesPerWord c aSize a bSize b = some c1) : c.code <+: c1.code := by
  unfold subtractBorrowRR at h
  repeat' split at h
  all_goals first
    | (cases h; done)
    | (simp only [Option.some.injEq] at h; subst h
       try simp only [rex0, rex, Context.append]
       (try split_ifs) <;> simp)

theorem subtractRRFuel_keeps (BytesPerWord : Nat) (fuel : Nat) (c c1 : Context) (aSize : Nat)
    (a : Assembler.Register) (bSize : Nat) (b : Assembler.Register)
    (h : subtractRRFuel BytesPerWord fuel c aSize a bSize b = some c1) : c.code <+: c1.code := by
  induction fuel generalizing c c1 aSize a bSize b with
  | zero => simp [subtractRRFuel] at h
  | succ n ih =>
    simp only [subtractRRFuel] at h
    repeat' split at h
    all_goals first
      | (cases h; done)
      | (rename_i c2 h2
         exact (ih _ _ _ _ _ _ h2).trans (subtractBorrowRR_keeps _ _ _ _ _ _ _ h))
      | (simp only [Option.some.injEq] at h; subst h
         try simp only [rex0, rex, Context.append]
         (try split_ifs) <;> simp)

theorem moveMRFuel_keeps (BytesPerWord : Nat) (fuel : Nat) (c c1 : Context) (aSize : Nat)
    (a : Assembler.Memory) (bSize : Nat) (b : Assembler.Register)
    (h : moveMRFuel BytesPerWord fuel c aSize a bSize b = some c1) : c.code <+: c1.code := by
  induction fuel generalizing c c1 aSize a bSize b with
  | zero => simp [moveMRFuel] at h
  | succ n ih =>
    simp only [moveMRFuel] at h
    repeat' split at h
    all_goals first
      | cases h
      | exact encode1_keeps _ _ _ _ _ _ _ h
      | exact encode2_keeps _ _ _ _ _ _ _ h
      | (rename_i c2 h2; exact (ih _ _ _ _ _ _ h2).trans (ih _ _ _ _ _ _ h))

theorem moveRMFuel_keeps (BytesPerWord : Nat) (fuel : Nat) (c c1 : Context) (aSize : Nat)
    (a : Assembler.Register) (bSize : Nat) (b : Assembler.Memory)
    (h : moveRMFuel BytesPerWord fuel c aSize a bSize b = some c1) : c.code <+: c1.code := by
  induction fuel generalizing c c1 aSize a bSize b with
  | zero => simp [moveRMFuel] at h
  | succ n ih =>
    simp only [moveRMFuel] at h
    repeat' split at h
    all_goals first
      | cases h
      | exact encode1_keeps _ _ _ _ _ _ _ h
      | exact encode2_keeps _ _ _ _ _ _ _ h
      | (rename_i c2 h2; exact (ih _ _ _ _ _ _ h2).trans (ih _ _ _ _ _ _ h))

theorem longJumpC_keeps (BytesPerWord : Nat) (cs : CompilerSide) (c c1 : Context) (size : Nat)
    (a : Assembler.Constant) (h : longJumpC BytesPerWord cs c size a = some c1) :
    c.code <+: c1.code := by
  unfold longJumpC at h
  repeat' split at h
  all_goals first
    | cases h
    | exact jumpC_keeps _ _ _ _ _ h
    | (rename_i c2 h2
       exact (moveCRFuel_keeps _ _ _ _ _ _ _ _ _ h2).trans (jumpR_keeps _ _ _ _ _ h))

theorem longCallC_keeps (BytesPerWord : Nat) (cs : CompilerSide) (c c1 : Context) (size : Nat)
    (a : Assembler.Constant) (h : longCallC BytesPerWord cs c size a = some c1) :
    c.code <+: c1.code := by
  unfold longCallC at h
  repeat' split at h
  all_goals first
    | cases h
    | exact callC_keeps _ _ _ _ _ h
    | (rename_i c2 h2
       exact (moveCRFuel_keeps _ _ _ _ _ _ _ _ _ h2).trans (callR_keeps _ _ _ _ _ h))

theorem subtractBorrowCR_keeps (BytesPerWord : Nat) (cs : CompilerSide) (c c1 : Context)
    (aSize : Nat) (a : Assembler.Constant) (bSize : Nat) (b : Assembler.Register)
    (h : subtractBorrowCR BytesPerWord cs c aSize a bSize b = some c1) : c.code <+: c1.code := by
  unfold subtractBorrowCR at h
  repeat' split at h
  all_goals first
    | (cases h; done)
    | (simp only [Option.some.injEq] at h; subst h
       simp [Context.append])

theorem subtractCRFuel_keeps (BytesPerWord : Nat) (cs : CompilerSide) (fuel : Nat)
    (c c1 : Context) (aSize : Nat) (a : Assembler.Constant) (bSize : Nat)
    (b : Assembler.Register)
    (h : subtractCRFuel BytesPerWord cs fuel c aSize a bSize b = some c1) :
    c.code <+: c1.code := by
  induction fuel generalizing c c1 aSize a bSize b with
  | zero => simp [subtractCRFuel] at h
  | succ n ih =>
    simp only [subtractCRFuel] at h
    repeat' split at h
    all_goals first
      | (cases h; done)
      | (rename_i c2 h2
         exact (ih _ _ _ _ _ _ h2).trans (subtractBorrowCR_keeps _ _ _ _ _ _ _ _ h))
      | (rename_i c2 h2
         refine List.IsPrefix.trans ?_
           ((moveCRFuel_keeps _ _ _ _ _ _ _ _ _ h2).trans (subtractRRFuel_keeps _ _ _ _ _ _ _ _ h))
         split_ifs
         · exact rex_keeps _ _ _ _
         · exact List.prefix_refl _)
      | (simp only [Option.some.injEq] at h; subst h
         try simp only [rex0, rex, Context.append, Context.append4]
         (try split_ifs) <;> simp)

/-- The assembler that binds each encoder of x86.cpp only appends to the code vector. -/
theorem directAssembler_appends (BytesPerWord : Nat) : Appends (directAssembler BytesPerWord) := by
  refine ⟨?_, ?_, ?_⟩
  · intro op c c1 h
    cases op
    simp only [directAssembler, Option.some.injEq] at h
    subst h
    exact append_keeps _ _
  · intro cs op size type a c c1 h
    simp only [directAssembler] at h
    split at h
    · exact callC_keeps _ _ _ _ _ h
    · exact longCallC_keeps _ _ _ _ _ _ h
    · exact jumpR_keeps _ _ _ _ _ h
    · exact jumpC_keeps _ _ _ _ _ h
    · exact longJumpC_keeps _ _ _ _ _ _ h
    · exact pushRFuel_keeps _ _ _ _ _ _ h
    · exact popRFuel_keeps _ _ _ _ _ _ h
    · cases h
  · intro cs op size aType a bType b c c1 h
    simp only [directAssembler] at h
    split at h
    · exact moveRRFuel_keeps _ _ _ _ _ _ _ _ h
    · exact moveMRFuel_keeps _ _ _ _ _ _ _ _ h
    · exact moveRMFuel_keeps _ _ _ _ _ _ _ _ h
    · exact moveCRFuel_keeps _ _ _ _ _ _ _ _ _ h
    · exact subtractCRFuel_keeps _ _ _ _ _ _ _ _ _ h
    · exact subtractRRFuel_keeps _ _ _ _ _ _ _ _ h
    · cases h

/-! ## The instructions of the prologue -/

theorem pushR_rbp (c : Context) :
    pushR 8 c 8 (reg rbp) = some { c with code := c.code ++ [0x55] } := by
  simp [pushR, pushRFuel, Context.append, reg, rbp]
  decide

theorem moveRR_rsp_rbp (c : Context) :
    moveRR 8 c 8 (reg rsp) 8 (reg rbp)
      = some { c with code := c.code ++ [0x48, 0x89, 0xe5] } := by
  simp [moveRR, moveRRFuel, rex0, rex, Context.append, reg, rbp, rsp, rax]
  decide

theorem subtractCR_rsp (cs : CompilerSide) (c : Context) (n : Nat) (h0 : n ≠ 0)
    (hn : n < 2 ^ 31) :
    subtractCR 8 cs c 8 ⟨Promise.resolved n⟩ 8 (reg rsp)
      = some { c with code := c.code ++
          (if n < 128 then [0x48, 0x83, 0xec, n] else [0x48, 0x81, 0xec] ++ leBytes 4 n) } := by
  have hw : wrapSigned (8 * 8) (n : Int) = n := by
    unfold wrapSigned
    norm_num
    omega
  have h8 : isInt8 (n : Int) = decide (n < 128) := by
    rw [Bool.eq_iff_iff, isInt8_iff]
    simp only [decide_eq_true_eq]
    omega
  have h32 : isInt32 (n : Int) = true := by
    rw [isInt32_iff]
    norm_num
    omega
  have hne : (n : Int) ≠ 0 := by exact_mod_cast h0
  have hrex : ((0x48 : Int) ||| ((rax &&& 8) >>> 3)) % 256 = 0x48 := by decide
  have hsub : ((0xe8 : Int) ||| rsp) % 256 = 0xec := by decide
  by_cases hs : n < 128
  · have hb : ((n : Int) % 256).toNat = n := by omega
    simp [subtractCR, subtractCRFuel, Promise.value, Promise.isResolved, hw, h8, h32, hne, hs,
      rex0, rex, Context.append, Context.append4, reg, hrex, hsub, hb]
  · simp [subtractCR, subtractCRFuel, Promise.value, Promise.isResolved, hw, h8, h32, hne, hs,
      rex0, rex, Context.append, Context.append4, reg, hrex, hsub]

/-! ## The indices of the dispatch tables -/

/-- The unary index is within the table `unaryOperations`, and distinct keys have distinct
cells. -/
theorem indexUnary_spec (U N : Nat) (hsize : U * N < 2 ^ 32) (op operand : Nat) (hop : op < U)
    (ho : operand < N) :
    indexUnary U op operand < U * N
    ∧ ∀ op1 operand1, op1 < U → operand1 < N →
        indexUnary U op operand = indexUnary U op1 operand1 → op = op1 ∧ operand = operand1 := by
  have hb : ∀ x y, x < U → y < N → x + U * y < U * N := by
    intro x y hx hy
    calc x + U * y < U + U * y := by omega
      _ = U * (y + 1) := by ring
      _ ≤ U * N := Nat.mul_le_mul_left U hy
  have hm : ∀ x y, x < U → y < N → indexUnary U x y = x + U * y := by
    intro x y hx hy
    exact Nat.mod_eq_of_lt (lt_trans (hb x y hx hy) hsize)
  refine ⟨by rw [hm op operand hop ho]; exact hb op operand hop ho, ?_⟩
  intro op1 operand1 hop1 ho1 h
  rw [hm op operand hop ho, hm op1 operand1 hop1 ho1] at h
  have hU : 0 < U := by omega
  have h1 : (op + U * operand) % U = (op1 + U * operand1) % U := by rw [h]
  rw [Nat.add_mul_mod_self_left, Nat.add_mul_mod_self_left, Nat.mod_eq_of_lt hop,
    Nat.mod_eq_of_lt hop1] at h1
  subst h1
  have h2 : U * operand = U * operand1 := by omega
  exact ⟨rfl, Nat.eq_of_mul_eq_mul_left hU h2⟩

/-- The binary index and the ternary index are the same function of the number of the
operation: both are within the table `binaryOperations` for an operation numbered below the sum
of the two counts, and two keys have the same cell exactly when the numbers of the operations
and the operand types are the same. -/
theorem indexBinary_spec (B T N : Nat) (hsize : (B + T) * N * N < 2 ^ 32)
    (op o1 o2 : Nat) (hop : op < B + T) (h1 : o1 < N) (h2 : o2 < N) :
    indexBinary B T N op o1 o2 < (B + T) * N * N
    ∧ indexTernary B T N op o1 o2 = indexBinary B T N op o1 o2
    ∧ ∀ op' o1' o2', op' < B + T → o1' < N → o2' < N →
        (indexBinary B T N op o1 o2 = indexBinary B T N op' o1' o2'
          ↔ op = op' ∧ o1 = o1' ∧ o2 = o2') := by
  have hb : ∀ x y z, x < B + T → y < N → z < N →
      x + (B + T) * y + (B + T) * N * z < (B + T) * N * N := by
    intro x y z hx hy hz
    have e1 : x + (B + T) * y < (B + T) * N := by
      calc x + (B + T) * y < (B + T) + (B + T) * y := by omega
        _ = (B + T) * (y + 1) := by ring
        _ ≤ (B + T) * N := Nat.mul_le_mul_left _ hy
    calc x + (B + T) * y + (B + T) * N * z < (B + T) * N + (B + T) * N * z := by omega
      _ = (B + T) * N * (z + 1) := by ring
      _ ≤ (B + T) * N * N := Nat.mul_le_mul_left _ hz
  have hm : ∀ x y z, x < B + T → y < N → z < N →
      indexBinary B T N x y z = x + (B + T) * y + (B + T) * N * z := by
    intro x y z hx hy hz
    exact Nat.mod_eq_of_lt (lt_trans (hb x y z hx hy hz) hsize)
  refine ⟨by rw [hm op o1 o2 hop h1 h2]; exact hb op o1 o2 hop h1 h2, rfl, ?_⟩
  intro op' o1' o2' hop' h1' h2'
  constructor
  · intro h
    rw [hm op o1 o2 hop h1 h2, hm op' o1' o2' hop' h1' h2'] at h
    have hS : 0 < B + T := by omega
    have hN : 0 < N := by omega
    have e1 : ∀ x y, x < B + T → y < N → x + (B + T) * y < (B + T) * N := by
      intro x y hx hy
      calc x + (B + T) * y < (B + T) + (B + T) * y := by omega
        _ = (B + T) * (y + 1) := by ring
        _ ≤ (B + T) * N := Nat.mul_le_mul_left _ hy
    have hz : (op + (B + T) * o1 + (B + T) * N * o2) / ((B + T) * N)
        = (op' + (B + T) * o1' + (B + T) * N * o2') / ((B + T) * N) := by rw [h]
    rw [Nat.add_mul_div_left _ _ (Nat.mul_pos hS hN), Nat.add_mul_div_left _ _ (Nat.mul_pos hS hN),
      Nat.div_eq_of_lt (e1 op o1 hop h1), Nat.div_eq_of_lt (e1 op' o1' hop' h1')] at hz
    simp only [zero_add] at hz
    subst hz
    have h3 : op + (B + T) * o1 = op' + (B + T) * o1' := by omega
    have hy : (op + (B + T) * o1) % (B + T) = (op' + (B + T) * o1') % (B + T) := by rw [h3]
    rw [Nat.add_mul_mod_self_left, Nat.add_mul_mod_self_left, Nat.mod_eq_of_lt hop,
      Nat.mod_eq_of_lt hop'] at hy
    subst hy
    have h4 : (B + T) * o1 = (B + T) * o1' := by omega
    exact ⟨rfl, Nat.eq_of_mul_eq_mul_left hS h4, rfl⟩
  · rintro ⟨rfl, rfl, rfl⟩
    rfl

/-- C34 (failing input): the binary operation and the ternary operation of the same number,
such as the first enumerator of each, are given the same cell of the table `binaryOperations`
for the same operand types, whatever the counts are; with 4 binary and 12 ternary operations
and 4 operand types, the cell 80 for the operation 0 on operand types 1 and 1. -/
theorem index_binary_ternary_share_cell :
    (∀ B T N operation operand1 operand2,
      indexTernary B T N operation operand1 operand2
        = indexBinary B T N operation operand1 operand2)
    ∧ indexBinary 4 12 4 0 1 1 = 80
    ∧ indexTernary 4 12 4 0 1 1 = 80
    ∧ 80 < (4 + 12) * 4 * 4 := by
  refine ⟨fun _ _ _ _ _ _ => rfl, by decide, by decide, by decide⟩

/-! ## Double words on a 32-bit target -/

theorem moveRR_four (c : Context) (a b : Assembler.Register) :
    moveRR 4 c 4 a 4 b
      = if a.low ≠ b.low then
          some ((c.append 0x89).append (0xc0 ||| (a.low <<< 3) ||| b.low))
        else some c := by
  simp [moveRR, moveRRFuel, rex0, rex]

theorem subtractRR_four (c : Context) (a b : Assembler.Register) :
    subtractRR 4 c 4 a 4 b = some ((c.append 0x29).append (0xc0 ||| (a.low <<< 3) ||| b.low)) := by
  simp [subtractRR, subtractRRFuel, rex0, rex]

theorem subtractBorrowRR_four (c : Context) (a b : Assembler.Register) :
    subtractBorrowRR 4 c 4 a 4 b
      = some ((c.append 0x19).append (0xc0 ||| (a.low <<< 3) ||| b.low)) := by
  simp [subtractBorrowRR, rex0, rex]

/-- C40: on x86-64, `longJumpC` and `longCallC` of a word-sized constant return and append 13
bytes: 49 BA and the 8 bytes of the immediate (the value of the promise when it is resolved,
else zeros, for which one immediate task is put in front of the task list), then 41 FF E2 for
the jump and 41 FF D2 for the call; no offset task is added.  On a 32-bit target they are
`jumpC` and `callC`. -/
theorem long_jump_and_call_bytes (cs : CompilerSide) (c : Context) (p : Promise) :
    (∃ imm tasks, imm.length = 8
      ∧ longJumpC 8 cs c 8 ⟨p⟩
          = some ⟨c.code ++ [0x49, 0xba] ++ imm ++ [0x41, 0xff, 0xe2], tasks, c.result⟩
      ∧ longCallC 8 cs c 8 ⟨p⟩
          = some ⟨c.code ++ [0x49, 0xba] ++ imm ++ [0x41, 0xff, 0xd2], tasks, c.result⟩
      ∧ (c.code ++ [0x49, 0xba] ++ imm ++ [0x41, 0xff, 0xe2]).length = c.code.length + 13
      ∧ (p.isResolved (c.view cs) = true →
          tasks = c.tasks
          ∧ ∃ v, p.value 8 (Context.view ⟨c.code ++ [0x49, 0xba], c.tasks, c.result⟩ cs) = some v
            ∧ imm = leBytes 8 v)
      ∧ (p.isResolved (c.view cs) = false →
          tasks = Task.immediate p (c.code.length + 2) :: c.tasks ∧ imm = leBytes 8 0)
      ∧ ∀ q i n, Task.offset q i n ∈ tasks → Task.offset q i n ∈ c.tasks)
    ∧ (∀ size, longJumpC 4 cs c size ⟨p⟩ = jumpC 4 c size ⟨p⟩)
    ∧ (∀ size, longCallC 4 cs c size ⟨p⟩ = callC 4 c size ⟨p⟩) := by
  have hhead : moveCRHead 8 (reg r10) = [0x49, 0xba] := by decide
  have h8 : (10 : Int) &&& 8 ≠ 0 := by decide
  have hrex : (((64 : Int) ||| (((10 : Int) &&& 8) >>> 3)) % 256).toNat = 0x41 := by decide
  have he2 : (((224 : Int) ||| (10 &&& 7)) % 256).toNat = 0xe2 := by decide
  have hd2 : (((208 : Int) ||| (10 &&& 7)) % 256).toNat = 0xd2 := by decide
  have hjump : ∀ x : Context, jumpR 8 x 8 (reg r10)
      = some ⟨x.code ++ [0x41, 0xff, 0xe2], x.tasks, x.result⟩ := by
    intro x
    simp [jumpR, rex, Context.append, reg, r10, h8, hrex, he2]
  have hcall : ∀ x : Context, callR 8 x 8 (reg r10)
      = some ⟨x.code ++ [0x41, 0xff, 0xd2], x.tasks, x.result⟩ := by
    intro x
    simp [callR, rex, Context.append, reg, r10, h8, hrex, hd2]
  have hmove := moveCR_word 8 (Or.inr rfl) cs c p (reg r10)
  rw [hhead] at hmove
  refine ⟨?_, ?_, ?_⟩
  · by_cases h : p.isResolved (c.view cs) = true
    · rw [if_pos h] at hmove
      have hres : p.isResolved (Context.view ⟨c.code ++ [0x49, 0xba], c.tasks, c.result⟩ cs)
          = true :=
        (isResolved_view p cs c ⟨c.code ++ [0x49, 0xba], c.tasks, c.result⟩ rfl).trans h
      obtain ⟨v, hv⟩ := value_isSome_of_isResolved 8 _ p hres
      rw [hv] at hmove
      refine ⟨leBytes 8 v, c.tasks, leBytes_length _ _, ?_, ?_, ?_, ?_, ?_, ?_⟩
      · simp only [longJumpC, hmove, Option.map_some', hjump]
        simp
      · simp only [longCallC, hmove, Option.map_some', hcall]
        simp
      · simp [leBytes_length]
      · intro _
        exact ⟨rfl, v, hv, rfl⟩
      · intro h2
        rw [h] at h2
        cases h2
      · intro q i n hq
        exact hq
    · rw [if_neg h] at hmove
      rw [Bool.not_eq_true] at h
      refine ⟨leBytes 8 0, Task.immediate p (c.code.length + 2) :: c.tasks, leBytes_length _ _,
        ?_, ?_, ?_, ?_, ?_, ?_⟩
      · simp only [longJumpC, hmove, hjump]
        simp
      · simp only [longCallC, hmove, hcall]
        simp
      · simp [leBytes_length]
      · intro h2
        rw [h] at h2
        cases h2
      · intro _
        exact ⟨rfl, rfl⟩
      · intro q i n hq
        simp only [List.mem_cons] at hq
        rcases hq with hq | hq
        · cases hq
        · exact hq
  · intro size
    simp only [longJumpC, jumpC]
    split_ifs <;> first | rfl | omega
  · intro size
    simp only [longCallC, callC]
    split_ifs <;> first | rfl | omega

end X86

namespace Compiler

/-! ## The abstract stack -/

theorem ceiling_pos (size BytesPerWord : Nat) (hs : 0 < size) (hw : 0 < BytesPerWord) :
    ceiling size BytesPerWord ≠ 0 := by
  unfold ceiling
  have : BytesPerWord ≤ size + BytesPerWord - 1 := by omega
  have := Nat.div_pos this hw
  omega

/-- The effect of `push` on the state and on the arena of frames. -/
theorem push_spec (BytesPerWord : Nat) (c : Context) (size : Nat) (v : ValueRef)
    (hc : ceiling size BytesPerWord ≠ 0) (hip : 0 ≤ c.logicalIp) :
    ∃ c1 : Context, push BytesPerWord c size v = some c1 ∧
      c1.state = State.mk (some c.frames.length) c.state.next ∧
      (∃ index, c1.frames =
        c.frames ++ [⟨some v, ceiling size BytesPerWord, index, c.state.stack, false⟩]) ∧
      c1.logicalIp = c.logicalIp := by
  have hip2 : c.logicalIp ≥ 0 := hip
  simp only [push, stack, stackAt, appendPush, Event.new, hc, ne_eq, not_false_eq_true,
    if_true, hip2, ge_iff_le]
  exact ⟨_, rfl, rfl, ⟨_, rfl⟩, rfl⟩

/-- The effect of `pop` on the state and on the arena of frames. -/
theorem pop_spec (BytesPerWord : Nat) (c : Context) (size n : Nat) (s : Stack)
    (hstack : c.state.stack = some n) (hframe : c.frames.get? n = some s)
    (hsize : ceiling size BytesPerWord = s.size) (hip : 0 ≤ c.logicalIp) :
    ∃ c2 : Context, pop BytesPerWord c size = some (c2, s.value) ∧
      c2.state = State.mk s.next c.state.next ∧ c2.frames = c.frames := by
  have hip2 : c.logicalIp ≥ 0 := hip
  simp only [pop, hstack, hframe, hsize, appendPop, Event.new, hip2, ge_iff_le, if_true]
  exact ⟨_, rfl, rfl, rfl⟩

/-- C2: in a context in which a logical IP has been started, `push(s, v)` with `s > 0` followed
by `pop(s)` returns: both calls complete, `pop` returns the pointer `v` that was pushed, the
current state (its stack pointer and its chain of saved states) is what it was before the push,
and no frame that existed before the push has changed. -/
theorem push_pop_roundtrip (BytesPerWord : Nat) (hw : BytesPerWord = 4 ∨ BytesPerWord = 8)
    (c : Context) (size : Nat) (v : ValueRef) (hs : 0 < size) (hip : 0 ≤ c.logicalIp) :
    ∃ c1 c2 : Context,
      push BytesPerWord c size v = some c1 ∧
      pop BytesPerWord c1 size = some (c2, some v) ∧
      c2.state = c.state ∧
      c2.state.stack = c.state.stack ∧
      ∀ i : Nat, i < c.frames.length → c2.frames.get? i = c.frames.get? i := by
  have hc : ceiling size BytesPerWord ≠ 0 :=
    ceiling_pos size BytesPerWord hs (by rcases hw with rfl | rfl <;> decide)
  have hst : State.mk c.state.stack c.state.next = c.state := by
    cases c.state
    rfl
  obtain ⟨c1, h1, hstate1, ⟨index, hframes1⟩, hip1⟩ := push_spec BytesPerWord c size v hc hip
  have hframe : c1.frames.get? c.frames.length =
      some ⟨some v, ceiling size BytesPerWord, index, c.state.stack, false⟩ := by
    rw [hframes1]
    simp
  obtain ⟨c2, h2, hstate2, hframes2⟩ :=
    pop_spec BytesPerWord c1 size c.frames.length _ (by rw [hstate1]; rfl) hframe rfl
      (by rw [hip1]; exact hip)
  have hstate : c2.state = c.state := by
    rw [hstate2, hstate1]
    exact hst
  refine ⟨c1, c2, h1, h2, hstate, by rw [hstate], ?_⟩
  intro i hi
  rw [hframes2, hframes1]
  simp only [List.get?_eq_getElem?]
  exact List.getElem?_append_left hi

theorem push_pop_roundtrip_witness :
    ∃ c1 c2 : Context,
      push 8 (startLogicalIp (Context.init 1) 0) 8 7 = some c1 ∧
      pop 8 c1 8 = some (c2, some 7) ∧
      c2.state = (startLogicalIp (Context.init 1) 0).state := by
  obtain ⟨c1, c2, h1, h2, h3, _⟩ :=
    push_pop_roundtrip 8 (Or.inr rfl) (startLogicalIp (Context.init 1) 0) 8 7 (by decide)
      (by decide)
  exact ⟨c1, c2, h1, h2, h3⟩

/-! ## Saved states -/

/-- A `popState` that directly follows the matching `pushState`, with only changes of the current
stack pointer in between, restores the stack pointer. -/
theorem popState_restores_one_level (c c1 : Context) (h : c1.state.next = (pushState c).state.next) :
    (popState c1).state.stack = c.state.stack := by
  simp only [popState, pushState, State.new, State.next] at h ⊢
  rw [h]
  rfl

/-- Two `popState` calls after a `pushState` give the stack that was current at that
`pushState`, whatever the saved states beneath it: the second call restores the same saved
state as the first. -/
theorem popState_twice (c : Context) :
    (popState (popState (pushState c))).state.stack = c.state.stack ∧
    (popState (popState (pushState c))).state.next = some c.state := by
  exact ⟨rfl, rfl⟩

/-- C3 (failing input): after `pushState; push(8, v); pushState; popState; popState` on an empty
abstract stack, the current stack is the frame pushed between the two `pushState` calls, not the
empty stack that was current before the first `pushState`. -/
theorem nested_popState_keeps_inner_stack :
    (startLogicalIp (Context.init 1) 0).state.stack = none ∧
    (push 8 (pushState (startLogicalIp (Context.init 1) 0)) 8 7).map
        (fun c => (popState (popState (pushState c))).state.stack) = some (some 0) ∧
    (push 8 (pushState (startLogicalIp (Context.init 1) 0)) 8 7).map
        (fun c => (popState (pushState c)).state.stack) = some (some 0) :=
  ⟨rfl, rfl, rfl⟩

/-! ## The constant pool -/

/-- On x86-64, whatever the code, the destination and the previous content of memory: after
`poolAppend(1); poolAppend(2)` the word that `writeTo` leaves at `dst + pad(length)`, the slot of
the first constant, is 513. -/
theorem pool_first_word_general (code : List Nat) (dst : Int) (m : RawMemory) :
    readWord 8 (writeTo 8 { (poolAppend (poolAppend (Context.init 0) 1).1 2).1 with
        assembler := ⟨code, [], 0⟩ } dst m).2.state (dst + pad 8 code.length) = 513 := by
  simp only [writeTo, X86.MyAssembler.writeTo, X86.runTasks, poolAppend, poolAppendPromise,
    Context.init, writePool, Promise.value, Promise.isResolved, X86.MyAssembler.length,
    Result.state, if_true, List.nil_append, List.cons_append]
  have e1 : leBytes 8 (wrapSigned (8 * 8) 1) = [1, 0, 0, 0, 0, 0, 0, 0] := by decide
  have e2 : leBytes 8 (wrapSigned (8 * 8) 2) = [2, 0, 0, 0, 0, 0, 0, 0] := by decide
  rw [e1, e2]
  simp only [readWord]
  rw [readLE_congr _ (writeBytes m (dst + pad 8 code.length) [1, 2, 0, 0, 0, 0, 0, 0]) 8]
  · rw [show (8 : Nat) = [1, 2, 0, 0, 0, 0, 0, 0].length from rfl, readLE_writeBytes]
    decide
  · intro j hj
    simp only [writeBytes_apply]
    interval_cases j <;> simp

/-- C1 (failing input): after `poolAppend(1); poolAppend(2)` and `writeTo(4096)` on x86-64, with
four bytes of code and a buffer filled with `0xAA`, the run completes, the promise of the first
constant has the value `4096 + 8`, the word stored there is 513 and not 1, and the word at the
address of the second promise, `4096 + 16`, is `0xAAAAAAAAAAAAAA00` and not 2: `writeTo` stores
constant `i` at byte offset `pad(length) + i`. -/
theorem pool_words_overlap :
    (writeTo 8 { (poolAppend (poolAppend (Context.init 0) 1).1 2).1 with
        assembler := ⟨[0x55, 0x48, 0x89, 0xe5], [], 0⟩ } 4096 (fun _ => 0xAA)).2.aborted = false ∧
    (poolAppend (Context.init 0) 1).2 = Promise.pool 0 ∧
    (poolAppend (poolAppend (Context.init 0) 1).1 2).2 = Promise.pool 1 ∧
    (Promise.pool 0).value 8
      ((writeTo 8 { (poolAppend (poolAppend (Context.init 0) 1).1 2).1 with
        assembler := ⟨[0x55, 0x48, 0x89, 0xe5], [], 0⟩ } 4096 (fun _ => 0xAA)).1.assembler.view
      (writeTo 8 { (poolAppend (poolAppend (Context.init 0) 1).1 2).1 with
        assembler := ⟨[0x55, 0x48, 0x89, 0xe5], [], 0⟩ } 4096 (fun _ => 0xAA)).1.side)
      = some (4096 + 8) ∧
    (Promise.pool 1).value 8
      ((writeTo 8 { (poolAppend (poolAppend (Context.init 0) 1).1 2).1 with
        assembler := ⟨[0x55, 0x48, 0x89, 0xe5], [], 0⟩ } 4096 (fun _ => 0xAA)).1.assembler.view
      (writeTo 8 { (poolAppend (poolAppend (Context.init 0) 1).1 2).1 with
        assembler := ⟨[0x55, 0x48, 0x89, 0xe5], [], 0⟩ } 4096 (fun _ => 0xAA)).1.side)
      = some (4096 + 16) ∧
    readWord 8 (writeTo 8 { (poolAppend (poolAppend (Context.init 0) 1).1 2).1 with
        assembler := ⟨[0x55, 0x48, 0x89, 0xe5], [], 0⟩ } 4096 (fun _ => 0xAA)).2.state
      (4096 + 8) = 513 ∧
    readWord 8 (writeTo 8 { (poolAppend (poolAppend (Context.init 0) 1).1 2).1 with
        assembler := ⟨[0x55, 0x48, 0x89, 0xe5], [], 0⟩ } 4096 (fun _ => 0xAA)).2.state
      (4096 + 16) = -6148914691236517376 := by
  refine ⟨?_, ?_, ?_, ?_, ?_, ?_, ?_⟩ <;> decide

/-! ## writeTo twice -/

theorem writePool_eq_stores (BytesPerWord : Nat) (w : PromiseView) (dst : Int) (length : Nat)
    (ps : List Promise) (i : Int) (m : RawMemory) :
    writePool BytesPerWord w dst length ps i m =
      Result.ofFlag (poolStores BytesPerWord w dst length ps i).2
        (applyStores (poolStores BytesPerWord w dst length ps i).1 m) := by
  induction ps generalizing i m with
  | nil => rfl
  | cons p ps ih =>
    rw [writePool, poolStores]
    cases p.value BytesPerWord w with
    | none => rfl
    | some v => simp only [ih, applyStores]

theorem writeTo_unfold (BytesPerWord : Nat) (c : Context) (dst : Int) (m : RawMemory) :
    writeTo BytesPerWord c dst m =
      (c.supplied dst,
        match X86.runTasks BytesPerWord
            (X86.Context.view { c.assembler with result := dst }
              (Context.side { c with machineCode := dst }))
            c.assembler.tasks (writeBytes m dst c.assembler.code) with
        | .abort m => .abort m
        | .done m =>
          writePool BytesPerWord
            (X86.Context.view { c.assembler with result := dst }
              (Context.side { c with machineCode := dst }))
            dst c.assembler.code.length c.constants 0 m) := by
  simp only [writeTo, X86.MyAssembler.writeTo, X86.MyAssembler.length, Context.supplied]
  cases X86.runTasks BytesPerWord
      (X86.Context.view { c.assembler with result := dst }
        (Context.side { c with machineCode := dst }))
      c.assembler.tasks (writeBytes m dst c.assembler.code) <;> rfl

theorem writeTo_eq_stores (BytesPerWord : Nat) (c : Context) (dst : Int) (m : RawMemory) :
    writeTo BytesPerWord c dst m =
      (c.supplied dst,
        Result.ofFlag (writeToStores BytesPerWord c dst).2
          (applyStores (writeToStores BytesPerWord c dst).1 m)) := by
  rw [writeTo_unfold, X86.runTasks_eq_stores]
  simp only [writeToStores]
  cases (X86.tasksStores BytesPerWord
      (X86.Context.view { c.assembler with result := dst }
        (Context.side { c with machineCode := dst })) c.assembler.tasks).2 with
  | true =>
    simp only [Result.ofFlag, if_true, writePool_eq_stores, applyStores, List.cons_append,
      List.append_eq, applyStores_append]
  | false =>
    simp only [Result.ofFlag, Bool.false_eq_true, if_false, applyStores]

theorem writeToStores_supplied (BytesPerWord : Nat) (c : Context) (dst : Int) :
    writeToStores BytesPerWord (c.supplied dst) dst = writeToStores BytesPerWord c dst := rfl

/-- C11: if a first `writeTo(dst)` completes, a second `writeTo(dst)` on the resulting context,
with no append in between, completes too and leaves every byte of memory as the first call left
it. -/
theorem writeTo_idempotent (BytesPerWord : Nat) (c : Context) (dst : Int) (m m1 : RawMemory)
    (h : (writeTo BytesPerWord c dst m).2 = Result.done m1) :
    (writeTo BytesPerWord (writeTo BytesPerWord c dst m).1 dst m1).2 = Result.done m1 ∧
    ∀ x : Int, (writeTo BytesPerWord (writeTo BytesPerWord c dst m).1 dst m1).2.state x = m1 x := by
  rw [writeTo_eq_stores] at h
  simp only at h
  have hflag : (writeToStores BytesPerWord c dst).2 = true := by
    cases hf : (writeToStores BytesPerWord c dst).2 with
    | true => rfl
    | false => rw [hf] at h; simp [Result.ofFlag] at h
  rw [hflag] at h
  have hm : applyStores (writeToStores BytesPerWord c dst).1 m = m1 := by
    simpa [Result.ofFlag] using h
  have key : (writeTo BytesPerWord (writeTo BytesPerWord c dst m).1 dst m1).2 =
      Result.done m1 := by
    rw [writeTo_eq_stores BytesPerWord c dst m]
    simp only
    rw [writeTo_eq_stores, writeToStores_supplied, hflag]
    simp only [Result.ofFlag, if_true]
    rw [← hm, applyStores_idem]
  exact ⟨key, fun x => by rw [key]; rfl⟩

/-! ## The bytes writeTo touches -/

theorem poolStores_mem (BytesPerWord : Nat) (w : PromiseView) (dst : Int) (length : Nat)
    (ps : List Promise) (i : Int) :
    ∀ s ∈ (poolStores BytesPerWord w dst length ps i).1,
      dst + pad BytesPerWord length + i ≤ s.1 ∧
        s.1 + s.2.length ≤ dst + pad BytesPerWord length + i + (ps.length - 1 : Nat) + BytesPerWord := by
  induction ps generalizing i with
  | nil => intro s hs; simp [poolStores] at hs
  | cons p ps ih =>
    intro s hs
    rw [poolStores] at hs
    cases hv : p.value BytesPerWord w with
    | none => rw [hv] at hs; simp at hs
    | some v =>
      rw [hv] at hs
      simp only [List.mem_cons] at hs
      rcases hs with rfl | hs
      · simp only [leBytes_length, List.length_cons, Nat.add_sub_cancel]
        omega
      · have := ih (i + 1) s hs
        simp only [List.length_cons, Nat.add_sub_cancel]
        have hpos : 0 < ps.length := by
          cases ps with
          | nil => simp [poolStores] at hs
          | cons _ _ => simp
        have : ((ps.length - 1 : Nat) : Int) = (ps.length : Int) - 1 := by omega
        omega

/-- The memory `writeTo` leaves, whether it completes or aborts. -/
theorem writeTo_state (BytesPerWord : Nat) (c : Context) (dst : Int) (m : RawMemory) :
    (writeTo BytesPerWord c dst m).2.state = applyStores (writeToStores BytesPerWord c dst).1 m := by
  rw [writeTo_eq_stores]
  simp only [Result.ofFlag]
  split_ifs <;> rfl

/-- With tasks that patch the code they were recorded for, `writeTo(dst)` changes no byte outside
the offsets `[0, pad(length()) + poolSize())` of `dst`. -/
theorem writeTo_frame (BytesPerWord : Nat) (hw : BytesPerWord = 4 ∨ BytesPerWord = 8)
    (c : Context) (dst : Int) (m : RawMemory)
    (htasks : ∀ t ∈ c.assembler.tasks, t.inCode BytesPerWord c.assembler.code.length)
    (hcount : c.constantCount = c.constants.length) (x : Int)
    (hx : x < dst ∨ dst + (pad BytesPerWord (X86.MyAssembler.length c.assembler) +
      poolSize BytesPerWord c : Nat) ≤ x) :
    (writeTo BytesPerWord c dst m).2.state x = m x := by
  rw [writeTo_state, applyStores_apply, storedByte_none]
  · rfl
  · have hpad := le_pad BytesPerWord hw c.assembler.code.length
    have hbpw : 1 ≤ BytesPerWord := by rcases hw with rfl | rfl <;> decide
    have hpool : ∀ n : Nat, 0 < n → (n - 1 : Nat) + BytesPerWord ≤ n * BytesPerWord := by
      intro n hn
      obtain ⟨k, rfl⟩ : ∃ k, n = k + 1 := ⟨n - 1, by omega⟩
      have : k ≤ k * BytesPerWord := Nat.le_mul_of_pos_right k hbpw
      simp only [Nat.add_sub_cancel, Nat.add_mul, Nat.one_mul]
      omega
    simp only [X86.MyAssembler.length, poolSize, hcount] at hx
    intro s hs
    simp only [writeToStores] at hs
    have htask := X86.tasksStores_mem BytesPerWord
      (X86.Context.view { c.assembler with result := dst }
        (Context.side { c with machineCode := dst })) c.assembler.code.length c.assembler.tasks
      htasks
    have hpl := poolStores_mem BytesPerWord
      (X86.Context.view { c.assembler with result := dst }
        (Context.side { c with machineCode := dst })) dst c.assembler.code.length c.constants 0
    have hres : (X86.Context.view { c.assembler with result := dst }
        (Context.side { c with machineCode := dst })).result = dst := rfl
    rw [hres] at htask
    have hcase : s = (dst, c.assembler.code) ∨
        s ∈ (X86.tasksStores BytesPerWord
          (X86.Context.view { c.assembler with result := dst }
            (Context.side { c with machineCode := dst })) c.assembler.tasks).1 ∨
        s ∈ (poolStores BytesPerWord
          (X86.Context.view { c.assembler with result := dst }
            (Context.side { c with machineCode := dst })) dst c.assembler.code.length
          c.constants 0).1 := by
      split_ifs at hs
      · simp only [List.cons_append, List.mem_cons, List.mem_append] at hs
        exact hs
      · simp only [List.mem_cons] at hs
        rcases hs with h | h
        · exact Or.inl h
        · exact Or.inr (Or.inl h)
    push_cast at hx
    have hnn : (0 : Int) ≤ (c.constants.length : Int) * (BytesPerWord : Int) := by positivity
    rcases hcase with rfl | h | h
    · simp only
      omega
    · have := htask s h
      omega
    · have h1 := hpl s h
      have hpos : 0 < c.constants.length := by
        cases hcs : c.constants with
        | nil => rw [hcs] at h; simp [poolStores] at h
        | cons _ _ => simp
      have h2 := hpool c.constants.length hpos
      have h3 : ((c.constants.length - 1 : Nat) : Int) + (BytesPerWord : Int) ≤
          (c.constants.length : Int) * (BytesPerWord : Int) := by exact_mod_cast h2
      omega

/-- C12 (failing input): after `poolAppend(1); poolAppend(2)` and `writeTo(4096)` on x86-64,
with four bytes of code and a buffer filled with `0xAA`, `pad(length())` is 8 and `poolSize()`
is 16, but of the sixteen bytes at offsets 8..23 only the first nine are written: the bytes at
offsets 17..23 keep their previous content. -/
theorem pool_words_leave_gap :
    pad 8 (X86.MyAssembler.length (⟨[0x55, 0x48, 0x89, 0xe5], [], 0⟩ : X86.Context)) = 8 ∧
    poolSize 8 (poolAppend (poolAppend (Context.init 0) 1).1 2).1 = 16 ∧
    (writeTo 8 { (poolAppend (poolAppend (Context.init 0) 1).1 2).1 with
        assembler := ⟨[0x55, 0x48, 0x89, 0xe5], [], 0⟩ } 4096 (fun _ => 0xAA)).2.aborted = false ∧
    (List.range 16).map (fun k : Nat =>
      (writeTo 8 { (poolAppend (poolAppend (Context.init 0) 1).1 2).1 with
        assembler := ⟨[0x55, 0x48, 0x89, 0xe5], [], 0⟩ } 4096 (fun _ => 0xAA)).2.state
        (4096 + 8 + (k : Int))) =
      [1, 2, 0, 0, 0, 0, 0, 0, 0, 0xAA, 0xAA, 0xAA, 0xAA, 0xAA, 0xAA, 0xAA] := by
  refine ⟨?_, ?_, ?_, ?_⟩ <;> decide

theorem writeTo_idempotent_witness :
    (writeTo 8 (writeTo 8 { (poolAppend (poolAppend (Context.init 0) 1).1 2).1 with
        assembler := ⟨[0x55, 0x48, 0x89, 0xe5], [], 0⟩ } 4096 (fun _ => 0xAA)).1 4096
      (writeTo 8 { (poolAppend (poolAppend (Context.init 0) 1).1 2).1 with
        assembler := ⟨[0x55, 0x48, 0x89, 0xe5], [], 0⟩ } 4096 (fun _ => 0xAA)).2.state).2 =
      Result.done (writeTo 8 { (poolAppend (poolAppend (Context.init 0) 1).1 2).1 with
        assembler := ⟨[0x55, 0x48, 0x89, 0xe5], [], 0⟩ } 4096 (fun _ => 0xAA)).2.state :=
  (writeTo_idempotent 8 { (poolAppend (poolAppend (Context.init 0) 1).1 2).1 with
      assembler := ⟨[0x55, 0x48, 0x89, 0xe5], [], 0⟩ } 4096 (fun _ => 0xAA) _ rfl).1

/-! ## Frame indices -/

/-- The index `stack` gives a frame: the index of the frame beneath it plus the size of the new
frame itself. -/
theorem stack_index (c : Context) (value : Option ValueRef) (size n : Nat) (s : Stack)
    (h : c.frames.get? n = some s) :
    (stack c value size (some n)).1.frames =
      c.frames ++ [⟨value, size, s.index + size, some n, false⟩] := by
  rw [List.get?_eq_getElem?] at h
  simp [stack, stackAt, h]

/-- C20 (failing input): on a 32-bit target, `push(4, v1); push(8, v2)` builds a frame of one
word and on top of it a frame of two words whose index is 2, not the size 1 of the frame beneath
it; its index plus its size is 4, while the sizes of the two frames add up to 3. -/
theorem push_index_uses_own_size :
    ((push 4 (startLogicalIp (Context.init 1) 0) 4 1).bind
      (fun c => push 4 c 8 2)).map (fun c => c.frames) =
      some [⟨some 1, 1, 0, none, false⟩, ⟨some 2, 2, 2, some 0, false⟩] := by
  decide

/-! ## Free registers -/

theorem downFrom_some (p : Int → Bool) (n : Nat) (i : Int) (h : downFrom p n = some i) :
    p i = true ∧ 0 ≤ i ∧ i ≤ n := by
  induction n with
  | zero =>
    simp only [downFrom] at h
    split_ifs at h with hp
    cases h
    exact ⟨hp, le_refl _, le_refl _⟩
  | succ n ih =>
    simp only [downFrom] at h
    split_ifs at h with hp
    · cases h
      exact ⟨hp, by positivity, le_refl _⟩
    · obtain ⟨h1, h2, h3⟩ := ih h
      exact ⟨h1, h2, by push_cast at h3 ⊢; omega⟩

theorem downFrom_none (p : Int → Bool) (n : Nat) (h : downFrom p n = none) (i : Nat)
    (hi : i ≤ n) : p (i : Int) = false := by
  induction n with
  | zero =>
    simp only [downFrom] at h
    split_ifs at h with hp
    have : i = 0 := by omega
    subst this
    simpa using hp
  | succ n ih =>
    simp only [downFrom] at h
    split_ifs at h with hp
    rcases Nat.lt_or_ge i (n + 1) with hlt | hge
    · exact ih h (by omega)
    · have : i = n + 1 := by omega
      subst this
      simpa using hp

theorem freeRegisterExcept_some (A : X86.Assembler.Interface) (c : Context) (except : Int)
    (allowAcquired : Bool) (i : Int) (h : freeRegisterExcept A c except allowAcquired = some i) :
    i ≠ except ∧ (c.registers i).reserved = false ∧ 0 ≤ i ∧ i ≤ A.registerCount := by
  unfold freeRegisterExcept at h
  split at h
  · rename_i j hj
    cases h
    obtain ⟨h1, h2, h3⟩ := downFrom_some _ _ _ hj
    simp only [Bool.and_eq_true, decide_eq_true_eq, Bool.not_eq_true'] at h1
    exact ⟨h1.1.1, h1.1.2, h2, h3⟩
  · split_ifs at h
    obtain ⟨h1, h2, h3⟩ := downFrom_some _ _ _ h
    simp only [Bool.and_eq_true, decide_eq_true_eq, Bool.not_eq_true'] at h1
    exact ⟨h1.1, h1.2, h2, h3⟩

theorem acquireTemporary_reserved (A : X86.Assembler.Interface) (c c1 : Context) (r0 r : Int)
    (h : acquireTemporary A c r0 = some (c1, r)) : (c1.registers r).reserved = true := by
  unfold acquireTemporary at h
  simp only [Option.map_eq_some'] at h
  obtain ⟨a, _, ha⟩ := h
  cases ha
  simp

/-- C16: whatever index `freeRegisterExcept` returns differs from the excluded register and
its slot is not marked reserved; so it is none of the registers marked reserved, as are the base,
stack and thread registers after the constructor and a temporary after `acquireTemporary`; and
`freeRegister` returns such an index too. -/
theorem freeRegisterExcept_not_reserved (A : X86.Assembler.Interface) (c : Context)
    (except : Int) (allowAcquired : Bool) (i : Int)
    (h : freeRegisterExcept A c except allowAcquired = some i) :
    i ≠ except ∧ (c.registers i).reserved = false
    ∧ (∀ r, (c.registers r).reserved = true → i ≠ r)
    ∧ (∀ n s, c = Context.create A n s → i ≠ A.base ∧ i ≠ A.stack ∧ i ≠ A.thread)
    ∧ (∀ c0 r0 r, acquireTemporary A c0 r0 = some (c, r) → i ≠ r)
    ∧ (∀ j, freeRegister A c allowAcquired = some j → (c.registers j).reserved = false) := by
  obtain ⟨h1, h2, -, -⟩ := freeRegisterExcept_some A c except allowAcquired i h
  have key : ∀ r, (c.registers r).reserved = true → i ≠ r := by
    intro r hr hir
    rw [← hir, h2] at hr
    cases hr
  refine ⟨h1, h2, key, ?_, ?_, ?_⟩
  · intro n s hc
    subst hc
    refine ⟨key _ ?_, key _ ?_, key _ ?_⟩ <;> simp [Context.create]
  · intro c0 r0 r hr
    exact key r (acquireTemporary_reserved A c0 c r0 r hr)
  · intro j hj
    exact (freeRegisterExcept_some A c _ allowAcquired j hj).2.1

theorem freeRegisterExcept_not_reserved_witness :
    freeRegisterExcept (X86.directAssembler 8)
        { Context.create (X86.directAssembler 8) 0 0 with
          registers := fun i => ⟨if i = 7 then some 0 else none, none, 0, decide (3 ≤ i ∧ i ≤ 5) || decide (i = 8)⟩ }
        7 false = some 6
    ∧ (6 : Int) ≠ 7 := by
  refine ⟨by decide, ?_⟩
  exact (freeRegisterExcept_not_reserved (X86.directAssembler 8)
    { Context.create (X86.directAssembler 8) 0 0 with
      registers := fun i => ⟨if i = 7 then some 0 else none, none, 0, decide (3 ≤ i ∧ i ≤ 5) || decide (i = 8)⟩ }
    7 false 6 (by decide)).1

/-- The loop of `freeRegisterExcept` inspects the slots `registerCount()` down to 0: it returns
a slot without a value whenever one of these is free, a slot with a value only when none is
free and `allowAcquired` holds, and aborts exactly when none of these slots is free and
(`allowAcquired` is false or each of them is excluded or reserved). -/
theorem freeRegisterExcept_inspected (A : X86.Assembler.Interface) (c : Context) (except : Int)
    (allowAcquired : Bool) :
    ((∃ k : Nat, k ≤ A.registerCount ∧ (k : Int) ≠ except ∧ (c.registers k).reserved = false
        ∧ (c.registers k).value = none) →
      ∃ i, freeRegisterExcept A c except allowAcquired = some i ∧ (c.registers i).value = none)
    ∧ (∀ i, freeRegisterExcept A c except allowAcquired = some i → (c.registers i).value ≠ none →
        allowAcquired = true ∧ ∀ k : Nat, k ≤ A.registerCount → (k : Int) ≠ except →
          (c.registers k).reserved = false → (c.registers k).value ≠ none)
    ∧ (freeRegisterExcept A c except allowAcquired = none ↔
        (∀ k : Nat, k ≤ A.registerCount → (k : Int) ≠ except →
          (c.registers k).reserved = false → (c.registers k).value ≠ none)
        ∧ (allowAcquired = false ∨ ∀ k : Nat, k ≤ A.registerCount → (k : Int) ≠ except →
          (c.registers k).reserved = true)) := by
  have free_of_none : downFrom (fun i => decide (i ≠ except) && !(c.registers i).reserved
        && (c.registers i).value.isNone) A.registerCount = none →
      ∀ k : Nat, k ≤ A.registerCount → (k : Int) ≠ except →
          (c.registers k).reserved = false → (c.registers k).value ≠ none := by
    intro hn k hk hne hres hv
    have := downFrom_none _ _ hn k hk
    simp [hne, hres, hv] at this
  have free_of_some : ∀ j, downFrom (fun i => decide (i ≠ except) && !(c.registers i).reserved
        && (c.registers i).value.isNone) A.registerCount = some j → (c.registers j).value = none := by
    intro j hj
    have := (downFrom_some _ _ _ hj).1
    simp only [Bool.and_eq_true, Option.isNone_iff_eq_none] at this
    exact this.2
  refine ⟨?_, ?_, ?_⟩
  · rintro ⟨k, hk, hne, hres, hv⟩
    unfold freeRegisterExcept
    cases hd : downFrom (fun i => decide (i ≠ except) && !(c.registers i).reserved
        && (c.registers i).value.isNone) A.registerCount with
    | some j => exact ⟨j, rfl, free_of_some j hd⟩
    | none => exact absurd hv (free_of_none hd k hk hne hres)
  · intro i hi hv
    unfold freeRegisterExcept at hi
    cases hd : downFrom (fun i => decide (i ≠ except) && !(c.registers i).reserved
        && (c.registers i).value.isNone) A.registerCount with
    | some j =>
      rw [hd] at hi
      simp only [Option.some.injEq] at hi
      rw [← hi] at hv
      exact absurd (free_of_some j hd) hv
    | none =>
      rw [hd] at hi
      simp only at hi
      split_ifs at hi with ha
      exact ⟨ha, free_of_none hd⟩
  · unfold freeRegisterExcept
    cases hd : downFrom (fun i => decide (i ≠ except) && !(c.registers i).reserved
        && (c.registers i).value.isNone) A.registerCount with
    | some j =>
      simp only [false_iff, not_and, reduceCtorEq]
      intro hall
      have hj := downFrom_some _ _ _ hd
      simp only [Bool.and_eq_true, decide_eq_true_eq, Bool.not_eq_true',
        Option.isNone_iff_eq_none] at hj
      have hk : ((j.toNat : Nat) : Int) = j := Int.toNat_of_nonneg hj.2.1
      have hv := hall j.toNat (by omega) (by rw [hk]; exact hj.1.1.1) (by rw [hk]; exact hj.1.1.2)
      rw [hk] at hv
      exact fun _ => hv hj.1.2
    | none =>
      simp only
      cases allowAcquired with
      | false =>
        simp only [Bool.false_eq_true, if_false]
        exact ⟨fun _ => ⟨free_of_none hd, Or.inl trivial⟩, fun _ => trivial⟩
      | true =>
        simp only [if_true, Bool.true_eq_false, false_or]
        constructor
        · intro hn
          refine ⟨free_of_none hd, ?_⟩
          intro k hk hne
          have := downFrom_none _ _ hn k hk
          simpa [hne] using this
        · rintro ⟨-, hall⟩
          cases hd2 : downFrom (fun i => decide (i ≠ except) && !(c.registers i).reserved)
              A.registerCount with
          | none => rfl
          | some j =>
            have hj := downFrom_some _ _ _ hd2
            simp only [Bool.and_eq_true, decide_eq_true_eq, Bool.not_eq_true'] at hj
            have hk : ((j.toNat : Nat) : Int) = j := Int.toNat_of_nonneg hj.2.1
            have := hall j.toNat (by omega) (by rw [hk]; exact hj.1.1)
            rw [hk, hj.1.2] at this
            cases this

/-- C17 (failing input): on x86-64 (`registerCount()` is 8) with every register of the
table reserved (the base, stack and thread registers by the constructor, the other five as
temporaries) and zero bytes after the table, `freeRegisterExcept` returns 8, which is not a
register of the table, where it should abort. -/
theorem freeRegisterExcept_returns_past_table :
    ∃ c, withTemporaries (X86.directAssembler 8) (Context.create (X86.directAssembler 8) 0 0)
        [0, 1, 2, 6, 7] = some c
      ∧ (∀ r : Nat, r < (X86.directAssembler 8).registerCount → (c.registers r).reserved = true)
      ∧ freeRegisterExcept (X86.directAssembler 8) c X86.NoRegister false = some 8
      ∧ freeRegisterExcept (X86.directAssembler 8) c X86.NoRegister true = some 8 := by
  refine ⟨_, rfl, ?_, by decide, by decide⟩
  intro r hr
  have : r < 8 := hr
  interval_cases r <;> decide


/-! ## The register table and the site lists -/

/-- C18 (failing input): on a 32-bit target the pair site (`rax`, `rdx`) is added to the
value `0`, then the site `rax` to the value `1`.  The invariant holds at the start and after the
first `addSite`; after the second, `rdx` still records the value `0` and the pair site, which is
no longer in the site list of the value `0`. -/
theorem addSite_pair_breaks_register_invariant :
    registerInvariant (X86.directAssembler 4) pairAndSingle = true
    ∧ ∃ c1 c2, addSite (X86.directAssembler 4) 4 pairAndSingle none 8 0 0 = some c1
      ∧ registerInvariant (X86.directAssembler 4) c1 = true
      ∧ addSite (X86.directAssembler 4) 4 c1 none 4 1 1 = some c2
      ∧ registerInvariant (X86.directAssembler 4) c2 = false
      ∧ (c2.registers X86.rdx).value = some 0
      ∧ (c2.registers X86.rdx).site = some 0
      ∧ c2.sitesOf 0 = [] := by
  refine ⟨by decide, _, _, rfl, by decide, rfl, by decide, by decide, by decide, by decide⟩

/-! ## The order of reads -/

/-- C19 (failing input): after a compare of a value with itself the event lists the second
read first, while the first read heads the reads of the value; processing the second read
advances the reads of the value past the first read, and the second read, just processed,
becomes the head. -/
theorem compare_with_itself_retires_other_read :
    ∃ c e c1, compareWithItself = some c
      ∧ c.events.get? 0 = some e
      ∧ e.reads = [1, 0]
      ∧ (c.values.get? 0).map (fun v => v.reads) = some (some 0)
      ∧ (c.reads.get? 0).map (fun r => r.next) = some (some 1)
      ∧ processRead (X86.directAssembler 8) 8 c e 1 = some c1
      ∧ (c1.values.get? 0).map (fun v => v.reads) = some (some 1) := by
  refine ⟨_, _, _, rfl, rfl, by decide, by decide, by decide, rfl, by decide⟩

/-! ## Machine offsets of logical instructions -/

/-- C13 (failing input): logical IP 0 has two return events.  Emission of the first begins
at code length 4, after the prologue, and that of the second at 9; `compile` records 9 for the
logical IP, and after `writeTo(4096)` the promise of `machineIp(0)` has value 4096 + 9. -/
theorem machineOffset_is_of_last_event :
    ∃ c c0 c1 c2, twoReturns = some c
      ∧ (c.events.map (fun e => e.logicalIp) = [0, 0])
      ∧ compileUpTo (X86.directAssembler 8) 8 c 0 = some c0
      ∧ c0.assembler.code.length = 4
      ∧ compileUpTo (X86.directAssembler 8) 8 c 1 = some c1
      ∧ c1.assembler.code.length = 9
      ∧ compile (X86.directAssembler 8) 8 c = some c2
      ∧ c2.logicalCode.map (fun li => li.machineOffset) = [9]
      ∧ (machineIp 0).value 8
          (X86.Context.view (writeTo 8 c2 4096 (fun _ => 0)).1.assembler
            (writeTo 8 c2 4096 (fun _ => 0)).1.side) = some (4096 + 9) := by
  refine ⟨_, _, _, _, rfl, by decide, rfl, by decide, rfl, by decide, rfl, by decide, by decide⟩

/-! ## Emission leaves the bookkeeping alone -/

theorem applyUnary_book (A : X86.Assembler.Interface) (c c1 : Context)
    (op : X86.Assembler.UnaryOperation) (size : Nat) (a : Option SiteRef)
    (h : applyUnary A c op size a = some c1) : c1.book = c.book := by
  unfold applyUnary at h
  repeat' split at h
  all_goals first
    | cases h
    | (simp only [Option.map_eq_some'] at h; obtain ⟨_, _, rfl⟩ := h; rfl)

theorem applyBinary_book (A : X86.Assembler.Interface) (c c1 : Context)
    (op : X86.Assembler.BinaryOperation) (size : Nat) (a b : Option SiteRef)
    (h : applyBinary A c op size a b = some c1) : c1.book = c.book := by
  unfold applyBinary at h
  repeat' split at h
  all_goals first
    | cases h
    | (simp only [Option.map_eq_some'] at h; obtain ⟨_, _, rfl⟩ := h; rfl)

theorem emit_book (c c1 : Context) (f : X86.Context → Option X86.Context)
    (h : c.emit f = some c1) : c1.book = c.book := by
  unfold Context.emit at h
  simp only [Option.map_eq_some'] at h
  obtain ⟨_, _, rfl⟩ := h
  rfl

theorem syncFrame_book (A : X86.Assembler.Interface) (BytesPerWord : Nat) (c c1 : Context)
    (s : Nat) (h : syncFrame A BytesPerWord c s = some c1) : c1.book = c.book := by
  unfold syncFrame at h
  split at h
  · cases h
  · simp only [Option.map_eq_some'] at h
    obtain ⟨c2, h2, rfl⟩ := h
    show c2.book = c.book
    split at h2
    · split at h2
      · cases h2
      · split at h2
        · cases h2
        · split at h2
          · cases h2
          · rename_i c3 h3
            simp only [newSite, Option.some.injEq] at h2
            subst h2
            have := applyUnary_book _ _ _ _ _ _ h3
            exact this
    · simp only [Option.map_eq_some'] at h2
      obtain ⟨_, _, rfl⟩ := h2
      rfl

theorem syncFrames_book (A : X86.Assembler.Interface) (BytesPerWord : Nat) (l : List Nat)
    (c c1 : Context) (h : syncFrames A BytesPerWord c l = some c1) : c1.book = c.book := by
  induction l generalizing c with
  | nil =>
    simp only [syncFrames, Option.some.injEq] at h
    subst h
    rfl
  | cons s rest ih =>
    simp only [syncFrames] at h
    split at h
    · cases h
    · rename_i c2 h2
      exact (ih c2 h).trans (syncFrame_book _ _ _ _ _ h2)

theorem syncStack_book (A : X86.Assembler.Interface) (BytesPerWord : Nat) (c c1 : Context)
    (start : StackRef) (count : Nat) (h : syncStack A BytesPerWord c start count = some c1) :
    c1.book = c.book := by
  unfold syncStack at h
  split_ifs at h
  exact syncFrames_book _ _ _ _ _ h

theorem unlinkSite_book (c : Context) (r : Int) (old : ValueRef) (fuel : Nat)
    (previous current : Option SiteRef) :
    (unlinkSite c r old fuel previous current).book = c.book := by
  induction fuel generalizing previous current with
  | zero => cases current <;> rfl
  | succ n ih =>
    cases current with
    | none => rfl
    | some s =>
      simp only [unlinkSite]
      split_ifs
      · cases previous <;> rfl
      · exact ih _ _

theorem acquire_book (A : X86.Assembler.Interface) (BytesPerWord : Nat) (c c1 : Context) (r : Int)
    (stack : StackRef) (newSize : Nat) (newValue : ValueRef) (newSite : SiteRef)
    (h : acquire A BytesPerWord c r stack newSize newValue newSite = some c1) :
    c1.book = c.book := by
  unfold acquire at h
  simp only [Option.map_eq_some'] at h
  obtain ⟨c2, h2, rfl⟩ := h
  show c2.book = c.book
  split at h2
  · simp only [Option.some.injEq] at h2
    subst h2
    rfl
  · split at h2
    · cases h2
    · split at h2
      · cases h2
      · split at h2
        · cases h2
        · rename_i c3 h3
          split at h2
          · cases h2
          · simp only [Option.some.injEq] at h2
            subst h2
            rw [unlinkSite_book]
            split_ifs at h3
            · exact syncStack_book _ _ _ _ _ _ h3
            · simp only [Option.some.injEq] at h3
              subst h3
              rfl

theorem siteAcquire_book (A : X86.Assembler.Interface) (BytesPerWord : Nat) (c c1 : Context)
    (stack : StackRef) (size : Nat) (v : ValueRef) (s : SiteRef)
    (h : siteAcquire A BytesPerWord c stack size v s = some c1) : c1.book = c.book := by
  unfold siteAcquire at h
  split at h
  · cases h
  · split at h
    · split at h
      · cases h
      · rename_i c2 h2
        split_ifs at h
        · exact (acquire_book _ _ _ _ _ _ _ _ _ h).trans (acquire_book _ _ _ _ _ _ _ _ _ h2)
        · simp only [Option.some.injEq] at h
          subst h
          exact acquire_book _ _ _ _ _ _ _ _ _ h2
    · simp only [Option.some.injEq] at h
      subst h
      rfl

theorem addSite_book (A : X86.Assembler.Interface) (BytesPerWord : Nat) (c c1 : Context)
    (stack : StackRef) (size : Nat) (v : ValueRef) (s : SiteRef)
    (h : addSite A BytesPerWord c stack size v s = some c1) : c1.book = c.book := by
  unfold addSite at h
  split at h
  · cases h
  · rename_i c2 h2
    split at h
    · cases h
    · simp only [Option.some.injEq] at h
      subst h
      have := siteAcquire_book _ _ _ _ _ _ _ _ h2
      exact this

theorem freeRegisterSite_book (A : X86.Assembler.Interface) (BytesPerWord : Nat) (c c1 : Context)
    (size : Nat) (allowAcquired : Bool) (s : SiteRef)
    (h : freeRegisterSite A BytesPerWord c size allowAcquired = some (c1, s)) :
    c1.book = c.book := by
  unfold freeRegisterSite at h
  split_ifs at h
  · split at h
    · cases h
    · split at h
      · cases h
      · simp only [newSite, Option.some.injEq, Prod.mk.injEq] at h
        obtain ⟨rfl, _⟩ := h
        rfl
  · split at h
    · cases h
    · simp only [newSite, Option.some.injEq, Prod.mk.injEq] at h
      obtain ⟨rfl, _⟩ := h
      rfl

theorem target_book (A : X86.Assembler.Interface) (BytesPerWord : Nat) (c c1 : Context)
    (size : Nat) (value : ValueRef) (s : SiteRef)
    (h : target A BytesPerWord c size value = some (c1, s)) : c1.book = c.book := by
  unfold target at h
  repeat' split at h
  all_goals first
    | exact freeRegisterSite_book _ _ _ _ _ _ _ h
    | (cases h <;> rfl)

theorem accept_book (A : X86.Assembler.Interface) (c c1 : Context) (this : SiteRef) (size : Nat)
    (src : Option SiteRef) (h : accept A c this size src = some c1) : c1.book = c.book := by
  unfold accept at h
  repeat' split at h
  all_goals first
    | cases h
    | exact applyUnary_book _ _ _ _ _ _ h
    | exact applyBinary_book _ _ _ _ _ _ _ h

theorem unwind_book (A : X86.Assembler.Interface) (BytesPerWord : Nat) (stackTop : StackRef)
    (value : ValueRef) (stackOf : Nat) (fuel : Nat) (c c1 : Context) (s : StackRef)
    (t site t1 site1 : Option SiteRef) (cost cost1 : Nat)
    (h : unwind A BytesPerWord stackTop value stackOf fuel c s t site cost
      = some (c1, t1, site1, cost1)) : c1.book = c.book := by
  induction fuel generalizing c s t site cost with
  | zero =>
    cases s with
    | none =>
      simp only [unwind, Option.some.injEq, Prod.mk.injEq] at h
      obtain ⟨rfl, _⟩ := h
      rfl
    | some s => simp [unwind] at h
  | succ n ih =>
    cases s with
    | none =>
      simp only [unwind, Option.some.injEq, Prod.mk.injEq] at h
      obtain ⟨rfl, _⟩ := h
      rfl
    | some s =>
      simp only [unwind] at h
      split at h
      · cases h
      · split_ifs at h with hp hs
        · split at h
          · cases h
          · split at h
            · cases h
            · rename_i c2 t2 h2
              split at h
              · cases h
              · rename_i c3 h3
                split at h
                · cases h
                · split at h
                  · cases h
                  · simp only [Option.some.injEq, Prod.mk.injEq] at h
                    obtain ⟨rfl, _⟩ := h
                    exact (addSite_book _ _ _ _ _ _ _ _ h3).trans (target_book _ _ _ _ _ _ _ h2)
        · split at h
          · cases h
          · split at h
            · cases h
            · rename_i c2 t2 h2
              split at h
              · cases h
              · rename_i c3 h3
                have := ih _ _ _ _ _ h
                exact this.trans ((addSite_book _ _ _ _ _ _ _ _ h3).trans
                  (target_book _ _ _ _ _ _ _ h2))
        · exact ih _ _ _ _ _ h


theorem chooseSite_book (A : X86.Assembler.Interface) (BytesPerWord : Nat) (c c1 : Context)
    (e : Event) (read : Read) (target t1 site1 : Option SiteRef) (cost1 : Nat)
    (h : chooseSite A BytesPerWord c e read target = some (c1, t1, site1, cost1)) :
    c1.book = c.book := by
  unfold chooseSite at h
  repeat' split at h
  all_goals first
    | exact unwind_book _ _ _ _ _ _ _ _ _ _ _ _ _ _ _ h
    | (cases h <;> rfl)

theorem supplySource_book (A : X86.Assembler.Interface) (BytesPerWord : Nat) (c c1 : Context)
    (e : Event) (read : Read) (target site : Option SiteRef) (copyCost : Nat)
    (h : supplySource A BytesPerWord c e read target site copyCost = some c1) :
    c1.book = c.book := by
  unfold supplySource at h
  split at h
  · simp only [Option.map_eq_some'] at h
    obtain ⟨c4, h4, rfl⟩ := h
    show c4.book = c.book
    split_ifs at h4
    · split at h4
      · cases h4
      · rename_i c5 h5
        exact (accept_book _ _ _ _ _ _ h4).trans (addSite_book _ _ _ _ _ _ _ _ h5)
    · simp only [Option.some.injEq] at h4
      subst h4
      rfl
  · simp only [Option.some.injEq] at h
    subst h
    rfl

theorem retireRead_book (c c1 : Context) (value : ValueRef) (h : retireRead c value = some c1) :
    c1.book = c.book := by
  unfold retireRead at h
  repeat' split at h
  all_goals (cases h <;> rfl)

theorem processRead_book (A : X86.Assembler.Interface) (BytesPerWord : Nat) (c c1 : Context)
    (e : Event) (r : ReadRef) (h : processRead A BytesPerWord c e r = some c1) :
    c1.book = c.book := by
  unfold processRead at h
  split at h
  · cases h
  · split at h
    · cases h
    · split at h
      · cases h
      · rename_i c2 t2 site2 cost2 h2
        split at h
        · cases h
        · rename_i c3 h3
          exact (retireRead_book _ _ _ h).trans
            ((supplySource_book _ _ _ _ _ _ _ _ _ h3).trans (chooseSite_book _ _ _ _ _ _ _ _ _ _ h2))

theorem processReads_book (A : X86.Assembler.Interface) (BytesPerWord : Nat) (e : Event)
    (l : List ReadRef) (c c1 : Context) (h : processReads A BytesPerWord e c l = some c1) :
    c1.book = c.book := by
  induction l generalizing c with
  | nil =>
    simp only [processReads, Option.some.injEq] at h
    subst h
    rfl
  | cons r rest ih =>
    simp only [processReads] at h
    split at h
    · cases h
    · rename_i c2 h2
      exact (ih c2 h).trans (processRead_book _ _ _ _ _ _ h2)

theorem processWrites_book (A : X86.Assembler.Interface) (BytesPerWord : Nat) (e : Event)
    (l : List Write) (c c1 : Context) (h : processWrites A BytesPerWord e c l = some c1) :
    c1.book = c.book := by
  induction l generalizing c with
  | nil =>
    simp only [processWrites, Option.some.injEq] at h
    subst h
    rfl
  | cons w rest ih =>
    simp only [processWrites] at h
    split at h
    · cases h
    · rename_i c2 t h2
      split at h
      · cases h
      · rename_i c3 h3
        have h4 := addSite_book _ _ _ _ _ _ _ _ h3
        have h5 : c2.book = c.book := target_book _ _ _ _ _ _ _ h2
        exact (ih c3 h).trans (h4.trans h5)

/-- The virtual method `Event::compile` leaves the logical instructions and the events alone,
and the offsets of the code promises there are; it may add the offset of a new promise. -/
theorem Event.compile_book (A : X86.Assembler.Interface) (BytesPerWord : Nat) (c c1 : Context)
    (kind : EventKind) (h : Event.compile A BytesPerWord c kind = some c1) :
    c1.logicalCode = c.logicalCode ∧ c1.events = c.events
      ∧ ∃ extra, c1.codeOffsets = c.codeOffsets ++ extra := by
  have of_book : ∀ c2 : Context, c2.book = c.book →
      c2.logicalCode = c.logicalCode ∧ c2.events = c.events
        ∧ ∃ extra, c2.codeOffsets = c.codeOffsets ++ extra := by
    intro c2 h2
    simp only [Context.book, Prod.mk.injEq] at h2
    exact ⟨h2.1, h2.2.2, [], by simp [h2.2.1]⟩
  cases kind with
  | push => simp only [Event.compile, Option.some.injEq] at h; subst h; exact of_book _ rfl
  | pop _ _ => simp only [Event.compile, Option.some.injEq] at h; subst h; exact of_book _ rfl
  | memory _ _ _ => simp only [Event.compile, Option.some.injEq] at h; subst h; exact of_book _ rfl
  | move type size src dst => exact of_book _ (applyBinary_book _ _ _ _ _ _ _ h)
  | compare size first second => exact of_book _ (applyBinary_book _ _ _ _ _ _ _ h)
  | combine type size first second result => exact of_book _ (applyBinary_book _ _ _ _ _ _ _ h)
  | branch type address => exact of_book _ (applyUnary_book _ _ _ _ _ _ h)
  | translate type size value result => exact of_book _ (applyUnary_book _ _ _ _ _ _ h)
  | return_ value =>
    simp only [Event.compile] at h
    split at h
    · cases h
    · rename_i c2 h2
      split at h
      · cases h
      · rename_i c3 h3
        exact of_book _ ((emit_book _ _ _ h).trans ((emit_book _ _ _ h3).trans (emit_book _ _ _ h2)))
  | call address indirection flags traceHandler result =>
    simp only [Event.compile, Option.map_eq_some'] at h
    obtain ⟨c2, h2, rfl⟩ := h
    have hb : c2.book = c.book := by
      split_ifs at h2
      all_goals exact (applyUnary_book _ _ _ _ _ _ h2).trans rfl
    simp only [Context.book, Prod.mk.injEq] at hb
    split_ifs
    · exact ⟨hb.1, hb.2.2, [wrapSigned 32 (c2.assembler.code.length : Int)], by simp [hb.2.1]⟩
    · exact ⟨hb.1, hb.2.2, [], by simp [hb.2.1]⟩

/-! ## Offsets of code promises -/

theorem setOffsets_length (n : Nat) (ps : List Nat) (offsets : List Int) :
    (setOffsets n offsets ps).length = offsets.length := by
  induction ps generalizing offsets with
  | nil => rfl
  | cons p rest ih => simp [setOffsets, ih]

theorem setOffsets_getD_of_not_mem (n : Nat) (ps : List Nat) (offsets : List Int) (p : Nat)
    (d : Int) (h : p ∉ ps) : (setOffsets n offsets ps).getD p d = offsets.getD p d := by
  induction ps generalizing offsets with
  | nil => rfl
  | cons q rest ih =>
    simp only [List.mem_cons, not_or] at h
    simp only [setOffsets]
    rw [ih _ h.2]
    simp only [List.getD_eq_getElem?_getD]
    rw [List.getElem?_set_ne (Ne.symm h.1)]

theorem setOffsets_getD_of_mem (n : Nat) (ps : List Nat) (offsets : List Int) (p : Nat)
    (d : Int) (h : p ∈ ps) (hp : p < offsets.length) :
    (setOffsets n offsets ps).getD p d = wrapSigned 32 (n : Int) := by
  induction ps generalizing offsets with
  | nil => cases h
  | cons q rest ih =>
    simp only [setOffsets]
    by_cases hr : p ∈ rest
    · exact ih _ hr (by simpa using hp)
    · rw [setOffsets_getD_of_not_mem _ _ _ _ _ hr]
      have hq : p = q := by
        rcases List.mem_cons.mp h with h1 | h1
        · exact h1
        · exact absurd h1 hr
      subst hq
      simp only [List.getD_eq_getElem?_getD]
      rw [List.getElem?_set_eq_of_lt _ hp, Option.getD_some]

/-- One turn of the loop of `compile`: the logical instruction of the event records the code
length at the start of the turn, the promises of the event get the code length at its end,
converted to `int`, and the offsets of the other promises are kept. -/
theorem compileEvent_spec (A : X86.Assembler.Interface) (BytesPerWord : Nat) (c c1 : Context)
    (e : Event) (h : compileEvent A BytesPerWord c e = some c1) :
    c1.events = c.events
    ∧ c1.logicalCode = c.logicalCode.modify
        (fun li => { li with machineOffset := c.assembler.code.length }) e.logicalIp.toNat
    ∧ c.codeOffsets.length ≤ c1.codeOffsets.length
    ∧ (∀ p, p ∈ e.promises → p < c.codeOffsets.length →
        c1.codeOffsets.getD p (-1) = wrapSigned 32 (c1.assembler.code.length : Int))
    ∧ (∀ p, p ∉ e.promises → p < c.codeOffsets.length →
        c1.codeOffsets.getD p (-1) = c.codeOffsets.getD p (-1)) := by
  unfold compileEvent at h
  simp only at h
  split at h
  · cases h
  · rename_i c2 h2
    split at h
    · cases h
    · rename_i c3 h3
      split at h
      · cases h
      · rename_i c4 h4
        simp only [Option.some.injEq] at h
        subst h
        have b2 := processReads_book _ _ _ _ _ _ h2
        have b3 := processWrites_book _ _ _ _ _ _ h3
        obtain ⟨l4, e4, extra, o4⟩ := Event.compile_book _ _ _ _ _ h4
        simp only [Context.book, Prod.mk.injEq] at b2 b3
        have ho : c4.codeOffsets = c.codeOffsets ++ extra := by rw [o4, b3.2.1, b2.2.1]
        refine ⟨?_, ?_, ?_, ?_, ?_⟩
        · show c4.events = c.events
          rw [e4, b3.2.2, b2.2.2]
        · show c4.logicalCode = _
          rw [l4, b3.1, b2.1]
        · show c.codeOffsets.length ≤ (setOffsets _ c4.codeOffsets e.promises).length
          rw [setOffsets_length, ho]
          simp
        · intro p hp hlt
          show (setOffsets _ c4.codeOffsets e.promises).getD p (-1) = _
          exact setOffsets_getD_of_mem _ _ _ _ _ hp (by rw [ho]; simp; omega)
        · intro p hp hlt
          show (setOffsets _ c4.codeOffsets e.promises).getD p (-1) = _
          rw [setOffsets_getD_of_not_mem _ _ _ _ _ hp, ho]
          simp only [List.getD_eq_getElem?_getD]
          rw [List.getElem?_append_left hlt]

theorem compileEvents_append (A : X86.Assembler.Interface) (BytesPerWord : Nat)
    (l1 l2 : List Event) (c : Context) :
    compileEvents A BytesPerWord c (l1 ++ l2)
      = (compileEvents A BytesPerWord c l1).bind (fun c1 => compileEvents A BytesPerWord c1 l2) := by
  induction l1 generalizing c with
  | nil => rfl
  | cons e rest ih =>
    simp only [List.cons_append, compileEvents]
    cases compileEvent A BytesPerWord c e with
    | none => rfl
    | some c1 => exact ih c1

theorem compileEvents_keeps (A : X86.Assembler.Interface) (BytesPerWord : Nat) (l : List Event)
    (c c1 : Context) (h : compileEvents A BytesPerWord c l = some c1) :
    c1.events = c.events ∧ c.codeOffsets.length ≤ c1.codeOffsets.length
    ∧ ∀ p, (∀ e ∈ l, p ∉ e.promises) → p < c.codeOffsets.length →
        c1.codeOffsets.getD p (-1) = c.codeOffsets.getD p (-1) := by
  induction l generalizing c with
  | nil =>
    simp only [compileEvents, Option.some.injEq] at h
    subst h
    exact ⟨rfl, le_refl _, fun _ _ _ => rfl⟩
  | cons e rest ih =>
    simp only [compileEvents] at h
    split at h
    · cases h
    · rename_i c2 h2
      obtain ⟨e2, -, l2, -, k2⟩ := compileEvent_spec _ _ _ _ _ h2
      obtain ⟨e3, l3, k3⟩ := ih c2 h
      refine ⟨e3.trans e2, le_trans l2 l3, ?_⟩
      intro p hp hlt
      rw [k3 p (fun e1 he1 => hp e1 (List.mem_cons_of_mem _ he1)) (by omega),
        k2 p (hp e (List.mem_cons_self _ _)) hlt]

theorem prologue_book (A : X86.Assembler.Interface) (BytesPerWord : Nat) (c c1 : Context)
    (h : prologue A BytesPerWord c = some c1) : c1.book = c.book := by
  unfold prologue at h
  split at h
  · cases h
  · rename_i c2 h2
    split at h
    · cases h
    · rename_i c3 h3
      split_ifs at h
      · exact (emit_book _ _ _ h).trans ((emit_book _ _ _ h3).trans (emit_book _ _ _ h2))
      · simp only [Option.some.injEq] at h
        subst h
        exact (emit_book _ _ _ h3).trans (emit_book _ _ _ h2)


theorem compileEvents_singleton (A : X86.Assembler.Interface) (BytesPerWord : Nat) (c : Context)
    (e : Event) : compileEvents A BytesPerWord c [e] = compileEvent A BytesPerWord c e := by
  simp only [compileEvents]
  cases compileEvent A BytesPerWord c e <;> rfl

/-- The logical instruction of an event records the code length at which the emission of that
event starts, whether or not an earlier event of the same logical IP recorded its own. -/
theorem compileEvent_machineOffset (A : X86.Assembler.Interface) (BytesPerWord : Nat)
    (c c1 : Context) (e : Event) (h : compileEvent A BytesPerWord c e = some c1)
    (li : LogicalInstruction) (hli : c.logicalCode.get? e.logicalIp.toNat = some li) :
    (c1.logicalCode.get? e.logicalIp.toNat).map (fun x => x.machineOffset)
      = some c.assembler.code.length := by
  rw [(compileEvent_spec A BytesPerWord c c1 e h).2.1]
  rw [List.get?_eq_getElem?] at hli
  simp [List.getElem?_modify, hli]

theorem promises_disjoint (events : List Event) (k : Nat) (e : Event)
    (hk : events.get? k = some e) (p : Nat) (hp : p ∈ e.promises)
    (hn : (events.map (fun e => e.promises)).flatten.Nodup) :
    ∀ e1 ∈ events.drop (k + 1), p ∉ e1.promises := by
  intro e1 he1 hp1
  rw [← List.take_append_drop (k + 1) events, List.map_append, List.flatten_append,
    List.nodup_append] at hn
  have hmem : e ∈ events.take (k + 1) := by
    rw [List.get?_eq_getElem?] at hk
    rw [List.mem_take_iff_getElem]
    obtain ⟨hlt, hget⟩ := List.getElem?_eq_some_iff.mp hk
    exact ⟨k, by simp; omega, hget⟩
  have h1 : p ∈ ((events.take (k + 1)).map (fun e => e.promises)).flatten :=
    List.mem_flatten.mpr ⟨e.promises, List.mem_map.mpr ⟨e, hmem, rfl⟩, hp⟩
  have h2 : p ∈ ((events.drop (k + 1)).map (fun e => e.promises)).flatten :=
    List.mem_flatten.mpr ⟨e1.promises, List.mem_map.mpr ⟨e1, he1, rfl⟩, hp1⟩
  exact hn.2.2 h1 h2

/-- The code of `compile` for `returnAfterCode`: the prologue and the return are appended to
the bytes the assembler held, and the promise of the return gets the code length as an `int`. -/
theorem returnAfterCode_run (code : List Nat) :
    (compile (X86.directAssembler 8) 8 (returnAfterCode code)).map
        (fun c => (c.assembler.code, c.codeOffsets))
      = some (code ++ [0x55] ++ [0x48] ++ [0x89] ++ [0xe5] ++ [0x48] ++ [0x89] ++ [0xec]
            ++ [0x5d] ++ [0xc3],
          [wrapSigned 32 ((code ++ [0x55] ++ [0x48] ++ [0x89] ++ [0xe5] ++ [0x48] ++ [0x89]
            ++ [0xec] ++ [0x5d] ++ [0xc3]).length : Int)]) := by
  rfl

theorem returnAfterCode_promises (code : List Nat) :
    (returnAfterCode code).events.map (fun e => e.promises) = [[0]] := by
  rfl

theorem returnAfterCode_offset (code : List Nat) :
    ∃ c1, compile (X86.directAssembler 8) 8 (returnAfterCode code) = some c1
      ∧ c1.assembler.code.length = code.length + 9
      ∧ c1.codeOffsets.getD 0 (-1) = wrapSigned 32 ((code.length + 9 : Nat) : Int) := by
  obtain ⟨c1, h1, h2⟩ := Option.map_eq_some'.mp (returnAfterCode_run code)
  have hlen : (code ++ [0x55] ++ [0x48] ++ [0x89] ++ [0xe5] ++ [0x48] ++ [0x89] ++ [0xec]
      ++ [0x5d] ++ [0xc3]).length = code.length + 9 := by
    simp only [List.length_append, List.length_singleton]
  rw [hlen] at h2
  refine ⟨c1, h1, ?_, ?_⟩
  · rw [(Prod.mk.inj h2).1]
    exact hlen
  · rw [(Prod.mk.inj h2).2, List.getD_cons_zero]

/-- C14 (counterexample): on x86-64, when the assembler holds 2^31 - 9 bytes and a return with
a code promise is compiled, the code is 2^31 bytes long after the return, and the offset of the
promise is -2^31: it is not the code length and it is negative, and after `writeTo(dst)` the
promise is not resolved and has no value. -/
theorem compile_offset_negative_from_2GiB :
    ∃ c1, compile (X86.directAssembler 8) 8 (returnAfterCode (List.replicate 2147483639 0x90))
        = some c1
      ∧ (returnAfterCode (List.replicate 2147483639 0x90)).events.map (fun e => e.promises)
          = [[0]]
      ∧ c1.assembler.code.length = 2 ^ 31
      ∧ c1.codeOffsets.getD 0 (-1) = -2 ^ 31
      ∧ ∀ (dst : Int) (m : RawMemory),
          (Promise.code 0).isResolved
              (X86.Context.view (writeTo 8 c1 dst m).1.assembler (writeTo 8 c1 dst m).1.side)
            = false
          ∧ (Promise.code 0).value 8
              (X86.Context.view (writeTo 8 c1 dst m).1.assembler (writeTo 8 c1 dst m).1.side)
            = none := by
  obtain ⟨c1, h1, h2, h3⟩ := returnAfterCode_offset (List.replicate 2147483639 0x90)
  rw [List.length_replicate] at h2 h3
  have hoff : c1.codeOffsets.getD 0 (-1) = -2 ^ 31 := by
    rw [h3]
    decide
  refine ⟨c1, h1, returnAfterCode_promises _, by rw [h2]; norm_num, hoff, ?_⟩
  intro dst m
  rw [writeTo_unfold]
  have hres : (Promise.code 0).isResolved
      (X86.Context.view (c1.supplied dst).assembler (c1.supplied dst).side) = false := by
    simp only [Promise.isResolved, X86.Context.view, Context.side, Context.supplied, hoff]
    simp
  refine ⟨hres, ?_⟩
  unfold Promise.value
  rw [hres]
  rfl

/-- C14: after `compile`, a code promise attached to the event `k` has as offset the code
length right after the code of that event was emitted, converted to `int`; when that length is
below 2^31 the offset is the length itself, which is not negative, and after a following
`writeTo(dst)` with `dst` not null the promise is resolved and its value is `dst` plus that
offset. -/
theorem compile_sets_promise_offsets (A : X86.Assembler.Interface) (BytesPerWord : Nat)
    (c c1 : Context) (hl : c.promisesLinked) (h : compile A BytesPerWord c = some c1)
    (k : Nat) (e : Event) (hk : c.events.get? k = some e) (p : Nat) (hp : p ∈ e.promises) :
    ∃ ck, compileUpTo A BytesPerWord c (k + 1) = some ck
      ∧ c1.codeOffsets.getD p (-1) = wrapSigned 32 (ck.assembler.code.length : Int)
      ∧ (ck.assembler.code.length < 2 ^ 31 →
          c1.codeOffsets.getD p (-1) = ck.assembler.code.length
          ∧ 0 ≤ c1.codeOffsets.getD p (-1)
          ∧ ∀ (dst : Int) (m : RawMemory), dst ≠ 0 →
              (Promise.code p).isResolved
                  (X86.Context.view (writeTo BytesPerWord c1 dst m).1.assembler
                    (writeTo BytesPerWord c1 dst m).1.side) = true
              ∧ (Promise.code p).value BytesPerWord
                  (X86.Context.view (writeTo BytesPerWord c1 dst m).1.assembler
                    (writeTo BytesPerWord c1 dst m).1.side)
                = some (wrapSigned (8 * BytesPerWord) (dst + ck.assembler.code.length))) := by
  unfold compile compileUpTo at h
  cases hpro : prologue A BytesPerWord c with
  | none => simp [hpro] at h
  | some c0 =>
    rw [hpro] at h
    simp only at h
    have hb := prologue_book A BytesPerWord c c0 hpro
    simp only [Context.book, Prod.mk.injEq] at hb
    have hklt : k < c.events.length := by
      rw [List.get?_eq_getElem?] at hk
      exact (List.getElem?_eq_some_iff.mp hk).1
    have htake : c.events.take (k + 1) = c.events.take k ++ [e] := by
      rw [List.get?_eq_getElem?] at hk
      rw [List.take_succ, hk]
      rfl
    have hsplit : c.events.take c.events.length
        = (c.events.take k ++ [e]) ++ c.events.drop (k + 1) := by
      rw [← htake, List.take_length, List.take_append_drop]
    rw [hsplit, compileEvents_append, compileEvents_append] at h
    cases ha : compileEvents A BytesPerWord c0 (c.events.take k) with
    | none => simp [ha] at h
    | some ca =>
      rw [ha] at h
      simp only [Option.some_bind, compileEvents_singleton] at h
      cases hck : compileEvent A BytesPerWord ca e with
      | none => simp [hck] at h
      | some ck =>
        rw [hck] at h
        simp only [Option.some_bind] at h
        have hplt : p < c.codeOffsets.length :=
          hl.2 p (List.mem_flatten.mpr ⟨e.promises,
            List.mem_map.mpr ⟨e, List.mem_iff_get?.mpr ⟨k, hk⟩, rfl⟩, hp⟩)
        obtain ⟨-, hla, -⟩ := compileEvents_keeps A BytesPerWord _ c0 ca ha
        obtain ⟨-, -, hlk, hset, -⟩ := compileEvent_spec A BytesPerWord ca ck e hck
        obtain ⟨-, -, hkeep⟩ := compileEvents_keeps A BytesPerWord _ ck c1 h
        have hpa : p < ca.codeOffsets.length := by
          rw [hb.2.1] at hla
          omega
        have hwrap : c1.codeOffsets.getD p (-1)
            = wrapSigned 32 (ck.assembler.code.length : Int) := by
          rw [hkeep p (promises_disjoint c.events k e hk p hp hl.1) (by omega)]
          exact hset p hp hpa
        refine ⟨ck, ?_, hwrap, ?_⟩
        · unfold compileUpTo
          rw [hpro]
          simp only
          rw [htake, compileEvents_append, ha]
          simp only [Option.some_bind, compileEvents_singleton]
          exact hck
        · intro hlt
          have hoff : c1.codeOffsets.getD p (-1) = ck.assembler.code.length := by
            rw [hwrap]
            apply wrapSigned_32_of_fits
            refine ⟨?_, ?_⟩
            · exact le_trans (by norm_num) (Int.ofNat_nonneg ck.assembler.code.length)
            · exact_mod_cast hlt
          refine ⟨hoff, ?_, ?_⟩
          · rw [hoff]
            exact Int.ofNat_nonneg _
          · intro dst m hdst
            rw [writeTo_unfold]
            have hres : (Promise.code p).isResolved
                (X86.Context.view (c1.supplied dst).assembler (c1.supplied dst).side)
                  = true := by
              simp only [Promise.isResolved, X86.Context.view, Context.side, Context.supplied,
                Bool.and_eq_true, bne_iff_ne, ne_eq, decide_eq_true_eq]
              refine ⟨hdst, ?_⟩
              rw [hoff]
              exact Int.ofNat_nonneg _
            refine ⟨hres, ?_⟩
            unfold Promise.value
            rw [if_pos hres]
            simp only [X86.Context.view, Context.side, Context.supplied]
            rw [hoff]

theorem compile_sets_promise_offsets_witness :
    ∃ c1 ck, compile (X86.directAssembler 8) 8 returnWithPromise = some c1
      ∧ compileUpTo (X86.directAssembler 8) 8 returnWithPromise 1 = some ck
      ∧ ck.assembler.code.length = 9
      ∧ c1.codeOffsets.getD 0 (-1) = wrapSigned 32 (ck.assembler.code.length : Int)
      ∧ c1.codeOffsets.getD 0 (-1) = ck.assembler.code.length
      ∧ c1.codeOffsets.getD 0 (-1) = 9 := by
  have hs : (compile (X86.directAssembler 8) 8 returnWithPromise).isSome = true := by decide
  obtain ⟨c1, h⟩ := Option.isSome_iff_exists.mp hs
  have h9 : (compileUpTo (X86.directAssembler 8) 8 returnWithPromise 1).map
      (fun c => c.assembler.code.length) = some 9 := by decide
  obtain ⟨ck, h1, h2, h3⟩ :=
    compile_sets_promise_offsets (X86.directAssembler 8) 8 returnWithPromise c1
      ⟨by decide, by decide⟩ h 0 _ rfl 0 (by decide)
  rw [h1] at h9
  simp only [Option.map_some', Option.some.injEq] at h9
  have h4 := (h3 (by rw [h9]; norm_num)).1
  refine ⟨c1, ck, h, h1, h9, h2, h4, ?_⟩
  rw [h4, h9]
  rfl

/-! ## The code promises of a context built through the interface are linked -/

theorem map_modify_of_eq {α β : Type} (g : α → β) (f : α → α) (hf : ∀ x, g (f x) = g x)
    (l : List α) (n : Nat) : (l.modify f n).map g = l.map g := by
  induction l generalizing n with
  | nil => cases n <;> rfl
  | cons a rest ih =>
    cases n with
    | zero => simp [List.modify, hf]
    | succ n =>
      show List.map g (a :: rest.modify f n) = _
      simp [ih]

theorem promisesLinked_create (A : X86.Assembler.Interface) (n s : Nat) :
    (Context.create A n s).promisesLinked := by
  simp [Context.promisesLinked, Context.create]

theorem promisesLinked_new (c c1 : Context) (kind : EventKind) (h : Event.new c kind = some c1)
    (hl : c.promisesLinked) : c1.promisesLinked := by
  unfold Event.new at h
  split_ifs at h
  simp only [Option.some.injEq] at h
  subst h
  simpa [Context.promisesLinked] using hl

theorem promisesLinked_addRead (c c1 : Context) (v : ValueRef) (size : Nat)
    (target : Option SiteRef) (h : addRead c v size target = some c1) (hl : c.promisesLinked) :
    c1.promisesLinked := by
  unfold addRead at h
  split at h
  · rename_i e value he hv
    simp only [Option.some.injEq] at h
    subst h
    unfold Context.promisesLinked at hl ⊢
    split <;> simpa [map_modify_of_eq (fun e : Event => e.promises)] using hl
  · cases h

theorem promisesLinked_addWrite (c c1 : Context) (v : ValueRef) (size : Nat)
    (h : addWrite c v size = some c1) (hl : c.promisesLinked) : c1.promisesLinked := by
  unfold addWrite at h
  split at h
  · simp only [Option.some.injEq] at h
    subst h
    unfold Context.promisesLinked at hl ⊢
    simpa [map_modify_of_eq (fun e : Event => e.promises)] using hl
  · cases h

theorem modify_last {α : Type} (f : α → α) (l : List α) (a : α) :
    (l ++ [a]).modify f l.length = l ++ [f a] := by
  induction l with
  | nil => rfl
  | cons b rest ih =>
    show b :: (rest ++ [a]).modify f rest.length = _
    simp [ih]

/-- The private method `machineIp()` attaches a promise that no event has yet. -/
theorem promisesLinked_codePromise (c c1 : Context) (p : Promise)
    (h : codePromise c = some (c1, p)) (hl : c.promisesLinked) :
    c1.promisesLinked ∧ p = Promise.code c.codeOffsets.length := by
  unfold codePromise at h
  split at h
  · cases h
  · rename_i e he
    simp only [Option.some.injEq, Prod.mk.injEq] at h
    obtain ⟨rfl, rfl⟩ := h
    refine ⟨?_, rfl⟩
    unfold Context.event at he
    split_ifs at he with hnil
    simp only [Option.some.injEq] at he
    subst he
    obtain ⟨init, last, hinit⟩ : ∃ init last, c.events = init ++ [last] :=
      ⟨c.events.dropLast, c.events.getLast hnil, (List.dropLast_append_getLast hnil).symm⟩
    unfold Context.promisesLinked at hl ⊢
    simp only [hinit, List.length_append, List.length_singleton, Nat.add_sub_cancel, modify_last,
      List.map_append, List.map_cons, List.map_nil, List.flatten_append, List.flatten_cons,
      List.flatten_nil, List.append_nil, List.mem_append, List.mem_cons] at hl ⊢
    obtain ⟨hn, hlt⟩ := hl
    constructor
    · rw [List.nodup_append] at hn ⊢
      refine ⟨hn.1, ?_, ?_⟩
      · rw [List.nodup_cons]
        exact ⟨fun hm => absurd (hlt _ (Or.inr hm)) (lt_irrefl _), hn.2.1⟩
      · intro x hx hx2
        rcases List.mem_cons.mp hx2 with h1 | h1
        · subst h1
          exact absurd (hlt _ (Or.inl hx)) (lt_irrefl _)
        · exact hn.2.2 hx h1
    · intro q hq
      rcases hq with h1 | h1 | h1
      · exact Nat.lt_succ_of_lt (hlt q (Or.inl h1))
      · subst h1
        exact Nat.lt_succ_self _
      · exact Nat.lt_succ_of_lt (hlt q (Or.inr h1))

/-! ## Copy costs -/

/-- The copy cost of a constant, an address and a stack site does not depend on the target. -/
theorem copyCost_fixed (c : Context) (s : SiteRef) (site : Site) (target : Option SiteRef)
    (h : c.sites.get? s = some site) :
    (∀ p, site.kind = .constant p → copyCost c s target = some 1)
    ∧ (∀ p, site.kind = .address p → copyCost c s target = some 3)
    ∧ (∀ f, site.kind = .stack f → copyCost c s target = some 5) := by
  rw [List.get?_eq_getElem?] at h
  refine ⟨?_, ?_, ?_⟩ <;> intro p hp <;> simp [copyCost, h, hp]

/-- The copy cost of a register site: 0 to itself and to a register site of the same registers,
2 to no target and to any other site that has a type. -/
theorem copyCost_register (c : Context) (s : SiteRef) (next : Option SiteRef) (low high : Int)
    (h : c.sites.get? s = some ⟨.register low high, next⟩) :
    copyCost c s (some s) = some 0
    ∧ copyCost c s none = some 2
    ∧ ∀ t site, t ≠ s → c.sites.get? t = some site → site.kind ≠ .register low high →
        (∀ v, site.kind ≠ .value v) → copyCost c s (some t) = some 2 := by
  rw [List.get?_eq_getElem?] at h
  refine ⟨by simp [copyCost, h], by simp [copyCost, h], ?_⟩
  intro t site hts ht hk hv
  rw [List.get?_eq_getElem?] at ht
  simp only [copyCost, List.get?_eq_getElem?, h, ht, if_neg (Ne.symm hts)]
  cases hkind : site.kind with
  | register l hi =>
    have : ¬ (l = low ∧ hi = high) := by
      rintro ⟨rfl, rfl⟩
      exact hk hkind
    simp [this]
  | value v => exact absurd hkind (hv v)
  | constant p => rfl
  | address p => rfl
  | memory b o i sc => rfl
  | stack f => rfl

/-- The copy cost of a memory site: 0 to itself and to a memory site of the same operand, 4 to
no target and to any other site that has a type. -/
theorem copyCost_memory (c : Context) (s : SiteRef) (next : Option SiteRef) (base offset index : Int)
    (scale : Nat) (h : c.sites.get? s = some ⟨.memory base offset index scale, next⟩) :
    copyCost c s (some s) = some 0
    ∧ copyCost c s none = some 4
    ∧ ∀ t site, t ≠ s → c.sites.get? t = some site → site.kind ≠ .memory base offset index scale →
        (∀ v, site.kind ≠ .value v) → copyCost c s (some t) = some 4 := by
  rw [List.get?_eq_getElem?] at h
  refine ⟨by simp [copyCost, h], by simp [copyCost, h], ?_⟩
  intro t site hts ht hk hv
  rw [List.get?_eq_getElem?] at ht
  simp only [copyCost, List.get?_eq_getElem?, h, ht, if_neg (Ne.symm hts)]
  cases hkind : site.kind with
  | memory b o i sc =>
    have : ¬ (b = base ∧ o = offset ∧ i = index ∧ sc = scale) := by
      rintro ⟨rfl, rfl, rfl, rfl⟩
      exact hk hkind
    simp [this]
  | value v => exact absurd hkind (hv v)
  | constant p => rfl
  | address p => rfl
  | register l hi => rfl
  | stack f => rfl

/-- C28 (failing input): the copy cost of a constant site to itself is 1, of an address site to
itself 3 and of a stack site to itself 5, not 0; a register site and a memory site cost 0 to
themselves. -/
theorem copyCost_to_itself :
    copyCost oneSiteOfEachClass 0 (some 0) = some 1
    ∧ copyCost oneSiteOfEachClass 1 (some 1) = some 3
    ∧ copyCost oneSiteOfEachClass 4 (some 4) = some 5
    ∧ copyCost oneSiteOfEachClass 2 (some 2) = some 0
    ∧ copyCost oneSiteOfEachClass 3 (some 3) = some 0 := by
  refine ⟨?_, ?_, ?_, ?_, ?_⟩ <;> decide

theorem copyCost_le (c : Context) (s : SiteRef) (target : Option SiteRef) (k : Nat)
    (h : copyCost c s target = some k) : k ≤ 5 := by
  unfold copyCost at h
  repeat' split at h
  all_goals first
    | (cases h; done)
    | (simp only [Option.some.injEq] at h; omega)

theorem copyCost_valid (c : Context) (s : SiteRef) (target : Option SiteRef) (k : Nat)
    (h : copyCost c s target = some k) : s < c.sites.length := by
  unfold copyCost at h
  split at h
  · cases h
  · rename_i site hs
    rw [List.get?_eq_getElem?] at hs
    exact (List.getElem?_eq_some_iff.mp hs).1

/-! ## pick -/

theorem isSiteList_unique (c : Context) (first : Option SiteRef) (l1 l2 : List SiteRef)
    (h1 : isSiteList c first l1) (h2 : isSiteList c first l2) : l1 = l2 := by
  induction l1 generalizing first l2 with
  | nil =>
    cases first with
    | none => cases l2 with
      | nil => rfl
      | cons _ _ => exact absurd h2 (by simp [isSiteList])
    | some s => exact absurd h1 (by simp [isSiteList])
  | cons a rest ih =>
    cases first with
    | none => exact absurd h1 (by simp [isSiteList])
    | some s =>
      cases l2 with
      | nil => exact absurd h2 (by simp [isSiteList])
      | cons b rest2 =>
        simp only [isSiteList] at h1 h2
        rw [← h1.1, ← h2.1, ih _ _ h1.2 h2.2]

theorem isSiteList_suffix (c : Context) (first : Option SiteRef) (l : List SiteRef)
    (h : isSiteList c first l) (a : SiteRef) (pre post : List SiteRef) (hl : l = pre ++ a :: post) :
    isSiteList c (some a) (a :: post) := by
  induction pre generalizing first l with
  | nil =>
    subst hl
    cases first with
    | none => exact absurd h (by simp [isSiteList])
    | some s =>
      simp only [List.nil_append, isSiteList] at h
      obtain ⟨rfl, h2⟩ := h
      exact ⟨rfl, h2⟩
  | cons b rest ih =>
    subst hl
    cases first with
    | none => exact absurd h (by simp [isSiteList])
    | some s =>
      simp only [List.cons_append, isSiteList] at h
      exact ih _ _ h.2 rfl

/-- A site list that ends has no site twice. -/
theorem isSiteList_nodup (c : Context) (first : Option SiteRef) (l : List SiteRef)
    (h : isSiteList c first l) : l.Nodup := by
  induction l generalizing first with
  | nil => exact List.nodup_nil
  | cons a rest ih =>
    cases first with
    | none => exact absurd h (by simp [isSiteList])
    | some s =>
      have h0 := h
      simp only [isSiteList] at h
      obtain ⟨rfl, h2⟩ := h
      rw [List.nodup_cons]
      refine ⟨?_, ih _ h2⟩
      intro hmem
      obtain ⟨pre, post, hsplit⟩ := List.append_of_mem hmem
      have h3 := isSiteList_suffix c _ rest h2 s pre post hsplit
      have h4 := isSiteList_unique c _ _ _ h0 h3
      have h5 := congrArg List.length h4
      rw [hsplit] at h5
      simp at h5
      omega

theorem length_le_of_nodup_of_lt (l : List Nat) (n : Nat) (hn : l.Nodup) (hlt : ∀ x ∈ l, x < n) :
    l.length ≤ n := by
  have h1 : l.toFinset ⊆ Finset.range n := by
    intro x hx
    rw [List.mem_toFinset] at hx
    exact Finset.mem_range.mpr (hlt x hx)
  have h2 := Finset.card_le_card h1
  rw [List.toFinset_card_of_nodup hn, Finset.card_range] at h2
  exact h2

/-- The loop of `pick` over a site list whose costs are all defined: it ends with either the
best site so far, when no site of the list is cheaper, or the first site of the list whose cost
is the least of the list and below the best so far. -/
theorem pickLoop_spec (c : Context) (target : Option SiteRef) (l : List SiteRef) :
    ∀ (fuel : Nat) (first site : Option SiteRef) (cost : Nat),
      isSiteList c first l → l.length ≤ fuel →
      (∀ s ∈ l, ∃ k, copyCost c s target = some k) →
      ∃ site1 cost1, pickLoop c target fuel first site cost = some (site1, cost1)
        ∧ (∀ s ∈ l, ∀ k, copyCost c s target = some k → cost1 ≤ k)
        ∧ ((site1 = site ∧ cost1 = cost)
          ∨ (cost1 < cost ∧ ∃ i, ∃ hi : i < l.length, site1 = some (l.get ⟨i, hi⟩)
              ∧ copyCost c (l.get ⟨i, hi⟩) target = some cost1
              ∧ ∀ j, ∀ hj : j < l.length, j < i →
                  ∀ k, copyCost c (l.get ⟨j, hj⟩) target = some k → cost1 < k)) := by
  induction l with
  | nil =>
    intro fuel first site cost hchain _ _
    cases first with
    | some s => exact absurd hchain (by simp [isSiteList])
    | none =>
      refine ⟨site, cost, ?_, ?_, Or.inl ⟨rfl, rfl⟩⟩
      · cases fuel <;> rfl
      · intro s hs
        cases hs
  | cons a rest ih =>
    intro fuel first site cost hchain hfuel hcost
    cases first with
    | none => exact absurd hchain (by simp [isSiteList])
    | some s =>
      simp only [isSiteList] at hchain
      obtain ⟨rfl, hrest⟩ := hchain
      cases fuel with
      | zero => simp at hfuel
      | succ fuel =>
        obtain ⟨k, hk⟩ := hcost s (List.mem_cons_self _ _)
        have hcost2 : ∀ t ∈ rest, ∃ k, copyCost c t target = some k :=
          fun t ht => hcost t (List.mem_cons_of_mem _ ht)
        have hfuel2 : rest.length ≤ fuel := by
          simp only [List.length_cons] at hfuel
          omega
        simp only [pickLoop, hk]
        by_cases hlt : k < cost
        · rw [if_pos hlt]
          obtain ⟨site1, cost1, hrun, hmin, hcase⟩ := ih fuel (c.siteNext s) (some s) k hrest hfuel2 hcost2
          refine ⟨site1, cost1, hrun, ?_, Or.inr ?_⟩
          · intro t ht k1 hk1
            rcases List.mem_cons.mp ht with rfl | ht
            · rw [hk] at hk1
              cases hk1
              rcases hcase with ⟨-, rfl⟩ | ⟨h1, -⟩
              · exact le_refl _
              · exact le_of_lt h1
            · exact hmin t ht k1 hk1
          · rcases hcase with ⟨rfl, rfl⟩ | ⟨h1, i, hi, hs, hc, hbefore⟩
            · refine ⟨hlt, 0, by simp, rfl, hk, ?_⟩
              intro j hj hj0
              omega
            · refine ⟨lt_trans h1 hlt, i + 1, by simp; omega, hs, hc, ?_⟩
              intro j hj hji k1 hk1
              cases j with
              | zero =>
                simp only [List.get_eq_getElem, List.getElem_cons_zero] at hk1
                rw [hk] at hk1
                cases hk1
                exact h1
              | succ j =>
                exact hbefore j (by simp at hj; omega) (by omega) k1 hk1
        · rw [if_neg hlt]
          obtain ⟨site1, cost1, hrun, hmin, hcase⟩ := ih fuel (c.siteNext s) site cost hrest hfuel2 hcost2
          refine ⟨site1, cost1, hrun, ?_, ?_⟩
          · intro t ht k1 hk1
            rcases List.mem_cons.mp ht with rfl | ht
            · rw [hk] at hk1
              cases hk1
              rcases hcase with ⟨-, rfl⟩ | ⟨h1, -⟩
              · omega
              · omega
            · exact hmin t ht k1 hk1
          · rcases hcase with h0 | ⟨h1, i, hi, hs, hc, hbefore⟩
            · exact Or.inl h0
            · refine Or.inr ⟨h1, i + 1, by simp; omega, hs, hc, ?_⟩
              intro j hj hji k1 hk1
              cases j with
              | zero =>
                simp only [List.get_eq_getElem, List.getElem_cons_zero] at hk1
                rw [hk] at hk1
                cases hk1
                omega
              | succ j =>
                exact hbefore j (by simp at hj; omega) (by omega) k1 hk1

/-- C27: for a site list that is not empty and a target, possibly null, such that the copy cost
of every site of the list to the target is defined, `pick` returns a site of the list and its
copy cost; no site of the list is cheaper, and every site before it in the list costs more. -/
theorem pick_first_cheapest (c : Context) (sites target : Option SiteRef) (l : List SiteRef)
    (hchain : isSiteList c sites l) (hne : l ≠ [])
    (hcost : ∀ s ∈ l, ∃ k, copyCost c s target = some k) :
    ∃ i, ∃ hi : i < l.length, ∃ cost,
      pick c sites target = some (some (l.get ⟨i, hi⟩), cost)
      ∧ copyCost c (l.get ⟨i, hi⟩) target = some cost
      ∧ (∀ s ∈ l, ∀ k, copyCost c s target = some k → cost ≤ k)
      ∧ (∀ j, ∀ hj : j < l.length, j < i →
          ∀ k, copyCost c (l.get ⟨j, hj⟩) target = some k → cost < k) := by
  have hfuel : l.length ≤ c.sites.length :=
    length_le_of_nodup_of_lt l _ (isSiteList_nodup c sites l hchain)
      (fun s hs => by
        obtain ⟨k, hk⟩ := hcost s hs
        exact copyCost_valid c s target k hk)
  obtain ⟨site1, cost1, hrun, hmin, hcase⟩ :=
    pickLoop_spec c target l c.sites.length sites none 0xFFFFFFFF hchain hfuel hcost
  rcases hcase with ⟨-, hc⟩ | ⟨-, i, hi, hs, hc, hbefore⟩
  · exfalso
    obtain ⟨a, rest, rfl⟩ := List.exists_cons_of_ne_nil hne
    obtain ⟨k, hk⟩ := hcost a (List.mem_cons_self _ _)
    have h1 := hmin a (List.mem_cons_self _ _) k hk
    have h2 := copyCost_le c a target k hk
    omega
  · exact ⟨i, hi, cost1, by rw [pick, hrun, hs], hc, hmin, hbefore⟩

theorem pick_first_cheapest_witness :
    (threeSites.values.get? 0).map (fun v => v.sites) = some (some 4)
    ∧ ∃ i, ∃ hi : i < [4, 2, 0].length, ∃ cost,
      pick threeSites (some 4) (some 2) = some (some ([4, 2, 0].get ⟨i, hi⟩), cost)
      ∧ copyCost threeSites ([4, 2, 0].get ⟨i, hi⟩) (some 2) = some cost := by
  refine ⟨by decide, ?_⟩
  obtain ⟨i, hi, cost, h1, h2, -, -⟩ :=
    pick_first_cheapest threeSites (some 4) (some 2) [4, 2, 0]
      ⟨rfl, rfl, rfl, trivial⟩ (by decide)
      (by
        intro s hs
        simp only [List.mem_cons, List.mem_singleton, List.not_mem_nil, or_false] at hs
        rcases hs with rfl | rfl | rfl
        · exact ⟨5, by decide⟩
        · exact ⟨0, by decide⟩
        · exact ⟨1, by decide⟩)
  exact ⟨i, hi, cost, h1, h2⟩

/-! ## Return events -/

/-- C23 (counterexample): with the assembler of x86.cpp, whose tables have no encoder for `Pop`
(here the cell is null), compiling a return event does not return. -/
theorem return_event_pop_not_registered :
    X86.registeredUnary .pop .register = false
    ∧ (Event.compile (X86.MyAssembler.interface 8 X86.ArchitectureContext.zeroed) 8
        (Context.create (X86.MyAssembler.interface 8 X86.ArchitectureContext.zeroed) 1 0)
        (.return_ none)).isSome = false := by
  refine ⟨?_, ?_⟩ <;> decide

/-- C23 (amended): on x86-64, with `Pop` on a register encoded by `popR`, compiling a return
event appends the five bytes 48 89 EC 5D C3, whatever the event returns, and changes nothing
else. -/
theorem return_event_bytes (c : Context) (value : Option ValueRef) :
    Event.compile (X86.directAssembler 8) 8 c (.return_ value)
      = some { c with assembler :=
          { c.assembler with code := c.assembler.code ++ [0x48, 0x89, 0xec, 0x5d, 0xc3] } } := by
  simp [Event.compile, Context.emit, X86.directAssembler, X86.moveRR, X86.moveRRFuel, X86.popR,
    X86.popRFuel, X86.return_, X86.rex0, X86.rex, X86.Context.append, X86.reg, X86.rbp, X86.rsp,
    X86.rax]
  decide

/-! ## target -/

/-- The function `target` for a value whose first read has a target with an operand type: the
target is returned when the negated type, 0 or 1, equals the number of `StackOperand`, and a
free register otherwise. -/
theorem target_of_read_target (A : X86.Assembler.Interface) (BytesPerWord : Nat) (c : Context)
    (size : Nat) (value : ValueRef) (v : Value) (r : ReadRef) (read : Read) (t : SiteRef)
    (site : Site) (type : X86.Assembler.OperandType)
    (hv : c.values.get? value = some v) (hr : v.reads = some r)
    (hread : c.reads.get? r = some read) (ht : read.target = some t)
    (hs : c.sites.get? t = some site) (hty : site.kind.type = some type) :
    target A BytesPerWord c size value
      = if (if A.operandCode type = 0 then 1 else 0) = A.operandCode .stack then some (c, t)
        else freeRegisterSite A BytesPerWord c size true := by
  simp only [target, hv, hr, hread, ht, hs, hty]

/-- When `StackOperand` is not numbered 0, `target` passes over a read target of every operand
type that is not numbered 0 either, a register for one. -/
theorem target_passes_over_read_target (A : X86.Assembler.Interface) (BytesPerWord : Nat)
    (c : Context) (size : Nat) (value : ValueRef) (v : Value) (r : ReadRef) (read : Read)
    (t : SiteRef) (site : Site) (type : X86.Assembler.OperandType)
    (hv : c.values.get? value = some v) (hr : v.reads = some r)
    (hread : c.reads.get? r = some read) (ht : read.target = some t)
    (hs : c.sites.get? t = some site) (hty : site.kind.type = some type)
    (hstack : A.operandCode .stack ≠ 0) (htype : A.operandCode type ≠ 0) :
    target A BytesPerWord c size value = freeRegisterSite A BytesPerWord c size true := by
  rw [target_of_read_target A BytesPerWord c size value v r read t site type hv hr hread ht hs hty]
  rw [if_neg htype, if_neg (Ne.symm hstack)]

/-- Without a first read, and with a first read without a target, `target` returns a free
register. -/
theorem target_without_read_target (A : X86.Assembler.Interface) (BytesPerWord : Nat)
    (c : Context) (size : Nat) (value : ValueRef) (v : Value)
    (hv : c.values.get? value = some v)
    (h : v.reads = none ∨ ∃ r read, v.reads = some r ∧ c.reads.get? r = some read
      ∧ read.target = none) :
    target A BytesPerWord c size value = freeRegisterSite A BytesPerWord c size true := by
  rcases h with h | ⟨r, read, hr, hread, ht⟩
  · simp only [target, hv, h]
  · simp only [target, hv, hr, hread, ht]

/-- C29 (failing input): the first read of the value 0 has the register site of `rax`, site 0,
as target, which is no stack operand; `target` returns a new site, site 1, for the register 8
instead. -/
theorem target_ignores_register_target :
    ∃ c, returnedValue = some c
      ∧ (c.values.get? 0).map (fun v => v.reads) = some (some 0)
      ∧ (c.reads.get? 0).map (fun r => r.target) = some (some 0)
      ∧ (c.sites.get? 0).map (fun s => s.kind) = some (.register X86.rax X86.NoRegister)
      ∧ (target (X86.directAssembler 8) 8 c 8 0).map (fun r => r.2) = some 1
      ∧ (target (X86.directAssembler 8) 8 c 8 0).map (fun r => (r.1.sites.get? 1).map (fun s => s.kind))
          = some (some (.register 8 X86.NoRegister)) := by
  refine ⟨_, rfl, by decide, by decide, by decide, by decide, by decide⟩

/-! ## The stack-unwinding step -/

set_option maxRecDepth 100000 in
/-- C21 (failing input): in `spillThenMove`, when `compile` reaches the move that reads `v1`, the
frame 0 of `v1` is pushed and the frame 1 on top of it is not, and the read has no target.
Choosing the site of the read unwinds frame 0 into the register 8, which spills the value `v7`
of frame 1: afterwards frame 1 is pushed and frame 0, beneath it, is not. -/
theorem unwinding_leaves_unpushed_frame_below :
    ∃ c e read, (spillThenMove.bind fun c => compileUpTo (X86.directAssembler 8) 8 c 9) = some c
      ∧ c.events.get? 9 = some e
      ∧ e.kind = .move .move 8 1 14
      ∧ e.reads = [7]
      ∧ c.reads.get? 7 = some read
      ∧ read.value = 1
      ∧ read.target = none
      ∧ readTarget c read = some none
      ∧ c.frames.map (fun f => (f.value, f.next, f.pushed))
          = [(some 1, none, true), (some 13, some 0, false)]
      ∧ pushedBelow c = true
      ∧ (chooseSite (X86.directAssembler 8) 8 c e read none).map
          (fun r => r.1.frames.map (fun f => (f.value, f.next, f.pushed)))
          = some [(some 1, none, false), (some 13, some 0, true)]
      ∧ (chooseSite (X86.directAssembler 8) 8 c e read none).map
          (fun r => pushedBelow r.1) = some false := by
  have hrun : (spillThenMove.bind fun c => compileUpTo (X86.directAssembler 8) 8 c 9).map
      (fun c =>
        decide (((c.events.get? 9).bind fun e => (c.reads.get? 7).map fun read =>
            decide (e.kind = .move .move 8 1 14)
            && decide (e.reads = [7])
            && decide (read.value = 1)
            && decide (read.target = none)
            && decide (readTarget c read = some none)
            && decide ((chooseSite (X86.directAssembler 8) 8 c e read none).map
                (fun r => r.1.frames.map (fun f => (f.value, f.next, f.pushed)))
                = some [(some 1, none, false), (some 13, some 0, true)])
            && decide ((chooseSite (X86.directAssembler 8) 8 c e read none).map
                (fun r => pushedBelow r.1) = some false)) = some true)
        && decide (c.frames.map (fun f => (f.value, f.next, f.pushed))
            = [(some 1, none, true), (some 13, some 0, false)])
        && decide (pushedBelow c = true))
      = some true := by
    decide
  obtain ⟨c, hc, hrun⟩ := Option.map_eq_some'.mp hrun
  simp only [Bool.and_eq_true, decide_eq_true_eq] at hrun
  obtain ⟨⟨hin, h8⟩, h9⟩ := hrun
  obtain ⟨e, he, hin⟩ := Option.bind_eq_some.mp hin
  obtain ⟨read, hr, hin⟩ := Option.map_eq_some'.mp hin
  simp only [Bool.and_eq_true, decide_eq_true_eq] at hin
  obtain ⟨⟨⟨⟨⟨⟨h1, h2⟩, h3⟩, h4⟩, h5⟩, h6⟩, h7⟩ := hin
  exact ⟨c, e, read, hc, he, h1, h2, hr, h3, h4, h5, h8, h9, h6, h7⟩

/-! ## The source of a read -/

/-- The body of the read loop when the picked site is neither a stack site nor a value site:
the target is the one the read resolves to, and the picked site and its cost are those of
`pick`. -/
theorem processRead_of_direct_site (A : X86.Assembler.Interface) (BytesPerWord : Nat)
    (c : Context) (e : Event) (r : ReadRef) (read : Read) (target : Option SiteRef) (v : Value)
    (site : SiteRef) (cost : Nat) (picked : Site)
    (hread : c.reads.get? r = some read) (htarget : readTarget c read = some target)
    (hv : c.values.get? read.value = some v)
    (hpick : pick c v.sites target = some (some site, cost))
    (hpicked : c.sites.get? site = some picked)
    (hstack : ∀ f, picked.kind ≠ .stack f) (hvalue : ∀ w, picked.kind ≠ .value w) :
    processRead A BytesPerWord c e r
      = (supplySource A BytesPerWord c e read target (some site) cost).bind
          fun c1 => retireRead c1 read.value := by
  have hchoose : chooseSite A BytesPerWord c e read target = some (c, target, some site, cost) := by
    simp only [chooseSite, hv, hpick, hpicked]
  simp only [processRead, hread, htarget, hchoose]
  try (cases supplySource A BytesPerWord c e read target (some site) cost <;> rfl)

/-- The statements that assign the source: with a target, the source is the target, and the
target is added to the sites of the value and a transfer to it emitted exactly when the copy
cost is not 0; without a target, the source is the picked site and the context is otherwise
unchanged. -/
theorem supplySource_spec (A : X86.Assembler.Interface) (BytesPerWord : Nat) (c c1 : Context)
    (e : Event) (read : Read) (target site : Option SiteRef) (cost : Nat)
    (h : supplySource A BytesPerWord c e read target site cost = some c1) :
    (∀ t, target = some t → cost = 0 →
        c1 = { c with values := c.values.modify (fun x => { x with source := some t }) read.value })
    ∧ (∀ t, target = some t → cost ≠ 0 →
        ∃ c2 c3, addSite A BytesPerWord c e.stack read.size read.value t = some c2
          ∧ accept A c2 t read.size site = some c3
          ∧ c1 = { c3 with
              values := c3.values.modify (fun x => { x with source := some t }) read.value })
    ∧ (target = none →
        c1 = { c with values := c.values.modify (fun x => { x with source := site }) read.value }) := by
  unfold supplySource at h
  refine ⟨?_, ?_, ?_⟩
  · rintro t rfl hc
    simp only [hc, ne_eq, not_true_eq_false, if_false, Option.map_some', Option.some.injEq] at h
    exact h.symm
  · rintro t rfl hc
    simp only [ne_eq, hc, not_false_eq_true, if_true, Option.map_eq_some'] at h
    obtain ⟨c3, h3, rfl⟩ := h
    split at h3
    · cases h3
    · rename_i c2 h2
      exact ⟨c2, c3, h2, h3, rfl⟩
  · rintro rfl
    simp only [Option.some.injEq] at h
    exact h.symm

set_option maxRecDepth 100000 in
/-- C30 (failing input): in `spillThenReturn`, the read of `v1` by the return has the register
site of `rax`, site 7, as target, and `v1` lives in a stack site only, whose copy cost to the
target is 5.  Processing the read leaves as source of `v1` the site 17, of the register 8; the
target is not among the sites of `v1`, and the only byte emitted is the push that spills the
register 8: no transfer into `rax`. -/
theorem stack_read_source_is_not_read_target :
    ∃ c e read c1,
      (spillThenReturn.bind fun c => compileUpTo (X86.directAssembler 8) 8 c 9) = some c
      ∧ c.events.get? 9 = some e
      ∧ e.kind = .return_ (some 1)
      ∧ c.reads.get? 7 = some read
      ∧ read.value = 1
      ∧ readTarget c read = some (some 7)
      ∧ (c.sites.get? 7).map (fun s => s.kind) = some (.register X86.rax X86.NoRegister)
      ∧ c.sitesOf 1 = [16]
      ∧ (c.sites.get? 16).map (fun s => s.kind) = some (.stack 0)
      ∧ pick c (some 16) (some 7) = some (some 16, 5)
      ∧ processRead (X86.directAssembler 8) 8 c e 7 = some c1
      ∧ (c1.values.get? 1).map (fun v => v.source) = some (some 17)
      ∧ (c1.sites.get? 17).map (fun s => s.kind) = some (.register 8 X86.NoRegister)
      ∧ c1.sitesOf 1 = [17, 16]
      ∧ c1.assembler.code = c.assembler.code ++ [0x58] := by
  have hrun : (spillThenReturn.bind fun c => compileUpTo (X86.directAssembler 8) 8 c 9).map
      (fun c =>
        decide (((c.events.get? 9).bind fun e => (c.reads.get? 7).bind fun read =>
            (processRead (X86.directAssembler 8) 8 c e 7).map fun c1 =>
              decide (e.kind = .return_ (some 1))
              && decide (read.value = 1)
              && decide (readTarget c read = some (some 7))
              && decide ((c1.values.get? 1).map (fun v => v.source) = some (some 17))
              && decide ((c1.sites.get? 17).map (fun s => s.kind)
                  = some (.register 8 X86.NoRegister))
              && decide (c1.sitesOf 1 = [17, 16])
              && decide (c1.assembler.code = c.assembler.code ++ [0x58])) = some true)
        && decide ((c.sites.get? 7).map (fun s => s.kind)
            = some (.register X86.rax X86.NoRegister))
        && decide (c.sitesOf 1 = [16])
        && decide ((c.sites.get? 16).map (fun s => s.kind) = some (.stack 0))
        && decide (pick c (some 16) (some 7) = some (some 16, 5)))
      = some true := by
    decide
  obtain ⟨c, hc, hrun⟩ := Option.map_eq_some'.mp hrun
  simp only [Bool.and_eq_true, decide_eq_true_eq] at hrun
  obtain ⟨⟨⟨⟨hin, h8⟩, h9⟩, h10⟩, h11⟩ := hrun
  obtain ⟨e, he, hin⟩ := Option.bind_eq_some.mp hin
  obtain ⟨read, hr, hin⟩ := Option.bind_eq_some.mp hin
  obtain ⟨c1, hp, hin⟩ := Option.map_eq_some'.mp hin
  simp only [Bool.and_eq_true, decide_eq_true_eq] at hin
  obtain ⟨⟨⟨⟨⟨⟨h1, h2⟩, h3⟩, h4⟩, h5⟩, h6⟩, h7⟩ := hin
  exact ⟨c, e, read, c1, hc, he, h1, hr, h2, h3, h8, h9, h10, h11, hp, h4, h5, h6, h7⟩

/-! ## The reads of a call -/

theorem addRead_spec (c c1 : Context) (v : ValueRef) (size : Nat) (target : Option SiteRef)
    (h : addRead c v size target = some c1) :
    c1.frames = c.frames ∧ c1.sites = c.sites
    ∧ c1.reads.map Read.key = c.reads.map Read.key ++ [(size, v, target)] := by
  unfold addRead at h
  split at h
  · rename_i e value he hv
    simp only [Option.some.injEq] at h
    subst h
    refine ⟨?_, ?_, ?_⟩
    · split <;> rfl
    · split <;> rfl
    · split
      · simp only
        rw [map_modify_of_eq Read.key (fun x => { x with next := some c.reads.length })
          (fun x => rfl)]
        simp [Read.key]
      · simp [Read.key]
  · cases h

/-- The loop over the arguments leaves the frames alone, allocates sites after those there are
and appends one read for each argument: the read of the argument `j` is of the value and the
bytes of the frame `j` frames beneath the first, and its target is a register site of
`argumentRegister` at the word index of the argument, an `unsigned`, when that is below
`argumentRegisterCount()`, and a stack site of the frame otherwise. -/
theorem callArguments_spec (A : X86.Assembler.Interface) (BytesPerWord : Nat) (n : Nat) :
    ∀ (c c1 : Context) (s : StackRef) (index : Nat), index < 2 ^ 32 →
      callArguments A BytesPerWord n c s index = some c1 →
      c1.frames = c.frames
      ∧ ∃ keys sites, c1.reads.map Read.key = c.reads.map Read.key ++ keys
        ∧ c1.sites = c.sites ++ sites
        ∧ keys.length = n
        ∧ ∀ j, j < n → ∃ f frame v t site,
            frameAt c j s = some f ∧ c.frames.get? f = some frame ∧ frame.value = some v
            ∧ keys.get? j = some ((frame.size * BytesPerWord) % 2 ^ 32, v, some t)
            ∧ c1.sites.get? t = some site
            ∧ ((index + wordsBefore c j s) % 2 ^ 32 < A.argumentRegisterCount →
                ∃ r, A.argumentRegister ((index + wordsBefore c j s) % 2 ^ 32) = some r
                  ∧ site.kind = .register r X86.NoRegister)
            ∧ (¬ (index + wordsBefore c j s) % 2 ^ 32 < A.argumentRegisterCount →
                site.kind = .stack f) := by
  induction n with
  | zero =>
    intro c c1 s index _ h
    simp only [callArguments, Option.some.injEq] at h
    subst h
    exact ⟨rfl, [], [], by simp, by simp, rfl, fun j hj => absurd hj (Nat.not_lt_zero j)⟩
  | succ n ih =>
    intro c c1 s index hindex h
    cases s with
    | none => simp [callArguments] at h
    | some f =>
      simp only [callArguments] at h
      split at h
      · cases h
      · rename_i frame hframe
        split at h
        · cases h
        · rename_i v hvalue
          split at h
          · cases h
          · rename_i ca t hsite
            split at h
            · cases h
            · rename_i cb hread
              obtain ⟨hf1, hs1, hr1⟩ := addRead_spec ca cb v _ _ hread
              obtain ⟨hf2, keys, sites, hr2, hs2, hlen, hargs⟩ :=
                ih cb c1 frame.next _ (Nat.mod_lt _ (by norm_num)) h
              have hmod0 : (index + wordsBefore c 0 (some f)) % 2 ^ 32 = index := by
                simp only [wordsBefore, Nat.add_zero]
                exact Nat.mod_eq_of_lt hindex
              -- the site allocated for this argument
              have hnew : ca.frames = c.frames ∧ ca.reads = c.reads ∧ t = c.sites.length
                  ∧ ∃ kind, ca.sites = c.sites ++ [⟨kind, none⟩]
                    ∧ (index < A.argumentRegisterCount →
                        ∃ r, A.argumentRegister index = some r
                          ∧ kind = .register r X86.NoRegister)
                    ∧ (¬ index < A.argumentRegisterCount → kind = .stack f) := by
                split_ifs at hsite with hlt
                · simp only [Option.map_eq_some', newSite, Prod.mk.injEq] at hsite
                  obtain ⟨r, hr, rfl, rfl⟩ := hsite
                  exact ⟨rfl, rfl, rfl, _, rfl, fun _ => ⟨r, hr, rfl⟩, fun hn => absurd hlt hn⟩
                · simp only [newSite, Option.some.injEq, Prod.mk.injEq] at hsite
                  obtain ⟨rfl, rfl⟩ := hsite
                  exact ⟨rfl, rfl, rfl, _, rfl, fun hl => absurd hl hlt, fun _ => rfl⟩
              obtain ⟨hfa, hra, ht, kind, hsa, hreg, hstk⟩ := hnew
              have hframes : cb.frames = c.frames := by rw [hf1, hfa]
              refine ⟨by rw [hf2, hframes],
                ((frame.size * BytesPerWord) % 2 ^ 32, v, some t) :: keys,
                ⟨kind, none⟩ :: sites, ?_, ?_, by simp [hlen], ?_⟩
              · rw [hr2, hr1, hra]
                simp
              · rw [hs2, hs1, hsa]
                simp
              · intro j hj
                cases j with
                | zero =>
                  refine ⟨f, frame, v, t, ⟨kind, none⟩, rfl, hframe, hvalue, rfl, ?_, ?_, ?_⟩
                  · rw [hs2, hs1, hsa, ht, List.get?_eq_getElem?, List.append_assoc,
                      List.getElem?_append_right (le_refl _)]
                    simp
                  · intro hl
                    rw [hmod0] at hl ⊢
                    exact hreg hl
                  · intro hl
                    rw [hmod0] at hl
                    exact hstk hl
                | succ j =>
                  obtain ⟨f2, frame2, v2, t2, site2, h1, h2, h3, h4, h5, h6, h7⟩ :=
                    hargs j (by omega)
                  have hwb : wordsBefore c (j + 1) (some f)
                      = frame.size + wordsBefore cb j frame.next := by
                    simp only [wordsBefore, hframe, Option.map_some', Option.getD_some,
                      Option.some_bind]
                    congr 1
                    clear h1 h4 h6 h7
                    generalize frame.next = s2
                    induction j generalizing s2 with
                    | zero => rfl
                    | succ j ihj =>
                      cases s2 with
                      | none => rfl
                      | some g =>
                        simp only [wordsBefore, hframes]
                        rw [ihj (by omega)]
                  have hfa2 : frameAt c (j + 1) (some f) = frameAt cb j frame.next := by
                    simp only [frameAt, hframe, Option.some_bind]
                    clear h1 h4 h6 h7 hwb
                    generalize frame.next = s2
                    induction j generalizing s2 with
                    | zero => cases s2 <;> rfl
                    | succ j ihj =>
                      cases s2 with
                      | none => rfl
                      | some g =>
                        simp only [frameAt, hframes]
                        exact ihj (by omega) _
                  have hmod : ((index + frame.size) % 2 ^ 32 + wordsBefore cb j frame.next)
                        % 2 ^ 32
                      = (index + wordsBefore c (j + 1) (some f)) % 2 ^ 32 := by
                    rw [hwb, Nat.mod_add_mod, Nat.add_assoc]
                  rw [hmod] at h6 h7
                  exact ⟨f2, frame2, v2, t2, site2, by rw [hfa2]; exact h1,
                    by rw [← hframes]; exact h2, h3, by simpa using h4, h5, h6, h7⟩

theorem frameAt_congr (c1 c2 : Context) (h : c1.frames = c2.frames) (j : Nat) (s : StackRef) :
    frameAt c1 j s = frameAt c2 j s := by
  induction j generalizing s with
  | zero => cases s <;> rfl
  | succ j ih =>
    cases s with
    | none => rfl
    | some f =>
      simp only [frameAt, h]
      exact ih _

theorem wordsBefore_congr (c1 c2 : Context) (h : c1.frames = c2.frames) (j : Nat) (s : StackRef) :
    wordsBefore c1 j s = wordsBefore c2 j s := by
  induction j generalizing s with
  | zero => rfl
  | succ j ih =>
    cases s with
    | none => rfl
    | some f =>
      simp only [wordsBefore, h]
      rw [ih]

theorem addRead_event (c c1 : Context) (v : ValueRef) (size : Nat) (target : Option SiteRef)
    (h : addRead c v size target = some c1) :
    ∃ e, c.event = some e
      ∧ c1.events = c.events.modify (fun x => { x with reads := c.reads.length :: x.reads }) e := by
  unfold addRead at h
  split at h
  · rename_i e value he hv
    simp only [Option.some.injEq] at h
    subst h
    refine ⟨e, he, ?_⟩
    split <;> rfl
  · cases h

theorem event_of_length (c1 c2 : Context) (h : c1.events.length = c2.events.length) :
    c1.event = c2.event := by
  unfold Context.event
  have : c1.events = [] ↔ c2.events = [] := by
    rw [← List.length_eq_zero, ← List.length_eq_zero, h]
  by_cases h1 : c1.events = []
  · rw [if_pos h1, if_pos (this.mp h1)]
  · rw [if_neg h1, if_neg (fun h2 => h1 (this.mpr h2)), h]

/-- The reads of the arguments are linked into the event under construction, the last one
first. -/
theorem callArguments_event (A : X86.Assembler.Interface) (BytesPerWord : Nat) (n : Nat) :
    ∀ (c c1 : Context) (s : StackRef) (index : Nat),
      callArguments A BytesPerWord n c s index = some c1 →
      c1.events.length = c.events.length
      ∧ ∀ e ev, c.event = some e → c.events.get? e = some ev →
          c1.events.get? e = some { ev with
            reads := ((List.range n).map fun j => c.reads.length + j).reverse ++ ev.reads } := by
  induction n with
  | zero =>
    intro c c1 s index h
    simp only [callArguments, Option.some.injEq] at h
    subst h
    exact ⟨rfl, fun e ev _ hev => by simpa using hev⟩
  | succ n ih =>
    intro c c1 s index h
    cases s with
    | none => simp [callArguments] at h
    | some f =>
      simp only [callArguments] at h
      split at h
      · cases h
      · rename_i frame hframe
        split at h
        · cases h
        · rename_i v hvalue
          split at h
          · cases h
          · rename_i ca t hsite
            split at h
            · cases h
            · rename_i cb hread
              have hca : ca.events = c.events ∧ ca.reads = c.reads := by
                split_ifs at hsite
                · simp only [Option.map_eq_some', newSite, Prod.mk.injEq] at hsite
                  obtain ⟨r, -, rfl, -⟩ := hsite
                  exact ⟨rfl, rfl⟩
                · simp only [newSite, Option.some.injEq, Prod.mk.injEq] at hsite
                  obtain ⟨rfl, -⟩ := hsite
                  exact ⟨rfl, rfl⟩
              obtain ⟨e0, he0, hev0⟩ := addRead_event ca cb v _ _ hread
              obtain ⟨-, -, hkeys⟩ := addRead_spec ca cb v _ _ hread
              have hlenr : cb.reads.length = c.reads.length + 1 := by
                have := congrArg List.length hkeys
                simpa [hca.2] using this
              have hlen0 : cb.events.length = c.events.length := by
                rw [hev0, List.length_modify, hca.1]
              obtain ⟨hlen1, hrest⟩ := ih cb c1 frame.next _ h
              refine ⟨hlen1.trans hlen0, ?_⟩
              intro e ev he hev
              have hee : e0 = e := by
                have h1 : ca.event = c.event := event_of_length ca c (by rw [hca.1])
                rw [h1, he] at he0
                exact (Option.some.inj he0).symm
              subst hee
              have hcb : cb.events.get? e0
                  = some { ev with reads := c.reads.length :: ev.reads } := by
                rw [hev0, hca.1, hca.2, List.get?_eq_getElem?, List.getElem?_modify]
                rw [List.get?_eq_getElem?] at hev
                simp [hev]
              have := hrest e0 _ ((event_of_length cb c hlen0).trans he) hcb
              rw [this, hlenr]
              simp only [List.range_succ_eq_map, List.map_cons, List.map_map, List.reverse_cons,
                List.append_assoc, List.singleton_append, Option.some.injEq]
              congr 2
              simp only [Nat.add_zero, List.append_cancel_right_eq, List.reverse_inj]
              apply List.map_congr_left
              intro a _
              simp only [Function.comp_apply]
              omega

/-- C26: after `appendCall` with `argumentCount` arguments, the read of the argument `j` (the
frame `j` frames beneath the top of the abstract stack) is of that frame's value and bytes, it
is linked into the call event, and its target is a register site for `argumentRegister(i)` when
the word index `i` of the argument, the sum of the sizes of the arguments before it as an
`unsigned`, that is modulo 2^32, is below `argumentRegisterCount()`, and a stack site for the
frame of the argument otherwise; so it is always a stack site when `argumentRegisterCount()` is
0, as on a 32-bit target. -/
theorem appendCall_argument_targets (A : X86.Assembler.Interface) (BytesPerWord : Nat)
    (c c1 : Context) (address : ValueRef) (indirection : Int) (flags : Nat) (traceHandler : Bool)
    (result : Option ValueRef) (resultSize argumentCount : Nat)
    (h : appendCall A BytesPerWord c address indirection flags traceHandler result resultSize
      argumentCount = some c1)
    (j : Nat) (hj : j < argumentCount) :
    ∃ f frame v t site e,
      frameAt c j c.state.stack = some f ∧ c.frames.get? f = some frame ∧ frame.value = some v
      ∧ (c1.reads.get? (c.reads.length + 1 + j)).map Read.key
          = some ((frame.size * BytesPerWord) % 2 ^ 32, v, some t)
      ∧ c1.events.get? c.events.length = some e
      ∧ e.kind = .call address indirection flags traceHandler result
      ∧ c.reads.length + 1 + j ∈ e.reads
      ∧ c1.sites.get? t = some site
      ∧ (wordsBefore c j c.state.stack % 2 ^ 32 < A.argumentRegisterCount →
          ∃ r, A.argumentRegister (wordsBefore c j c.state.stack % 2 ^ 32) = some r
            ∧ site.kind = .register r X86.NoRegister)
      ∧ (¬ wordsBefore c j c.state.stack % 2 ^ 32 < A.argumentRegisterCount →
          site.kind = .stack f)
      ∧ (A.argumentRegisterCount = 0 → site.kind = .stack f)
      ∧ (X86.directAssembler 4).argumentRegisterCount = 0 := by
  unfold appendCall at h
  split at h
  · cases h
  · rename_i ca hnew
    -- the event
    have hca : ca.frames = c.frames ∧ ca.reads = c.reads ∧ ca.sites = c.sites
        ∧ ca.events = c.events
          ++ [⟨.call address indirection flags traceHandler result, c.state.stack, [], [], [],
              c.logicalIp⟩] := by
      unfold Event.new at hnew
      split_ifs at hnew
      simp only [Option.some.injEq] at hnew
      subst hnew
      exact ⟨rfl, rfl, rfl, rfl⟩
    obtain ⟨hfa, hra, hsa, hea⟩ := hca
    split at h
    rename_i cb t0 hsite
    have hcb : cb.frames = c.frames ∧ cb.reads = c.reads ∧ cb.events = ca.events := by
      split_ifs at hsite
      · simp only [newSite, Prod.map_apply, id_eq, Prod.mk.injEq] at hsite
        obtain ⟨rfl, -⟩ := hsite
        exact ⟨hfa, hra, rfl⟩
      · simp only [Prod.mk.injEq] at hsite
        obtain ⟨rfl, -⟩ := hsite
        exact ⟨hfa, hra, rfl⟩
    split at h
    · cases h
    · rename_i cc hread
      obtain ⟨hf1, -, hr1⟩ := addRead_spec cb cc address _ _ hread
      obtain ⟨e0, he0, hev0⟩ := addRead_event cb cc address _ _ hread
      split at h
      · cases h
      · rename_i cd hargs
        obtain ⟨hf2, keys, sites, hr2, hs2, hlen, hspec⟩ :=
          callArguments_spec A BytesPerWord argumentCount cc cd c.state.stack 0 (by norm_num)
            hargs
        obtain ⟨hlen2, hevent⟩ :=
          callArguments_event A BytesPerWord argumentCount cc cd c.state.stack 0 hargs
        have hframes : cc.frames = c.frames := by rw [hf1, hcb.1]
        have hlenr : cc.reads.length = c.reads.length + 1 := by
          have := congrArg List.length hr1
          simpa [hcb.2.1] using this
        -- the last statement of the constructor changes the event list at most
        have hc1 : c1.reads = cd.reads ∧ c1.sites = cd.sites
            ∧ ∀ e ev, cd.event = some e → cd.events.get? e = some ev →
                ∃ ev1, c1.events.get? e = some ev1 ∧ ev1.kind = ev.kind ∧ ev1.reads = ev.reads := by
          split at h
          · simp only [Option.some.injEq] at h
            subst h
            exact ⟨rfl, rfl, fun e ev _ hev => ⟨ev, hev, rfl, rfl⟩⟩
          · unfold addWrite at h
            split at h
            · rename_i e1 he1
              simp only [Option.some.injEq] at h
              subst h
              refine ⟨rfl, rfl, ?_⟩
              intro e ev he hev
              rw [he1] at he
              cases he
              rw [List.get?_eq_getElem?] at hev ⊢
              simp [List.getElem?_modify, hev]
            · cases h
        obtain ⟨hr3, hs3, hev3⟩ := hc1
        -- the event under construction is the last one
        have he0' : e0 = c.events.length := by
          have : cb.event = some c.events.length := by
            unfold Context.event
            rw [hcb.2.2, hea]
            simp
          rw [this] at he0
          exact (Option.some.inj he0).symm
        subst he0'
        have hcc : cc.events.get? c.events.length
            = some ⟨.call address indirection flags traceHandler result, c.state.stack,
                [c.reads.length], [], [], c.logicalIp⟩ := by
          rw [hev0, hcb.2.2, hea, hcb.2.1, List.get?_eq_getElem?, List.getElem?_modify]
          simp
        have hccev : cc.event = some c.events.length := by
          unfold Context.event
          have : cc.events.length = c.events.length + 1 := by
            rw [hev0, List.length_modify, hcb.2.2, hea]
            simp
          have hne : cc.events ≠ [] := by
            intro h0
            rw [h0] at this
            simp at this
          rw [if_neg hne, this]
          rfl
        have hcd := hevent _ _ hccev hcc
        obtain ⟨ev1, hev1, hkind1, hreads1⟩ :=
          hev3 _ _ ((event_of_length cd cc hlen2).trans hccev) hcd
        obtain ⟨f, frame, v, t, site, h1, h2, h3, h4, h5, h6, h7⟩ := hspec j hj
        refine ⟨f, frame, v, t, site, ev1, ?_, ?_, h3, ?_, hev1, hkind1, ?_, ?_, ?_, ?_, ?_, rfl⟩
        · rw [← frameAt_congr cc c hframes]
          exact h1
        · rw [← hframes]
          exact h2
        · rw [List.get?_eq_getElem?] at h4
          rw [List.get?_eq_getElem?, ← List.getElem?_map, hr3, hr2, hr1, hcb.2.1,
            List.getElem?_append_right (by simp)]
          simpa [Nat.add_sub_cancel_left] using h4
        · rw [hreads1]
          simp only [List.mem_append, List.mem_reverse, List.mem_map, List.mem_range]
          exact Or.inl ⟨j, hj, by omega⟩
        · rw [hs3]
          exact h5
        · intro hl
          rw [← wordsBefore_congr cc c hframes] at hl ⊢
          simpa using h6 (by simpa using hl)
        · intro hl
          rw [← wordsBefore_congr cc c hframes] at hl
          exact h7 (by simpa using hl)
        · intro h0
          exact h7 (by omega)

theorem appendCall_argument_targets_witness :
    ∃ c c1, sevenPushed = some c
      ∧ appendCall (X86.directAssembler 8) 8 c 0 0 0 false none 0 7 = some c1
      ∧ ∃ f frame v t site e,
        frameAt c 1 c.state.stack = some f ∧ c.frames.get? f = some frame ∧ frame.value = some v
        ∧ (c1.reads.get? (c.reads.length + 1 + 1)).map Read.key
            = some ((frame.size * 8) % 2 ^ 32, v, some t)
        ∧ c1.events.get? c.events.length = some e
        ∧ e.kind = .call 0 0 0 false none
        ∧ c.reads.length + 1 + 1 ∈ e.reads
        ∧ c1.sites.get? t = some site
        ∧ (wordsBefore c 1 c.state.stack % 2 ^ 32
              < (X86.directAssembler 8).argumentRegisterCount →
            ∃ r, (X86.directAssembler 8).argumentRegister
                  (wordsBefore c 1 c.state.stack % 2 ^ 32) = some r
              ∧ site.kind = .register r X86.NoRegister)
        ∧ (¬ wordsBefore c 1 c.state.stack % 2 ^ 32
              < (X86.directAssembler 8).argumentRegisterCount →
            site.kind = .stack f)
        ∧ ((X86.directAssembler 8).argumentRegisterCount = 0 → site.kind = .stack f)
        ∧ (X86.directAssembler 4).argumentRegisterCount = 0 := by
  have hs : sevenPushed.isSome = true := by decide
  obtain ⟨c, hc⟩ := Option.isSome_iff_exists.mp hs
  have hs1 : callOfSeven.isSome = true := by decide
  obtain ⟨c1, h1⟩ := Option.isSome_iff_exists.mp hs1
  have h : appendCall (X86.directAssembler 8) 8 c 0 0 0 false none 0 7 = some c1 := by
    unfold callOfSeven at h1
    rw [hc] at h1
    exact h1
  exact ⟨c, c1, hc, h,
    appendCall_argument_targets (X86.directAssembler 8) 8 c c1 0 0 0 false none 0 7 h 1
      (by decide)⟩

set_option maxRecDepth 100000 in
/-- C26 (counterexample): on x86-64, in the call of `callOfSeventeen` the sixteen arguments
before the last one take 2^32 words, which is not below `argumentRegisterCount()` = 6; the
`unsigned` index has wrapped to 0, and the read of the last argument, the value 1 in the frame
0, is pre-targeted to a register site for `argumentRegister(0)`, the register `rdi`, and not to
a stack site for its frame. -/
theorem call_argument_index_wraps :
    ∃ c c1, seventeenPushed = some c
      ∧ appendCall (X86.directAssembler 8) 8 c 0 0 0 false none 0 17 = some c1
      ∧ (X86.directAssembler 8).argumentRegisterCount = 6
      ∧ (X86.directAssembler 8).argumentRegister 0 = some X86.rdi
      ∧ frameAt c 16 c.state.stack = some 0
      ∧ (c.frames.get? 0).map (fun f => (f.value, f.size)) = some (some 1, 1)
      ∧ wordsBefore c 16 c.state.stack = 2 ^ 32
      ∧ (c1.reads.get? (c.reads.length + 1 + 16)).map Read.key
          = some (8, 1, some (c.sites.length + 16))
      ∧ (c1.sites.get? (c.sites.length + 16)).map (fun s => s.kind)
          = some (.register X86.rdi X86.NoRegister) := by
  have hrun : seventeenPushed.bind (fun c =>
      (appendCall (X86.directAssembler 8) 8 c 0 0 0 false none 0 17).map fun c1 =>
        decide (frameAt c 16 c.state.stack = some 0)
        && decide ((c.frames.get? 0).map (fun f => (f.value, f.size)) = some (some 1, 1))
        && decide (wordsBefore c 16 c.state.stack = 2 ^ 32)
        && decide ((c1.reads.get? (c.reads.length + 1 + 16)).map Read.key
            = some (8, 1, some (c.sites.length + 16)))
        && decide ((c1.sites.get? (c.sites.length + 16)).map (fun s => s.kind)
            = some (.register X86.rdi X86.NoRegister))) = some true := by
    decide
  obtain ⟨c, hc, hrun⟩ := Option.bind_eq_some.mp hrun
  obtain ⟨c1, h1, hrun⟩ := Option.map_eq_some'.mp hrun
  simp only [Bool.and_eq_true, decide_eq_true_eq] at hrun
  obtain ⟨⟨⟨⟨h2, h3⟩, h4⟩, h5⟩, h6⟩ := hrun
  exact ⟨c, c1, hc, h1, rfl, rfl, h2, h3, h4, h5, h6⟩

/-! ## Emission appends to the code -/

theorem Context.grownFrom.of_eq {c1 c : Context} (h : c1.assembler = c.assembler) :
    c1.grownFrom c := by
  unfold Context.grownFrom
  rw [h]

theorem Context.grownFrom.trans {c1 c2 c : Context} (h1 : c1.grownFrom c2)
    (h2 : c2.grownFrom c) : c1.grownFrom c :=
  List.IsPrefix.trans h2 h1

theorem applyUnary_grows (A : X86.Assembler.Interface) (hA : X86.Appends A) (c c1 : Context)
    (op : X86.Assembler.UnaryOperation) (size : Nat) (a : Option SiteRef)
    (h : applyUnary A c op size a = some c1) : c1.grownFrom c := by
  unfold applyUnary at h
  repeat' split at h
  all_goals first
    | (simp only [Option.map_eq_some'] at h
       obtain ⟨x, hx, rfl⟩ := h
       exact hA.2.1 _ _ _ _ _ _ _ hx)
    | cases h

theorem applyBinary_grows (A : X86.Assembler.Interface) (hA : X86.Appends A) (c c1 : Context)
    (op : X86.Assembler.BinaryOperation) (size : Nat) (a b : Option SiteRef)
    (h : applyBinary A c op size a b = some c1) : c1.grownFrom c := by
  unfold applyBinary at h
  repeat' split at h
  all_goals first
    | (simp only [Option.map_eq_some'] at h
       obtain ⟨x, hx, rfl⟩ := h
       exact hA.2.2 _ _ _ _ _ _ _ _ _ hx)
    | cases h

theorem emit_grows (c c1 : Context) (f : X86.Context → Option X86.Context)
    (hf : ∀ x x1, f x = some x1 → x.code <+: x1.code)
    (h : c.emit f = some c1) : c1.grownFrom c := by
  unfold Context.emit at h
  simp only [Option.map_eq_some'] at h
  obtain ⟨x, hx, rfl⟩ := h
  exact hf _ _ hx

theorem unlinkSite_assembler (c : Context) (r : Int) (old : ValueRef) (fuel : Nat)
    (previous current : Option SiteRef) :
    (unlinkSite c r old fuel previous current).assembler = c.assembler := by
  induction fuel generalizing previous current with
  | zero => cases current <;> rfl
  | succ n ih =>
    cases current with
    | none => rfl
    | some s =>
      simp only [unlinkSite]
      split_ifs
      · cases previous <;> rfl
      · exact ih _ _

theorem syncFrame_grows (A : X86.Assembler.Interface) (hA : X86.Appends A)
    (BytesPerWord : Nat) (c c1 : Context)
    (s : Nat) (h : syncFrame A BytesPerWord c s = some c1) : c1.grownFrom c := by
  unfold syncFrame at h
  split at h
  · cases h
  · simp only [Option.map_eq_some'] at h
    obtain ⟨c2, h2, rfl⟩ := h
    show c2.grownFrom c
    split at h2
    · split at h2
      · cases h2
      · split at h2
        · cases h2
        · split at h2
          · cases h2
          · rename_i c3 h3
            simp only [newSite, Option.some.injEq] at h2
            subst h2
            have := applyUnary_grows _ hA _ _ _ _ _ h3
            exact this
    · simp only [Option.map_eq_some'] at h2
      obtain ⟨x, hx, rfl⟩ := h2
      exact hA.2.2 _ _ _ _ _ _ _ _ _ hx

theorem syncFrames_grows (A : X86.Assembler.Interface) (hA : X86.Appends A)
    (BytesPerWord : Nat) (l : List Nat)
    (c c1 : Context) (h : syncFrames A BytesPerWord c l = some c1) : c1.grownFrom c := by
  induction l generalizing c with
  | nil =>
    simp only [syncFrames, Option.some.injEq] at h
    subst h
    exact Context.grownFrom.of_eq rfl
  | cons s rest ih =>
    simp only [syncFrames] at h
    split at h
    · cases h
    · rename_i c2 h2
      exact (ih c2 h).trans (syncFrame_grows _ hA _ _ _ _ h2)

theorem syncStack_grows (A : X86.Assembler.Interface) (hA : X86.Appends A)
    (BytesPerWord : Nat) (c c1 : Context)
    (start : StackRef) (count : Nat) (h : syncStack A BytesPerWord c start count = some c1) :
    c1.grownFrom c := by
  unfold syncStack at h
  split_ifs at h
  exact syncFrames_grows _ hA _ _ _ _ h

theorem acquire_grows (A : X86.Assembler.Interface) (hA : X86.Appends A)
    (BytesPerWord : Nat) (c c1 : Context) (r : Int)
    (stack : StackRef) (newSize : Nat) (newValue : ValueRef) (newSite : SiteRef)
    (h : acquire A BytesPerWord c r stack newSize newValue newSite = some c1) :
    c1.grownFrom c := by
  unfold acquire at h
  simp only [Option.map_eq_some'] at h
  obtain ⟨c2, h2, rfl⟩ := h
  show c2.grownFrom c
  split at h2
  · simp only [Option.some.injEq] at h2
    subst h2
    exact Context.grownFrom.of_eq rfl
  · split at h2
    · cases h2
    · split at h2
      · cases h2
      · split at h2
        · cases h2
        · rename_i c3 h3
          split at h2
          · cases h2
          · simp only [Option.some.injEq] at h2
            subst h2
            refine Context.grownFrom.trans (Context.grownFrom.of_eq (unlinkSite_assembler _ _ _ _ _ _)) ?_
            split_ifs at h3
            · exact syncStack_grows _ hA _ _ _ _ _ h3
            · simp only [Option.some.injEq] at h3
              subst h3
              exact Context.grownFrom.of_eq rfl

theorem siteAcquire_grows (A : X86.Assembler.Interface) (hA : X86.Appends A)
    (BytesPerWord : Nat) (c c1 : Context)
    (stack : StackRef) (size : Nat) (v : ValueRef) (s : SiteRef)
    (h : siteAcquire A BytesPerWord c stack size v s = some c1) : c1.grownFrom c := by
  unfold siteAcquire at h
  split at h
  · cases h
  · split at h
    · split at h
      · cases h
      · rename_i c2 h2
        split_ifs at h
        · exact (acquire_grows _ hA _ _ _ _ _ _ _ _ h).trans (acquire_grows _ hA _ _ _ _ _ _ _ _ h2)
        · simp only [Option.some.injEq] at h
          subst h
          exact acquire_grows _ hA _ _ _ _ _ _ _ _ h2
    · simp only [Option.some.injEq] at h
      subst h
      exact Context.grownFrom.of_eq rfl

theorem addSite_grows (A : X86.Assembler.Interface) (hA : X86.Appends A)
    (BytesPerWord : Nat) (c c1 : Context)
    (stack : StackRef) (size : Nat) (v : ValueRef) (s : SiteRef)
    (h : addSite A BytesPerWord c stack size v s = some c1) : c1.grownFrom c := by
  unfold addSite at h
  split at h
  · cases h
  · rename_i c2 h2
    split at h
    · cases h
    · simp only [Option.some.injEq] at h
      subst h
      have := siteAcquire_grows _ hA _ _ _ _ _ _ _ h2
      exact this

theorem freeRegisterSite_grows (A : X86.Assembler.Interface) (BytesPerWord : Nat) (c c1 : Context)
    (size : Nat) (allowAcquired : Bool) (s : SiteRef)
    (h : freeRegisterSite A BytesPerWord c size allowAcquired = some (c1, s)) :
    c1.grownFrom c := by
  unfold freeRegisterSite at h
  split_ifs at h
  · split at h
    · cases h
    · split at h
      · cases h
      · simp only [newSite, Option.some.injEq, Prod.mk.injEq] at h
        obtain ⟨rfl, _⟩ := h
        exact Context.grownFrom.of_eq rfl
  · split at h
    · cases h
    · simp only [newSite, Option.some.injEq, Prod.mk.injEq] at h
      obtain ⟨rfl, _⟩ := h
      exact Context.grownFrom.of_eq rfl

theorem target_grows (A : X86.Assembler.Interface) (BytesPerWord : Nat) (c c1 : Context)
    (size : Nat) (value : ValueRef) (s : SiteRef)
    (h : target A BytesPerWord c size value = some (c1, s)) : c1.grownFrom c := by
  unfold target at h
  repeat' split at h
  all_goals first
    | exact freeRegisterSite_grows _ _ _ _ _ _ _ h
    | (cases h <;> exact Context.grownFrom.of_eq rfl)

theorem accept_grows (A : X86.Assembler.Interface) (hA : X86.Appends A) (c c1 : Context) (this : SiteRef) (size : Nat)
    (src : Option SiteRef) (h : accept A c this size src = some c1) : c1.grownFrom c := by
  unfold accept at h
  repeat' split at h
  all_goals first
    | cases h
    | exact applyUnary_grows _ hA _ _ _ _ _ h
    | exact applyBinary_grows _ hA _ _ _ _ _ _ h

theorem unwind_grows (A : X86.Assembler.Interface) (hA : X86.Appends A)
    (BytesPerWord : Nat) (stackTop : StackRef)
    (value : ValueRef) (stackOf : Nat) (fuel : Nat) (c c1 : Context) (s : StackRef)
    (t site t1 site1 : Option SiteRef) (cost cost1 : Nat)
    (h : unwind A BytesPerWord stackTop value stackOf fuel c s t site cost
      = some (c1, t1, site1, cost1)) : c1.grownFrom c := by
  induction fuel generalizing c s t site cost with
  | zero =>
    cases s with
    | none =>
      simp only [unwind, Option.some.injEq, Prod.mk.injEq] at h
      obtain ⟨rfl, _⟩ := h
      exact Context.grownFrom.of_eq rfl
    | some s => simp [unwind] at h
  | succ n ih =>
    cases s with
    | none =>
      simp only [unwind, Option.some.injEq, Prod.mk.injEq] at h
      obtain ⟨rfl, _⟩ := h
      exact Context.grownFrom.of_eq rfl
    | some s =>
      simp only [unwind] at h
      split at h
      · cases h
      · split_ifs at h with hp hs
        · split at h
          · cases h
          · split at h
            · cases h
            · rename_i c2 t2 h2
              split at h
              · cases h
              · rename_i c3 h3
                split at h
                · cases h
                · split at h
                  · cases h
                  · simp only [Option.some.injEq, Prod.mk.injEq] at h
                    obtain ⟨rfl, _⟩ := h
                    exact (addSite_grows _ hA _ _ _ _ _ _ _ h3).trans (target_grows _ _ _ _ _ _ _ h2)
        · split at h
          · cases h
          · split at h
            · cases h
            · rename_i c2 t2 h2
              split at h
              · cases h
              · rename_i c3 h3
                have := ih _ _ _ _ _ h
                exact this.trans ((addSite_grows _ hA _ _ _ _ _ _ _ h3).trans
                  (target_grows _ _ _ _ _ _ _ h2))
        · exact ih _ _ _ _ _ h


theorem chooseSite_grows (A : X86.Assembler.Interface) (hA : X86.Appends A)
    (BytesPerWord : Nat) (c c1 : Context)
    (e : Event) (read : Read) (target t1 site1 : Option SiteRef) (cost1 : Nat)
    (h : chooseSite A BytesPerWord c e read target = some (c1, t1, site1, cost1)) :
    c1.grownFrom c := by
  unfold chooseSite at h
  repeat' split at h
  all_goals first
    | exact unwind_grows _ hA _ _ _ _ _ _ _ _ _ _ _ _ _ _ h
    | (cases h <;> exact Context.grownFrom.of_eq rfl)

theorem supplySource_grows (A : X86.Assembler.Interface) (hA : X86.Appends A)
    (BytesPerWord : Nat) (c c1 : Context)
    (e : Event) (read : Read) (target site : Option SiteRef) (copyCost : Nat)
    (h : supplySource A BytesPerWord c e read target site copyCost = some c1) :
    c1.grownFrom c := by
  unfold supplySource at h
  split at h
  · simp only [Option.map_eq_some'] at h
    obtain ⟨c4, h4, rfl⟩ := h
    show c4.grownFrom c
    split_ifs at h4
    · split at h4
      · cases h4
      · rename_i c5 h5
        exact (accept_grows _ hA _ _ _ _ _ h4).trans (addSite_grows _ hA _ _ _ _ _ _ _ h5)
    · simp only [Option.some.injEq] at h4
      subst h4
      exact Context.grownFrom.of_eq rfl
  · simp only [Option.some.injEq] at h
    subst h
    exact Context.grownFrom.of_eq rfl

theorem retireRead_grows (c c1 : Context) (value : ValueRef) (h : retireRead c value = some c1) :
    c1.grownFrom c := by
  unfold retireRead at h
  repeat' split at h
  all_goals (cases h <;> exact Context.grownFrom.of_eq rfl)

theorem processRead_grows (A : X86.Assembler.Interface) (hA : X86.Appends A)
    (BytesPerWord : Nat) (c c1 : Context)
    (e : Event) (r : ReadRef) (h : processRead A BytesPerWord c e r = some c1) :
    c1.grownFrom c := by
  unfold processRead at h
  split at h
  · cases h
  · split at h
    · cases h
    · split at h
      · cases h
      · rename_i c2 t2 site2 cost2 h2
        split at h
        · cases h
        · rename_i c3 h3
          exact (retireRead_grows _ _ _ h).trans
            ((supplySource_grows _ hA _ _ _ _ _ _ _ _ h3).trans (chooseSite_grows _ hA _ _ _ _ _ _ _ _ _ h2))

theorem processReads_grows (A : X86.Assembler.Interface) (hA : X86.Appends A)
    (BytesPerWord : Nat) (e : Event)
    (l : List ReadRef) (c c1 : Context) (h : processReads A BytesPerWord e c l = some c1) :
    c1.grownFrom c := by
  induction l generalizing c with
  | nil =>
    simp only [processReads, Option.some.injEq] at h
    subst h
    exact Context.grownFrom.of_eq rfl
  | cons r rest ih =>
    simp only [processReads] at h
    split at h
    · cases h
    · rename_i c2 h2
      exact (ih c2 h).trans (processRead_grows _ hA _ _ _ _ _ h2)

theorem processWrites_grows (A : X86.Assembler.Interface) (hA : X86.Appends A)
    (BytesPerWord : Nat) (e : Event)
    (l : List Write) (c c1 : Context) (h : processWrites A BytesPerWord e c l = some c1) :
    c1.grownFrom c := by
  induction l generalizing c with
  | nil =>
    simp only [processWrites, Option.some.injEq] at h
    subst h
    exact Context.grownFrom.of_eq rfl
  | cons w rest ih =>
    simp only [processWrites] at h
    split at h
    · cases h
    · rename_i c2 t h2
      split at h
      · cases h
      · rename_i c3 h3
        have h4 := addSite_grows _ hA _ _ _ _ _ _ _ h3
        have h5 : c2.grownFrom c := target_grows _ _ _ _ _ _ _ h2
        exact (ih c3 h).trans (h4.trans h5)


theorem Event.compile_grows (A : X86.Assembler.Interface) (hA : X86.Appends A)
    (BytesPerWord : Nat) (c c1 : Context) (kind : EventKind)
    (h : Event.compile A BytesPerWord c kind = some c1) : c1.grownFrom c := by
  cases kind with
  | push =>
    simp only [Event.compile, Option.some.injEq] at h
    subst h
    exact Context.grownFrom.of_eq rfl
  | pop _ _ =>
    simp only [Event.compile, Option.some.injEq] at h
    subst h
    exact Context.grownFrom.of_eq rfl
  | memory _ _ _ =>
    simp only [Event.compile, Option.some.injEq] at h
    subst h
    exact Context.grownFrom.of_eq rfl
  | move type size src dst => exact applyBinary_grows _ hA _ _ _ _ _ _ h
  | compare size first second => exact applyBinary_grows _ hA _ _ _ _ _ _ h
  | combine type size first second result => exact applyBinary_grows _ hA _ _ _ _ _ _ h
  | branch type address => exact applyUnary_grows _ hA _ _ _ _ _ h
  | translate type size value result => exact applyUnary_grows _ hA _ _ _ _ _ h
  | return_ value =>
    simp only [Event.compile] at h
    split at h
    · cases h
    · rename_i c2 h2
      split at h
      · cases h
      · rename_i c3 h3
        exact (emit_grows _ _ _ (hA.1 _) h).trans
          ((emit_grows _ _ _ (hA.2.1 _ _ _ _ _) h3).trans
            (emit_grows _ _ _ (hA.2.2 _ _ _ _ _ _ _) h2))
  | call address indirection flags traceHandler result =>
    simp only [Event.compile, Option.map_eq_some'] at h
    obtain ⟨c2, h2, rfl⟩ := h
    have hb : c2.grownFrom c := by
      split_ifs at h2
      all_goals exact (applyUnary_grows _ hA _ _ _ _ _ h2).trans (Context.grownFrom.of_eq rfl)
    split_ifs
    · exact Context.grownFrom.trans (Context.grownFrom.of_eq rfl) hb
    · exact hb

theorem compileEvent_grows (A : X86.Assembler.Interface) (hA : X86.Appends A)
    (BytesPerWord : Nat) (c c1 : Context) (e : Event)
    (h : compileEvent A BytesPerWord c e = some c1) : c1.grownFrom c := by
  unfold compileEvent at h
  simp only at h
  split at h
  · cases h
  · rename_i c2 h2
    split at h
    · cases h
    · rename_i c3 h3
      split at h
      · cases h
      · rename_i c4 h4
        simp only [Option.some.injEq] at h
        subst h
        exact Context.grownFrom.trans (Context.grownFrom.of_eq rfl)
          ((Event.compile_grows _ hA _ _ _ _ h4).trans
            ((processWrites_grows _ hA _ _ _ _ _ h3).trans
              ((processReads_grows _ hA _ _ _ _ _ h2).trans (Context.grownFrom.of_eq rfl))))

theorem compileEvents_grows (A : X86.Assembler.Interface) (hA : X86.Appends A)
    (BytesPerWord : Nat) (l : List Event) (c c1 : Context)
    (h : compileEvents A BytesPerWord c l = some c1) : c1.grownFrom c := by
  induction l generalizing c with
  | nil =>
    simp only [compileEvents, Option.some.injEq] at h
    subst h
    exact Context.grownFrom.of_eq rfl
  | cons e rest ih =>
    simp only [compileEvents] at h
    split at h
    · cases h
    · rename_i c2 h2
      exact (ih c2 h).trans (compileEvent_grows _ hA _ _ _ _ h2)

/-! ## The prologue -/

theorem stackAdjustment_eq_nil (stackOffset : Nat) :
    stackAdjustment stackOffset = [] ↔ stackOffset = 0 := by
  unfold stackAdjustment
  split_ifs with h0 h1
  · simp [h0]
  · simp [h0]
  · simp [h0]

/-- On x86-64 the first statements of `compile` push rbp and move rsp to it, and subtract the
bytes of `stackOffset` words from rsp when that is a positive amount below 2^31. -/
theorem prologue_bytes (c : Context) (hoff : c.stackOffset * 8 < 2 ^ 31) :
    prologue (X86.directAssembler 8) 8 c
      = some { c with assembler := { c.assembler with
          code := c.assembler.code ++ [0x55, 0x48, 0x89, 0xe5]
            ++ stackAdjustment c.stackOffset } } := by
  have hmod : c.stackOffset * 8 % 2 ^ 32 = c.stackOffset * 8 :=
    Nat.mod_eq_of_lt (by omega)
  have hpush : ∀ cs x, (X86.directAssembler 8).apply1 cs .push 8 .register
      (.register (X86.reg (X86.directAssembler 8).base)) x = X86.pushR 8 x 8 (X86.reg X86.rbp) :=
    fun _ _ => rfl
  have hmove : ∀ cs x, (X86.directAssembler 8).apply2 cs .move 8 .register
      (.register (X86.reg (X86.directAssembler 8).stack)) .register
      (.register (X86.reg (X86.directAssembler 8).base)) x
        = X86.moveRR 8 x 8 (X86.reg X86.rsp) 8 (X86.reg X86.rbp) :=
    fun _ _ => rfl
  have hsub : ∀ cs p x, (X86.directAssembler 8).apply2 cs .subtract 8 .constant
      (.constant p) .register (.register (X86.reg (X86.directAssembler 8).stack)) x
        = X86.subtractCR 8 cs x 8 p 8 (X86.reg X86.rsp) :=
    fun _ _ _ => rfl
  unfold prologue
  simp only [Context.emit, hpush, hmove, hsub, X86.pushR_rbp, X86.moveRR_rsp_rbp,
    Option.map_some', hmod]
  by_cases h0 : c.stackOffset = 0
  · simp [h0, stackAdjustment]
  · have hn : c.stackOffset * 8 ≠ 0 := by omega
    simp only [ne_eq, h0, not_false_eq_true, if_true, X86.subtractCR_rsp _ _ _ hn hoff,
      stackAdjustment, if_false, Option.map_some']
    split_ifs <;> simp

/-- C22 (counterexample): with the assembler of x86.cpp, whose tables have no encoder for
`Push` (here the cell is null), `compile` does not return and emits nothing, with no event and
with a return event alike; and with `Push` encoded by `pushR`, for a `stackOffset` of 2^29 words,
whose bytes wrap to 0 in an `unsigned`, the code of the prologue is 55 48 89 E5 alone. -/
theorem compile_push_not_registered :
    X86.registeredUnary .push .register = false
    ∧ (compile (X86.MyAssembler.interface 8 X86.ArchitectureContext.zeroed) 8
        (Context.create (X86.MyAssembler.interface 8 X86.ArchitectureContext.zeroed) 1 0)).isSome
        = false
    ∧ (compile (X86.MyAssembler.interface 8 X86.ArchitectureContext.zeroed) 8
        returnInFrame).isSome = false
    ∧ (Context.create (X86.directAssembler 8) 1 (2 ^ 29)).stackOffset ≠ 0
    ∧ (prologue (X86.directAssembler 8) 8 (Context.create (X86.directAssembler 8) 1 (2 ^ 29))).map
        (fun c => c.assembler.code) = some [0x55, 0x48, 0x89, 0xe5] := by
  refine ⟨?_, ?_, ?_, ?_, ?_⟩ <;> decide

/-- C22 (amended): on x86-64, with `Push` on a register encoded by `pushR` and the bytes of
`stackOffset` words below 2^31, the first statements of `compile` return and append exactly 55
48 89 E5 and then the subtraction of `stackOffset * 8` from rsp, which is no instruction if and
only if `stackOffset` is 0; the events are compiled from there, for every list of events, and
whatever `compile` returns begins with the code there was and these bytes. -/
theorem compile_begins_with_prologue (c : Context) (hoff : c.stackOffset * 8 < 2 ^ 31) :
    ∃ c0, prologue (X86.directAssembler 8) 8 c = some c0
      ∧ c0.assembler.code
          = c.assembler.code ++ [0x55, 0x48, 0x89, 0xe5] ++ stackAdjustment c.stackOffset
      ∧ (stackAdjustment c.stackOffset = [] ↔ c.stackOffset = 0)
      ∧ compile (X86.directAssembler 8) 8 c
          = compileEvents (X86.directAssembler 8) 8 c0 c.events
      ∧ ∀ c1, compile (X86.directAssembler 8) 8 c = some c1 →
          ∃ rest, c1.assembler.code
            = c.assembler.code ++ [0x55, 0x48, 0x89, 0xe5] ++ stackAdjustment c.stackOffset
              ++ rest := by
  obtain ⟨c0, hp, hcode⟩ : ∃ c0, prologue (X86.directAssembler 8) 8 c = some c0
      ∧ c0.assembler.code
        = c.assembler.code ++ [0x55, 0x48, 0x89, 0xe5] ++ stackAdjustment c.stackOffset :=
    ⟨_, prologue_bytes c hoff, rfl⟩
  have hc : compile (X86.directAssembler 8) 8 c
      = compileEvents (X86.directAssembler 8) 8 c0 c.events := by
    unfold compile compileUpTo
    rw [hp, List.take_length]
  refine ⟨c0, hp, hcode, stackAdjustment_eq_nil _, hc, ?_⟩
  intro c1 h1
  rw [hc] at h1
  obtain ⟨rest, hrest⟩ :=
    compileEvents_grows _ (X86.directAssembler_appends 8) _ _ _ _ h1
  exact ⟨rest, by rw [← hrest, hcode]⟩

theorem compile_begins_with_prologue_witness :
    returnInFrame.stackOffset * 8 < 2 ^ 31
    ∧ (∃ c0, prologue (X86.directAssembler 8) 8 returnInFrame = some c0
      ∧ c0.assembler.code
          = returnInFrame.assembler.code ++ [0x55, 0x48, 0x89, 0xe5]
            ++ stackAdjustment returnInFrame.stackOffset
      ∧ (stackAdjustment returnInFrame.stackOffset = [] ↔ returnInFrame.stackOffset = 0)
      ∧ compile (X86.directAssembler 8) 8 returnInFrame
          = compileEvents (X86.directAssembler 8) 8 c0 returnInFrame.events
      ∧ ∀ c1, compile (X86.directAssembler 8) 8 returnInFrame = some c1 →
          ∃ rest, c1.assembler.code
            = returnInFrame.assembler.code ++ [0x55, 0x48, 0x89, 0xe5]
              ++ stackAdjustment returnInFrame.stackOffset ++ rest)
    ∧ (compile (X86.directAssembler 8) 8 returnInFrame).map (fun c => c.assembler.code)
        = some [0x55, 0x48, 0x89, 0xe5, 0x48, 0x83, 0xec, 0x18, 0x48, 0x89, 0xec, 0x5d, 0xc3] :=
  ⟨by decide, compile_begins_with_prologue returnInFrame (by decide), by decide⟩

/-! ## The registers of a free register site -/

/-- C33: the site `freeRegister(size, allowAcquired)` returns is a new register site; its low
register is the one the two-argument `freeRegister` returns, which is not reserved; its high
register is `NoRegister` unless the target is 32-bit and the size is 8, and then it is what
`freeRegisterExcept` returns with the low register excluded, chosen after it: a register that
is not the low one and not reserved. -/
theorem freeRegister_site_registers (A : X86.Assembler.Interface) (BytesPerWord : Nat)
    (c c1 : Context) (size : Nat) (allowAcquired : Bool) (s : SiteRef)
    (h : freeRegisterSite A BytesPerWord c size allowAcquired = some (c1, s)) :
    ∃ low high, c1.sites.get? s = some ⟨.register low high, none⟩
      ∧ s = c.sites.length
      ∧ c1.registers = c.registers
      ∧ freeRegister A c allowAcquired = some low
      ∧ (c.registers low).reserved = false
      ∧ (¬ (BytesPerWord = 4 ∧ size = 8) → high = X86.NoRegister)
      ∧ (BytesPerWord = 4 ∧ size = 8 →
          freeRegisterExcept A c low allowAcquired = some high
          ∧ high ≠ low ∧ high ≠ X86.NoRegister ∧ (c.registers high).reserved = false) := by
  unfold freeRegisterSite at h
  split_ifs at h with hw
  · split at h
    · cases h
    · rename_i low hlow
      split at h
      · cases h
      · rename_i high hhigh
        simp only [newSite, Option.some.injEq, Prod.mk.injEq] at h
        obtain ⟨rfl, rfl⟩ := h
        have h1 := freeRegisterExcept_some A c _ _ _ hlow
        have h2 := freeRegisterExcept_some A c _ _ _ hhigh
        refine ⟨low, high, by simp, rfl, rfl, hlow, h1.2.1, fun hn => absurd hw hn, fun _ => ?_⟩
        refine ⟨hhigh, h2.1, ?_, h2.2.1⟩
        intro hno
        have := h2.2.2.1
        rw [hno] at this
        exact absurd this (by decide)
  · split at h
    · cases h
    · rename_i low hlow
      simp only [newSite, Option.some.injEq, Prod.mk.injEq] at h
      obtain ⟨rfl, rfl⟩ := h
      have h1 := freeRegisterExcept_some A c _ _ _ hlow
      exact ⟨low, X86.NoRegister, by simp, rfl, rfl, hlow, h1.2.1, fun _ => rfl,
        fun hn => absurd hn hw⟩

theorem freeRegister_site_registers_witness :
    ∃ c1 s, freeRegisterSite (X86.directAssembler 4) 4
        (Context.create (X86.directAssembler 4) 0 0) 8 false = some (c1, s)
      ∧ ∃ low high, c1.sites.get? s = some ⟨.register low high, none⟩
        ∧ s = (Context.create (X86.directAssembler 4) 0 0).sites.length
        ∧ c1.registers = (Context.create (X86.directAssembler 4) 0 0).registers
        ∧ freeRegister (X86.directAssembler 4) (Context.create (X86.directAssembler 4) 0 0) false
            = some low
        ∧ ((Context.create (X86.directAssembler 4) 0 0).registers low).reserved = false
        ∧ (¬ (4 = 4 ∧ 8 = 8) → high = X86.NoRegister)
        ∧ (4 = 4 ∧ 8 = 8 →
            freeRegisterExcept (X86.directAssembler 4) (Context.create (X86.directAssembler 4) 0 0)
              low false = some high
            ∧ high ≠ low ∧ high ≠ X86.NoRegister
            ∧ ((Context.create (X86.directAssembler 4) 0 0).registers high).reserved = false) := by
  have hs : (freeRegisterSite (X86.directAssembler 4) 4
      (Context.create (X86.directAssembler 4) 0 0) 8 false).isSome = true := by decide
  obtain ⟨⟨c1, s⟩, h⟩ := Option.isSome_iff_exists.mp hs
  exact ⟨c1, s, h, freeRegister_site_registers _ _ _ _ _ _ _ h⟩

/-! ## The slot after the register table -/

/-- C36 (failing input): on x86-64, where `registerCount()` is 8, `freeRegisterExcept` returns
8 for the register table as the constructor leaves it, an index that is not below
`registerCount()`; and for a table that is the same in the slots 0 to 7 and has a slot marked
reserved after them it returns 7: what it returns depends on the slot after the table. -/
theorem freeRegisterExcept_depends_on_slot_past_table :
    (X86.directAssembler 8).registerCount = 8
    ∧ freeRegisterExcept (X86.directAssembler 8) (Context.create (X86.directAssembler 8) 0 0)
        X86.NoRegister false = some 8
    ∧ (∀ r : Int, r ≠ 8 →
        reservedPastTable.registers r = (Context.create (X86.directAssembler 8) 0 0).registers r)
    ∧ freeRegisterExcept (X86.directAssembler 8) reservedPastTable X86.NoRegister false
        = some 7 := by
  refine ⟨rfl, by decide, ?_, by decide⟩
  intro r hr
  exact Function.update_noteq hr _ _

/-! ## The numbers of the registers of the architecture -/

/-- C37 (failing input): on x86-64 `registerCount()` is 8 and there are 6 argument registers;
`argumentRegister(4)` is `r8`, number 8, and `argumentRegister(5)` is `r9`, number 9, neither of
them below `registerCount()`; adding a register site for `r9` to a value writes the slot 9 of
the register table.  The other registers handed out are below 8. -/
theorem argument_registers_reach_past_table :
    (X86.directAssembler 8).registerCount = 8
    ∧ (X86.directAssembler 8).argumentRegisterCount = 6
    ∧ (X86.directAssembler 8).argumentRegister 4 = some 8
    ∧ (X86.directAssembler 8).argumentRegister 5 = some 9
    ∧ sixthArgumentSite.map (fun c => (c.registers 9).value) = some (some 0)
    ∧ (List.range 4).map (X86.directAssembler 8).argumentRegister = [some 7, some 6, some 2, some 1]
    ∧ (X86.directAssembler 8).returnLow = 0
    ∧ (X86.directAssembler 8).returnHigh = X86.NoRegister
    ∧ (X86.directAssembler 8).stack = 4
    ∧ (X86.directAssembler 8).thread = 3
    ∧ (X86.directAssembler 4).registerCount = 8
    ∧ (X86.directAssembler 4).argumentRegisterCount = 0
    ∧ (X86.directAssembler 4).returnLow = 0
    ∧ (X86.directAssembler 4).returnHigh = 2
    ∧ (X86.directAssembler 4).stack = 4
    ∧ (X86.directAssembler 4).thread = 3 := by
  refine ⟨rfl, rfl, rfl, rfl, by decide, by decide, rfl, rfl, rfl, rfl, rfl, rfl, rfl, rfl, rfl,
    rfl⟩

/-! ## The first and the last event of a logical instruction -/

/-- C35 (failing input): in `twoLogicalIps` the event 0 is appended under the logical IP 0 and
the event 1 under the logical IP 1.  When the front end is done, the logical instruction 0 has
the event 0 as its first and its last event, and the logical instruction 1, the one started
last, has the event 1 as its first event and no last event. -/
theorem last_event_of_last_logical_ip_is_null :
    ∃ c, twoLogicalIps = some c
      ∧ c.logicalIp = 1
      ∧ c.events.map (fun e => e.logicalIp) = [0, 1]
      ∧ c.logicalCode.map (fun li => (li.firstEvent, li.lastEvent))
          = [(some 0, some 0), (some 1, none)] := by
  refine ⟨_, rfl, by decide, by decide, by decide⟩

/-! ## The predecessor of a logical instruction -/

/-- C39 (failing input): after `init` the predecessor of every logical instruction is 0, which
is not negative.  In `twoLogicalIps` no predecessor is ever recorded, and `updateJunctions`
passes the stack of the last event of the logical instruction 0 to `markStack` for the junction
of the logical IP 1 and for that of the logical IP 0; in `oneLogicalIp` it reads through the
null `lastEvent` of the logical instruction 0. -/
theorem predecessor_after_init_is_zero :
    (∀ n s, ∀ li ∈ (Context.create (X86.directAssembler 8) n s).logicalCode, li.predecessor = 0)
    ∧ (∃ c, twoLogicalIps = some c
        ∧ c.junctions = [1, 0]
        ∧ c.logicalCode.map (fun li => li.predecessor) = [0, 0]
        ∧ c.frames.length = 1
        ∧ updateJunctions c c.junctions = some [some 0, some 0])
    ∧ (∃ c, oneLogicalIp = some c
        ∧ c.junctions = [0]
        ∧ c.logicalCode.map (fun li => (li.predecessor, li.lastEvent)) = [(0, none)]
        ∧ updateJunctions c c.junctions = none) := by
  refine ⟨?_, ⟨_, rfl, by decide, by decide, by decide, by decide⟩,
    ⟨_, rfl, by decide, by decide, by decide⟩⟩
  intro n s li hli
  simp only [Context.create, List.mem_replicate] at hli
  rw [hli.2]

/-! ## syncStack -/

set_option maxRecDepth 100000 in
/-- C38 (failing input): in `spillTwice`, when `compile` reaches the move to `v7`, the value
`v1` lives in the register 8 only, has a read outstanding, and owns the frames 1 and 0, neither
of them pushed.  The register handed out for `v7` is 8; the loop of `acquire` leaves `start` at
the frame 0 and `count` at 2, while one frame only can be reached from the frame 0. -/
theorem acquire_counts_from_first_match :
    ∃ c e, (spillTwice.bind fun c => compileUpTo (X86.directAssembler 8) 8 c 8) = some c
      ∧ c.events.get? 8 = some e
      ∧ e.kind = .move .move 8 12 13
      ∧ e.stack = some 1
      ∧ c.frames.map (fun f => (f.value, f.next, f.pushed))
          = [(some 1, none, false), (some 1, some 0, false)]
      ∧ (c.registers 8).value = some 1
      ∧ c.sitesOf 1 = [8]
      ∧ (c.values.get? 1).map (fun v => v.reads) = some (some 7)
      ∧ freeRegister (X86.directAssembler 8) c true = some 8
      ∧ spillRange c 1 c.frames.length (some 1) none 0 = (some 0, 2)
      ∧ segment c 2 (some 0) = [0]
      ∧ segment c c.frames.length (some 0) = [0]
      ∧ (syncStack (X86.directAssembler 8) 8 c (some 0) 2).isSome = false
      ∧ (compileEvent (X86.directAssembler 8) 8 c e).isSome = false := by
  have hrun : (spillTwice.bind fun c => compileUpTo (X86.directAssembler 8) 8 c 8).map
      (fun c =>
        decide ((c.events.get? 8).map (fun e =>
            (e.kind, e.stack, (compileEvent (X86.directAssembler 8) 8 c e).isSome))
            = some (.move .move 8 12 13, some 1, false))
        && decide (c.frames.map (fun f => (f.value, f.next, f.pushed))
            = [(some 1, none, false), (some 1, some 0, false)])
        && decide ((c.registers 8).value = some 1)
        && decide (c.sitesOf 1 = [8])
        && decide ((c.values.get? 1).map (fun v => v.reads) = some (some 7))
        && decide (freeRegister (X86.directAssembler 8) c true = some 8)
        && decide (spillRange c 1 c.frames.length (some 1) none 0 = (some 0, 2))
        && decide (segment c 2 (some 0) = [0])
        && decide (segment c c.frames.length (some 0) = [0])
        && decide ((syncStack (X86.directAssembler 8) 8 c (some 0) 2).isSome = false))
      = some true := by
    decide
  simp only [Option.map_eq_some', Bool.and_eq_true, decide_eq_true_eq, Prod.mk.injEq] at hrun
  obtain ⟨c, hc, ⟨⟨⟨⟨⟨⟨⟨⟨⟨⟨e, he, hk, hst, hce⟩, h2⟩, h3⟩, h4⟩, h5⟩, h6⟩, h7⟩, h8⟩, h9⟩, h10⟩⟩ := hrun
  exact ⟨c, e, hc, he, hk, hst, h2, h3, h4, by simpa using h5, h6, h7, h8, h9, h10, hce⟩

end Compiler

end Avian
